import Mathlib

/-!
# MultiBranch node: pin index manager and lowering compiler

A shallow embedding of `K2Node_MultiBranch.cpp` (class `UK2Node_MultiBranch` and its node
handler `FKCHandler_MultiBranch`) and the properties proved of it.

Modelling choices.

* The node is its ordered pin array `Pins : List UEdGraphPin`. A pin record carries the
  identity of the pin object (`PinId`, the pointer), so that an assignment through a pointer
  (`Pin->PinName = ...`) is an update of the record with that identity, and `Pins.Remove(Pin)`
  removes the entries with that identity.
* `FName` and `FString` are `String`. Two pin names, which are `FName` values, are compared
  with `FNameEq`, without regard to the case of letters, as the engine compares them; the
  `FString` functions (`Split`, called with `ESearchCase::CaseSensitive`, and `Atoi`) work on
  the exact text. Pin categories are the constants of the schema and compared as they are.
* `int32` case indices and array sizes are `Int` and `Nat`: an array has fewer than `2^31`
  entries, so none of the index computations of the source overflows.
* A failed `check(...)` and the dereference of a null pin stop the operation: getters return
  `none`, mutating operations return `Outcome.checkFailed` with the pin array of that moment.
* `Modify()`, `MarkAsGarbage()` and `MarkBlueprintAsStructurallyModified` act on the
  transaction buffer, on the removed objects and on the blueprint; they leave the pin array as it
  is and are not modelled.
* Functions of the host (pin creation and lookup, string functions, the compiler context) are
  modelled by what the specification says of them; each such definition says so.
-/

namespace MultiBranch

/-! ## Strings -/

/-- Search of `FString::Split` on character lists: the text before and after the first
occurrence of `InS`, or `none` when `InS` does not occur. -/
def SplitChars (InS : List Char) : List Char → Option (List Char × List Char)
  | [] => if InS.isPrefixOf [] then some ([], []) else none
  | c :: cs =>
    if InS.isPrefixOf (c :: cs) then some ([], (c :: cs).drop InS.length)
    else (SplitChars InS cs).map (fun lr => (c :: lr.1, lr.2))

/-- Modelled from the spec: `FString::Split(InS, &Left, &Right, ESearchCase::CaseSensitive)` of
the host, used to strip the name prefix: `S` is cut at the first occurrence of `InS`; `none`
is the result `false`. -/
def Split (S InS : String) : Option (String × String) :=
  (SplitChars InS.data S.data).map (fun lr => (String.mk lr.1, String.mk lr.2))

/-- White space skipped by `atoi`. -/
def IsSpace (c : Char) : Bool :=
  c == ' ' || c == '\t' || c == '\n' || c == '\x0b' || c == '\x0c' || c == '\r'

/-- Value of the longest prefix of decimal digits, `0` when there is none. -/
def AtoiDigits (s : List Char) : Nat :=
  (s.takeWhile Char.isDigit).foldl (fun acc c => 10 * acc + (c.toNat - 48)) 0

/-- Modelled from the spec: `FCString::Atoi` of the host, the parse of the trailing integer:
optional white space, an optional sign, then decimal digits up to the first other character. -/
def Atoi (S : String) : Int :=
  match S.data.dropWhile IsSpace with
  | '-' :: r => - (AtoiDigits r : Int)
  | '+' :: r => (AtoiDigits r : Int)
  | r => (AtoiDigits r : Int)

/-- Modelled from the spec: `FName::operator==` of the host, the comparison of two names. The
engine compares names without regard to the case of their letters: `Execute` and `execute` are
the same name. -/
def FNameEq (A B : String) : Bool :=
  A.data.map Char.toLower == B.data.map Char.toLower

/-- `UK2Node_MultiBranch::GetCasePinName`: `FString::Printf(TEXT("%s_%d"), *Prefix, CaseIndex)`. -/
def GetCasePinName (Prefix : String) (CaseIndex : Int) : String :=
  Prefix ++ "_" ++ toString CaseIndex

/-- `UK2Node_MultiBranch::GetCasePinFriendlyName`:
`FString::Printf(TEXT("%s %d"), *Prefix, CaseIndex)`. -/
def GetCasePinFriendlyName (Prefix : String) (CaseIndex : Int) : String :=
  Prefix ++ " " ++ toString CaseIndex

/-! ## Pins and the pin array -/

/-- Direction of a pin. -/
inductive EEdGraphPinDirection where
  | EGPD_Input
  | EGPD_Output
  deriving DecidableEq

open EEdGraphPinDirection

/-- One pin object of the graph. `PinId` is the identity of the object (the value of the
`UEdGraphPin*` pointer); `LinkedTo` holds the identities of the pins of other nodes it is
connected to. The pin category is an engine name (`"exec"`, `"bool"`, `"object"`, ...). -/
structure UEdGraphPin where
  PinId : Nat
  PinName : String
  PinFriendlyName : String
  Direction : EEdGraphPinDirection
  PinCategory : String
  LinkedTo : List Nat
  deriving DecidableEq

/-- `UEdGraphSchema_K2::PC_Exec`, the execution category. -/
def PC_Exec : String := "exec"

/-- `UEdGraphSchema_K2::PC_Boolean`, the boolean category. -/
def PC_Boolean : String := "bool"

/-- `UEdGraphSchema_K2::PC_Object`, the object-reference category. -/
def PC_Object : String := "object"

/-- `UEdGraphSchema_K2::PN_Execute`, the name of the trigger pin. -/
def PN_Execute : String := "execute"

/-- Name of the default execution pin. -/
def DefaultExecPinName : String := "DefaultExec"

/-- Name prefix of the case execution pins. -/
def CaseExecPinNamePrefix : String := "CaseExec"

/-- Name prefix of the case condition pins. -/
def CaseCondPinNamePrefix : String := "CaseCond"

/-- Display name of the default execution pin. -/
def DefaultExecPinFriendlyName : String := "Default"

/-- Display-name prefix of the case execution pins. -/
def CaseExecPinFriendlyNamePrefix : String := "Case"

/-- Display-name prefix of the case condition pins. -/
def CaseCondPinFriendlyNamePrefix : String := "Case"

/-- Set in the constructor of the node: `ConditionPreProcessFuncName = TEXT("Not_PreBool")`. -/
def ConditionPreProcessFuncName : String := "Not_PreBool"

/-- Modelled from the spec: `CasePinPair` is declared in the header of the node class, which is
not among the sources; it is the pair (Key = condition pin, Value = execution pin). -/
abbrev CasePinPair := UEdGraphPin × UEdGraphPin

/-- Result of a mutating operation on the pin array. `done Pins`: the operation returned and left
the array `Pins`. `checkFailed Pins`: the operation stopped at a failed `check(...)`
(or at the dereference of a null pin), the array being `Pins` at that moment. -/
inductive Outcome where
  | done (Pins : List UEdGraphPin)
  | checkFailed (Pins : List UEdGraphPin)
  deriving DecidableEq

/-- Modelled from the spec: `UEdGraphSchema_K2::IsExecPin` of the host, the test for the
execution category. -/
def IsExecPin (Pin : UEdGraphPin) : Bool := Pin.PinCategory == PC_Exec

/-- `UK2Node_MultiBranch::IsCasePin`: true unless the pin carries one of the three fixed names;
`Pin->GetFName() == Name` is the comparison of `FName` values. -/
def IsCasePin (Pin : UEdGraphPin) : Bool :=
  [PN_Execute, DefaultExecPinName, ConditionPreProcessFuncName].all
    (fun Name => !FNameEq Pin.PinName Name)

/-- Modelled from the spec: `UEdGraphNode::FindPin` of the host, the first pin of the array that
carries the name (an `FName`), or null. -/
def FindPin (Pins : List UEdGraphPin) (Name : String) : Option UEdGraphPin :=
  Pins.find? (fun P => FNameEq P.PinName Name)

/-- Reading a pin object through its pointer: the record of the array with this identity. -/
def Deref (Pins : List UEdGraphPin) (Ptr : Nat) : Option UEdGraphPin :=
  Pins.find? (fun P => P.PinId == Ptr)

/-- Writing `PinName` and `PinFriendlyName` through a pin pointer. -/
def SetPinNames (Pins : List UEdGraphPin) (Ptr : Nat) (Name FriendlyName : String) :
    List UEdGraphPin :=
  Pins.map (fun P =>
    if P.PinId = Ptr then { P with PinName := Name, PinFriendlyName := FriendlyName } else P)

/-- Writing `PinFriendlyName` through a pin pointer. -/
def SetPinFriendlyName (Pins : List UEdGraphPin) (Ptr : Nat) (FriendlyName : String) :
    List UEdGraphPin :=
  Pins.map (fun P => if P.PinId = Ptr then { P with PinFriendlyName := FriendlyName } else P)

/-- Identity given to a newly allocated pin object: one that no pin of the array has. -/
def NewObject (Pins : List UEdGraphPin) : Nat :=
  (Pins.map (fun P => P.PinId)).foldr max 0 + 1

/-- Modelled from the spec: `UEdGraphNode::CreatePin` of the host (pin creation at a given storage
position): a new pin object without links and with an empty display name is inserted at
`Index` when that is a valid index of the array, and appended otherwise. Returns the array and
the new pin. -/
def CreatePin (Pins : List UEdGraphPin) (Dir : EEdGraphPinDirection) (Category Name : String)
    (Index : Int) : List UEdGraphPin × UEdGraphPin :=
  let NewPin : UEdGraphPin :=
    { PinId := NewObject Pins, PinName := Name, PinFriendlyName := "", Direction := Dir,
      PinCategory := Category, LinkedTo := [] }
  if 0 ≤ Index ∧ Index < (Pins.length : Int) then
    (Pins.take Index.toNat ++ NewPin :: Pins.drop Index.toNat, NewPin)
  else
    (Pins ++ [NewPin], NewPin)

/-! ## Lookup helpers -/

/-- `UK2Node_MultiBranch::GetCondPinFromExecPin`. -/
def GetCondPinFromExecPin (Pins : List UEdGraphPin) (ExecPin : UEdGraphPin) :
    Option UEdGraphPin :=
  match Split ExecPin.PinName CaseExecPinNamePrefix with
  | none => none
  | some (_, Suffix) => FindPin Pins (CaseCondPinNamePrefix ++ Suffix)

/-- `UK2Node_MultiBranch::GetExecPinFromCondPin`. -/
def GetExecPinFromCondPin (Pins : List UEdGraphPin) (CondPin : UEdGraphPin) :
    Option UEdGraphPin :=
  match Split CondPin.PinName CaseCondPinNamePrefix with
  | none => none
  | some (_, Suffix) => FindPin Pins (CaseExecPinNamePrefix ++ Suffix)

/-- `UK2Node_MultiBranch::GetCaseIndexFromCasePin(const FString& Prefix, UEdGraphPin* Pin)`;
`none` is the failed `check(IsCasePin(Pin))`, `some (-1)` the not-found sentinel. -/
def GetCaseIndexFromCasePin_Prefix (Prefix : String) (Pin : UEdGraphPin) : Option Int :=
  if !IsCasePin Pin then none
  else
    match Split Pin.PinName (Prefix ++ "_") with
    | none => some (-1)
    | some (_, IndexStr) => some (Atoi IndexStr)

/-- `UK2Node_MultiBranch::GetCaseIndexFromCaseExecPin`; `none` is a failed check. -/
def GetCaseIndexFromCaseExecPin (Pin : UEdGraphPin) : Option Int :=
  if Pin.Direction ≠ EGPD_Output then none
  else if !IsCasePin Pin then none
  else if !IsExecPin Pin then none
  else GetCaseIndexFromCasePin_Prefix CaseExecPinNamePrefix Pin

/-- `UK2Node_MultiBranch::GetCaseIndexFromCaseCondPin`; `none` is a failed check. -/
def GetCaseIndexFromCaseCondPin (Pin : UEdGraphPin) : Option Int :=
  if Pin.Direction ≠ EGPD_Input then none
  else if !IsCasePin Pin then none
  else if IsExecPin Pin then none
  else GetCaseIndexFromCasePin_Prefix CaseCondPinNamePrefix Pin

/-- `UK2Node_MultiBranch::GetCaseIndexFromCasePin(UEdGraphPin* Pin)`; `none` is a failed check. -/
def GetCaseIndexFromCasePin (Pin : UEdGraphPin) : Option Int :=
  if !IsCasePin Pin then none
  else if IsExecPin Pin then GetCaseIndexFromCaseExecPin Pin
  else GetCaseIndexFromCaseCondPin Pin

/-- `UK2Node_MultiBranch::GetCaseCondPinFromCaseIndex`: the first pin that passes the guard and
whose index is `CaseIndex`. The guard of the loop is the conjunction of the three checks of
`GetCaseIndexFromCaseCondPin`, so the `none` branch below is never taken
(`GetCaseIndexFromCaseCondPin_isSome`). -/
def GetCaseCondPinFromCaseIndex (Pins : List UEdGraphPin) (CaseIndex : Int) :
    Option UEdGraphPin :=
  Pins.find? (fun P =>
    (!IsExecPin P && P.Direction == EGPD_Input && IsCasePin P) &&
      match GetCaseIndexFromCaseCondPin P with
      | some ActualIndex => ActualIndex != -1 && ActualIndex == CaseIndex
      | none => false)

/-- `UK2Node_MultiBranch::GetCaseExecPinFromCaseIndex`; see `GetCaseCondPinFromCaseIndex`. -/
def GetCaseExecPinFromCaseIndex (Pins : List UEdGraphPin) (CaseIndex : Int) :
    Option UEdGraphPin :=
  Pins.find? (fun P =>
    (IsExecPin P && P.Direction == EGPD_Output && IsCasePin P) &&
      match GetCaseIndexFromCaseExecPin P with
      | some ActualIndex => ActualIndex != -1 && ActualIndex == CaseIndex
      | none => false)

/-- The loop of `GetCasePinCount`: candidates `Index = n-1, n-2, ..., 0`. -/
def GetCasePinCount_scan (Pins : List UEdGraphPin) : Nat → Int
  | 0 => 0
  | Index + 1 =>
    if (GetCaseCondPinFromCaseIndex Pins Index).isSome &&
        (GetCaseExecPinFromCaseIndex Pins Index).isSome then
      (Index : Int) + 1
    else GetCasePinCount_scan Pins Index

/-- `UK2Node_MultiBranch::GetCasePinCount`: `for (Index = Pins.Num() / 2; Index >= 0; --Index)`. -/
def GetCasePinCount (Pins : List UEdGraphPin) : Int :=
  GetCasePinCount_scan Pins (Pins.length / 2 + 1)

/-- `UK2Node_MultiBranch::GetCasePinPair`; `none` is the failed `check(Pair.Key)` /
`check(Pair.Value)`. -/
def GetCasePinPair (Pins : List UEdGraphPin) (Pin : UEdGraphPin) : Option CasePinPair :=
  if IsExecPin Pin then
    match GetCondPinFromExecPin Pins Pin with
    | some Key => some (Key, Pin)
    | none => none
  else
    match GetExecPinFromCondPin Pins Pin with
    | some Value => some (Pin, Value)
    | none => none

/-- `UK2Node_MultiBranch::GetCasePinPairs`. The array is created with `GetCasePinCount()` default
entries (`none`: both pointers null) and filled at the index of each case execution pin; the
outer `none` is a failed check or an out-of-range `CasePairs[Index]`. -/
def GetCasePinPairs (Pins : List UEdGraphPin) : Option (List (Option CasePinPair)) :=
  Pins.foldlM (fun CasePairs P =>
      if IsExecPin P && P.Direction == EGPD_Output && IsCasePin P then
        match GetCaseIndexFromCaseExecPin P, GetCasePinPair Pins P with
        | some Index, some Pair =>
          if 0 ≤ Index ∧ Index < (CasePairs.length : Int) then
            some (CasePairs.set Index.toNat (some Pair))
          else none
        | _, _ => none
      else some CasePairs)
    (List.replicate (GetCasePinCount Pins).toNat none)

/-! ## Mutating operations -/

/-- `UK2Node_MultiBranch::CreateExecTriggeringPin`. -/
def CreateExecTriggeringPin (Pins : List UEdGraphPin) : List UEdGraphPin :=
  (CreatePin Pins EGPD_Input PC_Exec PN_Execute 0).1

/-- `UK2Node_MultiBranch::CreateDefaultExecPin`. -/
def CreateDefaultExecPin (Pins : List UEdGraphPin) : List UEdGraphPin :=
  let r := CreatePin Pins EGPD_Output PC_Exec DefaultExecPinName 1
  SetPinFriendlyName r.1 r.2.PinId DefaultExecPinFriendlyName

/-- `UK2Node_MultiBranch::CreateFunctionPin` (the flags and the default object of the pin are not
part of the pin record). -/
def CreateFunctionPin (Pins : List UEdGraphPin) : List UEdGraphPin :=
  (CreatePin Pins EGPD_Input PC_Object ConditionPreProcessFuncName 2).1

/-- `UK2Node_MultiBranch::AllocateDefaultPins`. -/
def AllocateDefaultPins (Pins : List UEdGraphPin) : List UEdGraphPin :=
  CreateFunctionPin (CreateDefaultExecPin (CreateExecTriggeringPin Pins))

/-- `UK2Node_MultiBranch::AddCasePinPair`; returns the array and the new pair. -/
def AddCasePinPair (Pins : List UEdGraphPin) (CaseIndex : Int) :
    List UEdGraphPin × CasePinPair :=
  let N := GetCasePinCount Pins
  let k := CreatePin Pins EGPD_Input PC_Boolean
    (GetCasePinName CaseCondPinNamePrefix CaseIndex) (3 + CaseIndex)
  let Pins1 := SetPinFriendlyName k.1 k.2.PinId
    (GetCasePinFriendlyName CaseCondPinFriendlyNamePrefix CaseIndex)
  let Key : UEdGraphPin :=
    { k.2 with PinFriendlyName := GetCasePinFriendlyName CaseCondPinFriendlyNamePrefix CaseIndex }
  let v := CreatePin Pins1 EGPD_Output PC_Exec
    (GetCasePinName CaseExecPinNamePrefix CaseIndex) (3 + N + CaseIndex + 1)
  let Pins2 := SetPinFriendlyName v.1 v.2.PinId
    (GetCasePinFriendlyName CaseExecPinFriendlyNamePrefix CaseIndex)
  let Value : UEdGraphPin :=
    { v.2 with PinFriendlyName := GetCasePinFriendlyName CaseExecPinFriendlyNamePrefix CaseIndex }
  (Pins2, (Key, Value))

/-- `UK2Node_MultiBranch::ReallocatePinsDuringReconstruction`: the loop
`for (Index = 0; Index < CasePinCount; ++Index) AddCasePinPair(Index)`, as `n` further rounds
from `Index`. -/
def ReallocatePins_addLoop : Nat → Int → List UEdGraphPin → List UEdGraphPin
  | 0, _, Pins => Pins
  | n + 1, Index, Pins => ReallocatePins_addLoop n (Index + 1) (AddCasePinPair Pins Index).1

/-- `UK2Node_MultiBranch::ReallocatePinsDuringReconstruction`. -/
def ReallocatePinsDuringReconstruction (Pins OldPins : List UEdGraphPin) : List UEdGraphPin :=
  let Pins3 := CreateFunctionPin (CreateDefaultExecPin (CreateExecTriggeringPin Pins))
  let CasePinCount : Nat :=
    (OldPins.filter (fun Pin =>
      IsExecPin Pin && Pin.Direction == EGPD_Output && IsCasePin Pin)).length
  ReallocatePins_addLoop CasePinCount 0 Pins3

/-- `UK2Node_MultiBranch::AddInputPin`. -/
def AddInputPin (Pins : List UEdGraphPin) : Outcome :=
  let N := GetCasePinCount Pins
  Outcome.done (AddCasePinPair Pins N).1

/-- The loop shared by `AddCasePinAfter` and `AddCasePinBefore` ("Restore cond-exec pin pair
name"): `for (Index = Start; Index < CasePairs.Num(); ++Index)` renames the pair saved at
`Index` to `Index + 1`, through the saved pointers. `n` is the number of rounds left. -/
def RestoreCasePinNames (CasePairs : List (Option CasePinPair)) :
    Nat → Int → List UEdGraphPin → Outcome
  | 0, _, Pins => Outcome.done Pins
  | n + 1, Index, Pins =>
    if Index < 0 then Outcome.checkFailed Pins
    else
      match CasePairs[Index.toNat]? with
      | some (some (CaseCondPin, CaseExecPin)) =>
        let Pins1 := SetPinNames Pins CaseExecPin.PinId
          (GetCasePinName CaseExecPinNamePrefix (Index + 1))
          (GetCasePinFriendlyName CaseExecPinFriendlyNamePrefix (Index + 1))
        let Pins2 := SetPinNames Pins1 CaseCondPin.PinId
          (GetCasePinName CaseCondPinNamePrefix (Index + 1))
          (GetCasePinFriendlyName CaseCondPinFriendlyNamePrefix (Index + 1))
        RestoreCasePinNames CasePairs n (Index + 1) Pins2
      | _ => Outcome.checkFailed Pins

/-- Body shared by `AddCasePinAfter` (`Offset = 1`) and `AddCasePinBefore` (`Offset = 0`) once
the pin is known to be non-null and owned by a node of this class. -/
def AddCasePinNextTo (Pins : List UEdGraphPin) (Pin : UEdGraphPin) (Offset : Int) : Outcome :=
  match GetCasePinPair Pins Pin with
  | none => Outcome.checkFailed Pins
  | some (CaseCondPin, CaseExecPin) =>
    match GetCaseIndexFromCaseCondPin CaseCondPin, GetCaseIndexFromCaseExecPin CaseExecPin with
    | some CaseIndex, some ExecIndex =>
      if CaseIndex ≠ ExecIndex then Outcome.checkFailed Pins
      else
        match GetCasePinPairs Pins with
        | none => Outcome.checkFailed Pins
        | some CasePairs =>
          let Pins1 := (AddCasePinPair Pins (CaseIndex + Offset)).1
          RestoreCasePinNames CasePairs
            ((CasePairs.length : Int) - (CaseIndex + Offset)).toNat (CaseIndex + Offset) Pins1
    | _, _ => Outcome.checkFailed Pins

/-- `UK2Node_MultiBranch::AddCasePinAfter`. `Pin = none` is the null pointer; `OwnerNode` tells
whether `Cast<UK2Node_MultiBranch>(Pin->GetOwningNode())` is non-null, as it is for every pin of
this node. -/
def AddCasePinAfter (Pins : List UEdGraphPin) (Pin : Option UEdGraphPin) (OwnerNode : Bool) :
    Outcome :=
  match Pin with
  | none => Outcome.done Pins
  | some Pin => if OwnerNode then AddCasePinNextTo Pins Pin 1 else Outcome.done Pins

/-- `UK2Node_MultiBranch::AddCasePinBefore`; arguments as for `AddCasePinAfter`. -/
def AddCasePinBefore (Pins : List UEdGraphPin) (Pin : Option UEdGraphPin) (OwnerNode : Bool) :
    Outcome :=
  match Pin with
  | none => Outcome.done Pins
  | some Pin => if OwnerNode then AddCasePinNextTo Pins Pin 0 else Outcome.done Pins

/-- The renumbering loop of `RemoveCasePinAt`: `for (auto& P : Pins)` walks the pointers of the
array, reads each pin in its current state and renames the case execution pins, each with the
condition pin found for it by name, to `Index, Index + 1, ...`. The loop removes no pin, so
every pointer of the array resolves and the first `none` branch is never taken; the second one
is the assignment through a null condition pin, after the execution pin has been renamed. -/
def RemoveCasePinAt_renumber : List Nat → Int → List UEdGraphPin → Outcome
  | [], _, Pins => Outcome.done Pins
  | Ptr :: Rest, Index, Pins =>
    match Deref Pins Ptr with
    | none => RemoveCasePinAt_renumber Rest Index Pins
    | some P =>
      if IsExecPin P && P.Direction == EGPD_Output && IsCasePin P then
        let Pins1 := SetPinNames Pins P.PinId
          (GetCasePinName CaseExecPinNamePrefix Index)
          (GetCasePinFriendlyName CaseExecPinFriendlyNamePrefix Index)
        match GetCondPinFromExecPin Pins P with
        | none => Outcome.checkFailed Pins1
        | some CaseCondPin =>
          let Pins2 := SetPinNames Pins1 CaseCondPin.PinId
            (GetCasePinName CaseCondPinNamePrefix Index)
            (GetCasePinFriendlyName CaseCondPinFriendlyNamePrefix Index)
          RemoveCasePinAt_renumber Rest (Index + 1) Pins2
      else RemoveCasePinAt_renumber Rest Index Pins

/-- `UK2Node_MultiBranch::RemoveCasePinAt`. `Pins.Remove(p)` removes every entry equal to the
pointer. -/
def RemoveCasePinAt (Pins : List UEdGraphPin) (CaseIndex : Int) : Outcome :=
  match GetCaseExecPinFromCaseIndex Pins CaseIndex, GetCaseCondPinFromCaseIndex Pins CaseIndex with
  | some CaseExecPinToRemove, some CaseCondPinToRemove =>
    let Pins1 := Pins.filter (fun P => P.PinId != CaseExecPinToRemove.PinId)
    let Pins2 := Pins1.filter (fun P => P.PinId != CaseCondPinToRemove.PinId)
    RemoveCasePinAt_renumber (Pins2.map (fun P => P.PinId)) 0 Pins2
  | _, _ => Outcome.checkFailed Pins

/-- `UK2Node_MultiBranch::RemoveInputPin`; arguments as for `AddCasePinAfter`. -/
def RemoveInputPin (Pins : List UEdGraphPin) (Pin : Option UEdGraphPin) (OwnerNode : Bool) :
    Outcome :=
  match Pin with
  | none => Outcome.done Pins
  | some Pin =>
    if OwnerNode then
      match GetCaseIndexFromCasePin Pin with
      | none => Outcome.checkFailed Pins
      | some CaseIndex => RemoveCasePinAt Pins CaseIndex
    else Outcome.done Pins

/-- `UK2Node_MultiBranch::RemoveFirstCasePin`. -/
def RemoveFirstCasePin (Pins : List UEdGraphPin) : Outcome := RemoveCasePinAt Pins 0

/-- `UK2Node_MultiBranch::RemoveLastCasePin`. -/
def RemoveLastCasePin (Pins : List UEdGraphPin) : Outcome :=
  RemoveCasePinAt Pins (GetCasePinCount Pins - 1)

/-! ## Lowering compiler -/

/-- The statement kinds that `Compile` emits. -/
inductive EKismetCompiledStatementType where
  | KCST_CallFunction
  | KCST_GotoIfNot
  | KCST_UnconditionalGoto
  deriving DecidableEq

open EKismetCompiledStatementType

/-- A terminal of the compiler (`FBPTerminal*`): the scratch boolean `Inverted` that
`RegisterNets` creates for the node, or the terminal that the net map of the context holds for
the net of a pin. -/
inductive FBPTerminal where
  | Inverted
  | Net (Pin : Nat)
  deriving DecidableEq

/-- A compiled statement; `StatementType` is the field `Type` of the source. -/
structure FBlueprintCompiledStatement where
  StatementType : EKismetCompiledStatementType
  FunctionToCall : Option String
  FunctionContext : Option FBPTerminal
  LHS : Option FBPTerminal
  RHS : List FBPTerminal
  deriving DecidableEq

/-- What compiling one node leaves in the function context and in the message log: the
statements appended for the node, the jump fixups requested (statement position in
`Statements`, target pin pointer) and the diagnostics. -/
structure FKismetFunctionContext where
  Statements : List FBlueprintCompiledStatement
  GotoFixupRequestMap : List (Nat × Option Nat)
  Errors : List String
  Warnings : List String
  deriving DecidableEq

/-- Modelled from the spec: `FKismetFunctionContext::FindRequiredPinByName` of the host, the
trigger-pin lookup of the validation step: the pin of that name and direction, or null. -/
def FindRequiredPinByName (Pins : List UEdGraphPin) (PinName : String)
    (RequiredDirection : EEdGraphPinDirection) : Option UEdGraphPin :=
  Pins.find? (fun P => FNameEq P.PinName PinName && P.Direction == RequiredDirection)

/-- Modelled from the spec: `FKismetFunctionContext::ValidatePinType` of the host, for the
expected type built in `Compile` (category `PC_Exec`). -/
def ValidatePinType (Pin : UEdGraphPin) (ExpectedCategory : String) : Bool :=
  Pin.PinCategory == ExpectedCategory

/-- Modelled from the spec: the reflection lookup `FindUField<UFunction>` of the host for the
function pin; the boolean-negation function `Not_PreBool` of the math library resolves. -/
def FindUField (FunctionName : String) : Option String :=
  if FNameEq FunctionName "Not_PreBool" then some "Not_PreBool" else none

/-- `UK2Node_MultiBranch::GetDefaultExecPin`. -/
def GetDefaultExecPin (Pins : List UEdGraphPin) : Option UEdGraphPin :=
  FindPin Pins DefaultExecPinName

/-- `UK2Node_MultiBranch::GetFunctionPin`. -/
def GetFunctionPin (Pins : List UEdGraphPin) : Option UEdGraphPin :=
  FindPin Pins ConditionPreProcessFuncName

/-- Modelled from the spec: `FNodeHandlingFunctor::GenerateSimpleThenGoto` of the host: one
unconditional jump whose target is registered as a fixup against the given pin. -/
def GenerateSimpleThenGoto (Context : FKismetFunctionContext) (ThenExecPin : Option UEdGraphPin) :
    FKismetFunctionContext :=
  { Context with
    Statements := Context.Statements ++
      [{ StatementType := KCST_UnconditionalGoto, FunctionToCall := none, FunctionContext := none,
         LHS := none, RHS := [] }]
    GotoFixupRequestMap := Context.GotoFixupRequestMap ++
      [(Context.Statements.length, ThenExecPin.map (fun P => P.PinId))] }

/-- The pin loop of `FKCHandler_MultiBranch::Compile`; `none` is the dereference of a null
condition pin. -/
def Compile_loop (Pins : List UEdGraphPin) (FunctionPtr : String) (FunctionContext : FBPTerminal) :
    List UEdGraphPin → FKismetFunctionContext → Option FKismetFunctionContext
  | [], Context => some Context
  | ExecPin :: Rest, Context =>
    if ExecPin.Direction ≠ EGPD_Output then
      Compile_loop Pins FunctionPtr FunctionContext Rest Context
    else if FNameEq ExecPin.PinName DefaultExecPinName then
      Compile_loop Pins FunctionPtr FunctionContext Rest Context
    else if ExecPin.LinkedTo.length == 0 then
      Compile_loop Pins FunctionPtr FunctionContext Rest Context
    else
      match GetCondPinFromExecPin Pins ExecPin with
      | none => none
      | some CondPin =>
        let CallFuncStatement : FBlueprintCompiledStatement :=
          { StatementType := KCST_CallFunction, FunctionToCall := some FunctionPtr,
            FunctionContext := some FunctionContext, LHS := some FBPTerminal.Inverted,
            RHS := [FBPTerminal.Net CondPin.PinId] }
        let GotoStatement : FBlueprintCompiledStatement :=
          { StatementType := KCST_GotoIfNot, FunctionToCall := none, FunctionContext := none,
            LHS := some FBPTerminal.Inverted, RHS := [] }
        Compile_loop Pins FunctionPtr FunctionContext Rest
          { Context with
            Statements := Context.Statements ++ [CallFuncStatement, GotoStatement]
            GotoFixupRequestMap := Context.GotoFixupRequestMap ++
              [(Context.Statements.length + 1, some ExecPin.PinId)] }

/-- `FKCHandler_MultiBranch::Compile` on the pin array of the node, from an empty statement list
and message log. `none`: the function stopped at a failed check or at a null dereference. -/
def Compile (Pins : List UEdGraphPin) : Option FKismetFunctionContext :=
  let Context : FKismetFunctionContext :=
    { Statements := [], GotoFixupRequestMap := [], Errors := [], Warnings := [] }
  match FindRequiredPinByName Pins PN_Execute EGPD_Input with
  | none =>
    some { Context with Errors := ["@@ must have a valid execution pin @@"] }
  | some ExecTriggeringPin =>
    if !ValidatePinType ExecTriggeringPin PC_Exec then
      some { Context with Errors := ["@@ must have a valid execution pin @@"] }
    else if ExecTriggeringPin.LinkedTo.length == 0 then
      some { Context with Warnings := ["@@ will never be executed"] }
    else
      let DefaultExecPin := GetDefaultExecPin Pins
      match GetFunctionPin Pins with
      | none => none
      | some FunctionPin =>
        match FindUField FunctionPin.PinName with
        | none => none
        | some FunctionPtr =>
          match Compile_loop Pins FunctionPtr (FBPTerminal.Net FunctionPin.PinId) Pins Context with
          | none => none
          | some Context1 => some (GenerateSimpleThenGoto Context1 DefaultExecPin)

/-! ## Execution of the emitted statements -/

/-- Running a statement list from its statement number `pc` (the head of the list) with the
scratch boolean holding `Scratch`: `KCST_CallFunction` of the negation function stores the
negation of its argument in the scratch boolean, `KCST_GotoIfNot` jumps to its fixup target
exactly when the scratch boolean is false, `KCST_UnconditionalGoto` jumps. `Value` gives the
boolean carried by the net of each pin. The result is the pin against which the jump taken was
registered (`some none`: a jump registered against a null pin); `none`: no jump was taken. -/
def RunStatements (Fixups : List (Nat × Option Nat)) (Value : Nat → Bool) :
    List FBlueprintCompiledStatement → Nat → Bool → Option (Option Nat)
  | [], _, _ => none
  | S :: Rest, pc, Scratch =>
    match S.StatementType with
    | KCST_CallFunction =>
      match S.FunctionToCall, S.LHS, S.RHS with
      | some Function, some FBPTerminal.Inverted, [FBPTerminal.Net Cond] =>
        if Function = ConditionPreProcessFuncName then
          RunStatements Fixups Value Rest (pc + 1) (!Value Cond)
        else none
      | _, _, _ => none
    | KCST_GotoIfNot =>
      if Scratch = false then Fixups.lookup pc
      else RunStatements Fixups Value Rest (pc + 1) Scratch
    | KCST_UnconditionalGoto => Fixups.lookup pc

/-! ## Well-formed nodes -/

/-- Name, direction and category of a pin. -/
def PinSignature (P : UEdGraphPin) : String × EEdGraphPinDirection × String :=
  (P.PinName, P.Direction, P.PinCategory)

/-- Name, direction and category of the condition pin of case `i`. -/
def CondSig (i : Nat) : String × EEdGraphPinDirection × String :=
  (GetCasePinName CaseCondPinNamePrefix i, EGPD_Input, PC_Boolean)

/-- Name, direction and category of the execution pin of case `i`. -/
def ExecSig (i : Nat) : String × EEdGraphPinDirection × String :=
  (GetCasePinName CaseExecPinNamePrefix i, EGPD_Output, PC_Exec)

/-- Name, direction and category of the trigger pin, the default pin and the function pin. -/
def FixedSig : List (String × EEdGraphPinDirection × String) :=
  [(PN_Execute, EGPD_Input, PC_Exec), (DefaultExecPinName, EGPD_Output, PC_Exec),
   (ConditionPreProcessFuncName, EGPD_Input, PC_Object)]

/-- A node is well-formed with `N` cases when its pin array is exactly: the trigger pin (input,
exec), the `DefaultExec` pin (output, exec), the function pin (input, object), then
`CaseCond_0 .. CaseCond_{N-1}` (input, boolean) in ascending order, then
`CaseExec_0 .. CaseExec_{N-1}` (output, exec) in ascending order. The entries of the array are
distinct pin objects (an object has one name, and these names are pairwise different). -/
def WellFormed (Pins : List UEdGraphPin) (N : Nat) : Prop :=
  Pins.map PinSignature =
      FixedSig ++ (List.range N).map CondSig ++ (List.range N).map ExecSig ∧
    (Pins.map (fun P => P.PinId)).Nodup

instance (Pins : List UEdGraphPin) (N : Nat) : Decidable (WellFormed Pins N) := by
  unfold WellFormed; infer_instance

/-! ## Sequences of edit operations -/

/-- The edit operations on the pin array, with their arguments. -/
inductive PinOp where
  | addInput
  | addBefore (Pin : UEdGraphPin)
  | addAfter (Pin : UEdGraphPin)
  | removeInput (Pin : UEdGraphPin)
  | removeAt (CaseIndex : Int)

/-- Running one operation. The pin arguments are pins of this node, so the cast of their
owning node succeeds. -/
def PinOp.apply : PinOp → List UEdGraphPin → Outcome
  | PinOp.addInput, Pins => AddInputPin Pins
  | PinOp.addBefore Pin, Pins => AddCasePinBefore Pins (some Pin) true
  | PinOp.addAfter Pin, Pins => AddCasePinAfter Pins (some Pin) true
  | PinOp.removeInput Pin, Pins => RemoveInputPin Pins (some Pin) true
  | PinOp.removeAt CaseIndex, Pins => RemoveCasePinAt Pins CaseIndex

/-- The arguments an operation is called with: a pin argument is a case pin of the node, a
case index lies in `0 .. N-1` for the current number of cases. -/
def PinOp.Admissible : PinOp → List UEdGraphPin → Prop
  | PinOp.addInput, _ => True
  | PinOp.addBefore Pin, Pins => Pin ∈ Pins ∧ IsCasePin Pin = true
  | PinOp.addAfter Pin, Pins => Pin ∈ Pins ∧ IsCasePin Pin = true
  | PinOp.removeInput Pin, Pins => Pin ∈ Pins ∧ IsCasePin Pin = true
  | PinOp.removeAt CaseIndex, Pins => 0 ≤ CaseIndex ∧ CaseIndex < GetCasePinCount Pins

/-- The pin arrays reached from `AllocateDefaultPins` on a new node by finitely many
operations, each called with admissible arguments and run to its return. -/
inductive Reachable : List UEdGraphPin → Prop where
  | init : Reachable (AllocateDefaultPins [])
  | step (Pins Pins1 : List UEdGraphPin) (op : PinOp) :
      Reachable Pins → op.Admissible Pins → op.apply Pins = Outcome.done Pins1 → Reachable Pins1

/-! ## What the claims say of insertion and removal -/

/-- The name prefix of a case pin: `CaseExec` for an execution pin, `CaseCond` otherwise. -/
def CasePinNamePrefix (P : UEdGraphPin) : String :=
  if IsExecPin P then CaseExecPinNamePrefix else CaseCondPinNamePrefix

/-- A case pin carrying the name and the display name `"Case n"` of case `n`; pin object,
direction, category and links are those of `P`. -/
def WithCaseIndex (P : UEdGraphPin) (n : Int) : UEdGraphPin :=
  { P with PinName := GetCasePinName (CasePinNamePrefix P) n,
           PinFriendlyName := GetCasePinFriendlyName "Case" n }

/-- State of a pre-existing pin after an insertion at point `j`: a case pin of index `i >= j`
carries index `i + 1`, every other pin is unchanged. -/
def ShiftedUp (j : Int) (P : UEdGraphPin) : UEdGraphPin :=
  match GetCaseIndexFromCasePin P with
  | some i => if j ≤ i then WithCaseIndex P (i + 1) else P
  | none => P

/-- `Pins1` is `Pins` after an insertion at point `j`: the pins of `Pins` are all there, as the
same objects in the same relative order, in the state `ShiftedUp j`; besides them there are
exactly two pin objects, new and different from each other: a condition pin and an execution
pin of index `j`, in this order, with the display name `Case j` and without links. -/
def IsInsertionAt (Pins Pins1 : List UEdGraphPin) (j : Int) : Prop :=
  Pins1.filter (fun P => decide (P.PinId ∈ Pins.map (fun Q => Q.PinId))) =
      Pins.map (ShiftedUp j) ∧
    (Pins1.filter (fun P => decide (P.PinId ∉ Pins.map (fun Q => Q.PinId)))).map
        (fun P => (P.PinName, P.PinFriendlyName, P.Direction, P.PinCategory, P.LinkedTo)) =
      [(GetCasePinName CaseCondPinNamePrefix j, GetCasePinFriendlyName "Case" j, EGPD_Input,
          PC_Boolean, []),
       (GetCasePinName CaseExecPinNamePrefix j, GetCasePinFriendlyName "Case" j, EGPD_Output,
          PC_Exec, [])] ∧
    (Pins1.map (fun P => P.PinId)).Nodup

instance (Pins Pins1 : List UEdGraphPin) (j : Int) : Decidable (IsInsertionAt Pins Pins1 j) := by
  unfold IsInsertionAt; infer_instance

/-- State of a surviving pin after the removal of case `i`, as the claim has it: a case pin of
index `j > i` carries index `j - 1`, every other pin is unchanged. -/
def ShiftedDown (i : Int) (P : UEdGraphPin) : UEdGraphPin :=
  match GetCaseIndexFromCasePin P with
  | some j => if i < j then WithCaseIndex P (j - 1) else P
  | none => P

/-- State of a surviving pin after the removal of case `i`, as the renumbering loop leaves it:
every case pin is written, with index `j - 1` when its index was `j > i` and with its own
index `j` otherwise; the other pins are unchanged. -/
def Renumbered (i : Int) (P : UEdGraphPin) : UEdGraphPin :=
  match GetCaseIndexFromCasePin P with
  | some j => WithCaseIndex P (if i < j then j - 1 else j)
  | none => P

/-- The pins that are not the condition pin or the execution pin of case `i`. -/
def WithoutCase (Pins : List UEdGraphPin) (i : Int) : List UEdGraphPin :=
  Pins.filter (fun P => GetCaseIndexFromCasePin P != some i)

/-- The display name of the pin is the one this class writes: a pin that carries the case index
`i` has the display name `Case i`; nothing is asked of a pin without case index. -/
def HasGeneratedDisplayName (P : UEdGraphPin) : Bool :=
  match GetCaseIndexFromCasePin P with
  | some i => P.PinFriendlyName == GetCasePinFriendlyName "Case" i
  | none => true

/-- The case pins of the array carry the display names this class writes. Every assignment to
`PinFriendlyName` of a case pin in the source (`AddCasePinPair`, the renaming loops of
`AddCasePinAfter`, `AddCasePinBefore` and `RemoveCasePinAt`) gives the pin of index `i` the
display name `Case i`, and no code of the class gives it another one. -/
def GeneratedDisplayNames (Pins : List UEdGraphPin) : Prop :=
  ∀ P ∈ Pins, HasGeneratedDisplayName P = true

instance (Pins : List UEdGraphPin) : Decidable (GeneratedDisplayNames Pins) := by
  unfold GeneratedDisplayNames; infer_instance

/-! ## What the claims say of the compiled statements -/

/-- The call-function statement that applies the negation function bound to `FunctionPin` to
the condition value of `CondPin` and stores the result in the scratch boolean of the node. -/
def NegateStatement (FunctionPin CondPin : UEdGraphPin) : FBlueprintCompiledStatement :=
  { StatementType := KCST_CallFunction, FunctionToCall := some ConditionPreProcessFuncName,
    FunctionContext := some (FBPTerminal.Net FunctionPin.PinId),
    LHS := some FBPTerminal.Inverted, RHS := [FBPTerminal.Net CondPin.PinId] }

/-- The `GotoIfNot` statement on the scratch boolean of the node. -/
def GotoIfNotStatement : FBlueprintCompiledStatement :=
  { StatementType := KCST_GotoIfNot, FunctionToCall := none, FunctionContext := none,
    LHS := some FBPTerminal.Inverted, RHS := [] }

/-- The unconditional jump. -/
def GotoStatement : FBlueprintCompiledStatement :=
  { StatementType := KCST_UnconditionalGoto, FunctionToCall := none, FunctionContext := none,
    LHS := none, RHS := [] }

/-- The cases `0 .. N-1` of a node in ascending order, each as (condition pin, execution pin),
read off the storage positions `3 + i` and `3 + N + i`. -/
def CasesInOrder (Pins : List UEdGraphPin) (N : Nat) : List (UEdGraphPin × UEdGraphPin) :=
  ((Pins.drop 3).take N).zip (Pins.drop (3 + N))

/-- The cases whose execution pin has at least one link, in ascending order. -/
def LinkedCases (Pins : List UEdGraphPin) (N : Nat) : List (UEdGraphPin × UEdGraphPin) :=
  (CasesInOrder Pins N).filter (fun ce => ce.2.LinkedTo.length != 0)

/-- Two statements per case: the negation of the condition, then the conditional jump. -/
def CaseStatements (FunctionPin : UEdGraphPin) (Cases : List (UEdGraphPin × UEdGraphPin)) :
    List FBlueprintCompiledStatement :=
  Cases.flatMap (fun ce => [NegateStatement FunctionPin ce.1, GotoIfNotStatement])

/-- The fixups of the conditional jumps: the jump of each case, the second of its two
statements, is registered against the execution pin of the case; `n` is the number of the
first statement. -/
def CaseFixups : Nat → List (UEdGraphPin × UEdGraphPin) → List (Nat × Option Nat)
  | _, [] => []
  | n, ce :: Cases => (n + 1, some ce.2.PinId) :: CaseFixups (n + 2) Cases

/-- The pin that receives control under first-match semantics: the execution pin of the first
case, in the given order, whose condition value is true, and the default pin when there is
none. -/
def FirstMatch (Value : Nat → Bool) (Cases : List (UEdGraphPin × UEdGraphPin))
    (DefaultExecPin : UEdGraphPin) : Nat :=
  match Cases.find? (fun ce => Value ce.1.PinId) with
  | some ce => ce.2.PinId
  | none => DefaultExecPin.PinId

/-- A pin whose display name is set to the one generated for its case index; a pin that is not
a case pin is unchanged. -/
def WithGeneratedDisplayName (P : UEdGraphPin) : UEdGraphPin :=
  match GetCaseIndexFromCasePin P with
  | some j => { P with PinFriendlyName := GetCasePinFriendlyName "Case" j }
  | none => P

/-! ## What the claims say of counting and of lookups -/

/-- The count that the specification prefers to the scan of `GetCasePinCount`: a forward pass
over the pin array that counts the output case-execution pins (execution category, output
direction, classified as a case pin). -/
def CountCaseExecPins (Pins : List UEdGraphPin) : Nat :=
  Pins.countP (fun P => IsExecPin P && P.Direction == EGPD_Output && IsCasePin P)

/-- The text `InS` occurs somewhere in `S`: one of the tails of `S` starts with `InS`. -/
def Occurs (InS S : String) : Bool :=
  S.data.tails.any (fun t => InS.data.isPrefixOf t)

/-- The pin carries one of the three fixed names (trigger, default, function pin); names are
compared as `FName` values, without regard to case. -/
def HasFixedName (P : UEdGraphPin) : Prop :=
  FNameEq P.PinName PN_Execute = true ∨ FNameEq P.PinName DefaultExecPinName = true ∨
    FNameEq P.PinName ConditionPreProcessFuncName = true

instance (P : UEdGraphPin) : Decidable (HasFixedName P) := by
  unfold HasFixedName; infer_instance

/-- What the pin record shows of a pin besides its identity: name, display name, direction,
category and links. -/
def PinState (P : UEdGraphPin) :
    String × String × EEdGraphPinDirection × String × List Nat :=
  (P.PinName, P.PinFriendlyName, P.Direction, P.PinCategory, P.LinkedTo)

/-! ## Example nodes -/

/-- A well-formed node with three cases: the trigger pin is linked, the execution pin of case 0
has no link, those of cases 1 and 2 are linked. -/
def ThreeCaseNode : List UEdGraphPin :=
  [{ PinId := 1, PinName := "execute", PinFriendlyName := "", Direction := EGPD_Input,
     PinCategory := "exec", LinkedTo := [100] },
   { PinId := 2, PinName := "DefaultExec", PinFriendlyName := "Default", Direction := EGPD_Output,
     PinCategory := "exec", LinkedTo := [] },
   { PinId := 3, PinName := "Not_PreBool", PinFriendlyName := "", Direction := EGPD_Input,
     PinCategory := "object", LinkedTo := [] },
   { PinId := 4, PinName := "CaseCond_0", PinFriendlyName := "Case 0", Direction := EGPD_Input,
     PinCategory := "bool", LinkedTo := [] },
   { PinId := 5, PinName := "CaseCond_1", PinFriendlyName := "Case 1", Direction := EGPD_Input,
     PinCategory := "bool", LinkedTo := [101] },
   { PinId := 6, PinName := "CaseCond_2", PinFriendlyName := "Case 2", Direction := EGPD_Input,
     PinCategory := "bool", LinkedTo := [] },
   { PinId := 7, PinName := "CaseExec_0", PinFriendlyName := "Case 0", Direction := EGPD_Output,
     PinCategory := "exec", LinkedTo := [] },
   { PinId := 8, PinName := "CaseExec_1", PinFriendlyName := "Case 1", Direction := EGPD_Output,
     PinCategory := "exec", LinkedTo := [200] },
   { PinId := 9, PinName := "CaseExec_2", PinFriendlyName := "Case 2", Direction := EGPD_Output,
     PinCategory := "exec", LinkedTo := [201] }]

/-- The condition pin of case 1 of `ThreeCaseNode`. -/
def ThreeCaseNode_Cond1 : UEdGraphPin :=
  { PinId := 5, PinName := "CaseCond_1", PinFriendlyName := "Case 1", Direction := EGPD_Input,
    PinCategory := "bool", LinkedTo := [101] }

/-- The trigger pin of `ThreeCaseNode`. -/
def ThreeCaseNode_Trigger : UEdGraphPin :=
  { PinId := 1, PinName := "execute", PinFriendlyName := "", Direction := EGPD_Input,
    PinCategory := "exec", LinkedTo := [100] }

/-- The pin array of a new node after `AllocateDefaultPins` and one `AddInputPin`. -/
def OneCaseNode : List UEdGraphPin :=
  [{ PinId := 1, PinName := "execute", PinFriendlyName := "", Direction := EGPD_Input,
     PinCategory := "exec", LinkedTo := [] },
   { PinId := 2, PinName := "DefaultExec", PinFriendlyName := "Default", Direction := EGPD_Output,
     PinCategory := "exec", LinkedTo := [] },
   { PinId := 3, PinName := "Not_PreBool", PinFriendlyName := "", Direction := EGPD_Input,
     PinCategory := "object", LinkedTo := [] },
   { PinId := 4, PinName := "CaseCond_0", PinFriendlyName := "Case 0", Direction := EGPD_Input,
     PinCategory := "bool", LinkedTo := [] },
   { PinId := 5, PinName := "CaseExec_0", PinFriendlyName := "Case 0", Direction := EGPD_Output,
     PinCategory := "exec", LinkedTo := [] }]

/-- An old pin array whose only case execution pins are `CaseExec_0` and `CaseExec_5`. -/
def GapOldPins : List UEdGraphPin :=
  [{ PinId := 1, PinName := "execute", PinFriendlyName := "", Direction := EGPD_Input,
     PinCategory := "exec", LinkedTo := [] },
   { PinId := 2, PinName := "DefaultExec", PinFriendlyName := "Default", Direction := EGPD_Output,
     PinCategory := "exec", LinkedTo := [] },
   { PinId := 7, PinName := "CaseExec_0", PinFriendlyName := "Case 0", Direction := EGPD_Output,
     PinCategory := "exec", LinkedTo := [] },
   { PinId := 8, PinName := "CaseExec_5", PinFriendlyName := "Case 5", Direction := EGPD_Output,
     PinCategory := "exec", LinkedTo := [] }]

/-- A node whose pin named `execute` is a boolean input. -/
def WrongTriggerNode : List UEdGraphPin :=
  [{ PinId := 1, PinName := "execute", PinFriendlyName := "", Direction := EGPD_Input,
     PinCategory := "bool", LinkedTo := [100] },
   { PinId := 2, PinName := "DefaultExec", PinFriendlyName := "Default", Direction := EGPD_Output,
     PinCategory := "exec", LinkedTo := [300] }]

/-- The condition pin of case 0 of `OneCaseNode`. -/
def OneCaseNode_Cond0 : UEdGraphPin :=
  { PinId := 4, PinName := "CaseCond_0", PinFriendlyName := "Case 0", Direction := EGPD_Input,
    PinCategory := "bool", LinkedTo := [] }

/-- An output execution pin of another node whose name has no decimal index after
`CaseExec_`. -/
def NoDigitsPin : UEdGraphPin :=
  { PinId := 50, PinName := "CaseExec_x", PinFriendlyName := "", Direction := EGPD_Output,
    PinCategory := "exec", LinkedTo := [] }

/-- An output execution pin of another node whose name holds `CaseExec_0` after other text. -/
def LateOccurrencePin : UEdGraphPin :=
  { PinId := 51, PinName := "MyCaseExec_0", PinFriendlyName := "", Direction := EGPD_Output,
    PinCategory := "exec", LinkedTo := [] }

/-- An input execution pin of another node, named `Then`. -/
def ForeignInputExecPin : UEdGraphPin :=
  { PinId := 52, PinName := "Then", PinFriendlyName := "", Direction := EGPD_Input,
    PinCategory := "exec", LinkedTo := [] }

/-- An output execution pin of another node, named `Then`. -/
def ForeignOutputExecPin : UEdGraphPin :=
  { PinId := 53, PinName := "Then", PinFriendlyName := "", Direction := EGPD_Output,
    PinCategory := "exec", LinkedTo := [] }

/-- An input boolean pin of another node, named `Condition`. -/
def ForeignCondPin : UEdGraphPin :=
  { PinId := 54, PinName := "Condition", PinFriendlyName := "", Direction := EGPD_Input,
    PinCategory := "bool", LinkedTo := [] }

/-- The execution pin of case 2 of `ThreeCaseNode`. -/
def ThreeCaseNode_Exec2 : UEdGraphPin :=
  { PinId := 9, PinName := "CaseExec_2", PinFriendlyName := "Case 2", Direction := EGPD_Output,
    PinCategory := "exec", LinkedTo := [201] }

/-- The condition pin of case 2 of `ThreeCaseNode`. -/
def ThreeCaseNode_Cond2 : UEdGraphPin :=
  { PinId := 6, PinName := "CaseCond_2", PinFriendlyName := "Case 2", Direction := EGPD_Input,
    PinCategory := "bool", LinkedTo := [] }

/-- An output execution pin named `Execute`, which is the name of the trigger pin in another
case. -/
def ExecuteNamedPin : UEdGraphPin :=
  { PinId := 55, PinName := "Execute", PinFriendlyName := "", Direction := EGPD_Output,
    PinCategory := "exec", LinkedTo := [] }

/-- An old pin array whose output execution pins are named `Execute` and `CaseExec_3`. -/
def CapitalOldPins : List UEdGraphPin :=
  [{ PinId := 55, PinName := "Execute", PinFriendlyName := "", Direction := EGPD_Output,
     PinCategory := "exec", LinkedTo := [] },
   { PinId := 56, PinName := "CaseExec_3", PinFriendlyName := "Case 3", Direction := EGPD_Output,
     PinCategory := "exec", LinkedTo := [] }]

/-- The condition pin of case 1 of another MultiBranch node. -/
def OtherNode_Cond1 : UEdGraphPin :=
  { PinId := 60, PinName := "CaseCond_1", PinFriendlyName := "Case 1", Direction := EGPD_Input,
    PinCategory := "bool", LinkedTo := [] }

/-- Value of a digit string read after the digits that gave `acc`. -/
def DigitsVal (acc : Nat) (s : List Char) : Nat :=
  s.foldl (fun acc c => 10 * acc + (c.toNat - 48)) acc

/-- The guard `IsExecPin && Output && IsCasePin` of the loops over case execution pins. -/
def ExecGuard (P : UEdGraphPin) : Bool :=
  IsExecPin P && P.Direction == EGPD_Output && IsCasePin P

/-- The guard `!IsExecPin && Input && IsCasePin` of the loop over case condition pins. -/
def CondGuard (P : UEdGraphPin) : Bool :=
  !IsExecPin P && P.Direction == EGPD_Input && IsCasePin P

/-- The pointers held by a pin array. -/
def Ids (l : List UEdGraphPin) : List Nat := l.map (fun P => P.PinId)

/-- The pin array `X ++ C ++ E`: the three fixed pins `X`, condition pins `C` and execution pins
`E` carrying the case indices `js`, all distinct objects. -/
structure Layout (X C E : List UEdGraphPin) (js : List Nat) : Prop where
  fixed : X.map PinSignature = FixedSig
  cond : C.map PinSignature = js.map CondSig
  exec : E.map PinSignature = js.map ExecSig
  nodup : (Ids (X ++ C ++ E)).Nodup

/-- The test of the loop of `GetCaseCondPinFromCaseIndex`. -/
def CondPred (CaseIndex : Int) (P : UEdGraphPin) : Bool :=
  (!IsExecPin P && P.Direction == EGPD_Input && IsCasePin P) &&
    match GetCaseIndexFromCaseCondPin P with
    | some ActualIndex => ActualIndex != -1 && ActualIndex == CaseIndex
    | none => false

/-- The test of the loop of `GetCaseExecPinFromCaseIndex`. -/
def ExecPred (CaseIndex : Int) (P : UEdGraphPin) : Bool :=
  (IsExecPin P && P.Direction == EGPD_Output && IsCasePin P) &&
    match GetCaseIndexFromCaseExecPin P with
    | some ActualIndex => ActualIndex != -1 && ActualIndex == CaseIndex
    | none => false

/-- The pin object that `CreatePin`, followed by the assignment of the display name, adds. -/
def CreatedPin (Pins : List UEdGraphPin) (Dir : EEdGraphPinDirection)
    (Category Name FriendlyName : String) : UEdGraphPin :=
  { PinId := NewObject Pins, PinName := Name, PinFriendlyName := FriendlyName, Direction := Dir,
    PinCategory := Category, LinkedTo := [] }

/-- The condition pin that `AddCasePinPair(k)` creates on the array `Pins`. -/
def NewCondPin (Pins : List UEdGraphPin) (k : Int) : UEdGraphPin :=
  CreatedPin Pins EGPD_Input PC_Boolean (GetCasePinName CaseCondPinNamePrefix k)
    (GetCasePinFriendlyName CaseCondPinFriendlyNamePrefix k)

/-- The execution pin that `AddCasePinPair(k)` creates, `Pins1` being the array that already
holds the new condition pin. -/
def NewExecPin (Pins1 : List UEdGraphPin) (k : Int) : UEdGraphPin :=
  CreatedPin Pins1 EGPD_Output PC_Exec (GetCasePinName CaseExecPinNamePrefix k)
    (GetCasePinFriendlyName CaseExecPinFriendlyNamePrefix k)

/-- The body of the loop of `GetCasePinPairs`. -/
def GetCasePinPairs_step (Pins : List UEdGraphPin) (CasePairs : List (Option CasePinPair))
    (P : UEdGraphPin) : Option (List (Option CasePinPair)) :=
  if IsExecPin P && P.Direction == EGPD_Output && IsCasePin P then
    match GetCaseIndexFromCaseExecPin P, GetCasePinPair Pins P with
    | some Index, some Pair =>
      if 0 ≤ Index ∧ Index < (CasePairs.length : Int) then
        some (CasePairs.set Index.toNat (some Pair))
      else none
    | _, _ => none
  else some CasePairs

/-- A pin after the assignment of the name and display name of case `i`. -/
def Renamed (P : UEdGraphPin) (NamePrefix FriendlyPrefix : String) (i : Int) : UEdGraphPin :=
  { P with PinName := GetCasePinName NamePrefix i,
           PinFriendlyName := GetCasePinFriendlyName FriendlyPrefix i }

/-- The pins of a list renamed to the consecutive case indices `s, s + 1, ...`. -/
def RenumberFrom (NamePrefix FriendlyPrefix : String) : Int → List UEdGraphPin → List UEdGraphPin
  | _, [] => []
  | s, P :: Ps =>
    Renamed P NamePrefix FriendlyPrefix s :: RenumberFrom NamePrefix FriendlyPrefix (s + 1) Ps

/-- Every index of the list is at least its position counted from `t`. -/
def Above : Nat → List Nat → Prop
  | _, [] => True
  | t, j :: js => t ≤ j ∧ Above (t + 1) js

/-- The condition pin created by an insertion at case index `Ca.length` of the array
`X ++ (Ca ++ Cb) ++ (Ea ++ Eb)`. -/
def InsertedCond (X Ca Cb Ea Eb : List UEdGraphPin) : UEdGraphPin :=
  NewCondPin (X ++ (Ca ++ Cb) ++ (Ea ++ Eb)) Ca.length

/-- The execution pin created by the same insertion. -/
def InsertedExec (X Ca Cb Ea Eb : List UEdGraphPin) : UEdGraphPin :=
  NewExecPin (X ++ (Ca ++ InsertedCond X Ca Cb Ea Eb :: Cb) ++ (Ea ++ Eb)) Ca.length

/-- The hypotheses that place the pins `c`, `e` of case `k` in a well-formed layout. -/
structure SplitAt (X Ca Cb Ea Eb : List UEdGraphPin) (c e : UEdGraphPin) (N k : Nat) : Prop where
  layout : Layout X (Ca ++ c :: Cb) (Ea ++ e :: Eb) (List.range N)
  condBefore : Ca.map PinSignature = (List.range k).map CondSig
  condAt : PinSignature c = CondSig k
  condAfter : Cb.map PinSignature = (List.range' (k + 1) (N - k - 1)).map CondSig
  execBefore : Ea.map PinSignature = (List.range k).map ExecSig
  execAt : PinSignature e = ExecSig k
  execAfter : Eb.map PinSignature = (List.range' (k + 1) (N - k - 1)).map ExecSig

/-- The context after the statements of the given cases, linked or not, have been appended. -/
def EmitCases (FunctionPin : UEdGraphPin) :
    List (UEdGraphPin × UEdGraphPin) → FKismetFunctionContext → FKismetFunctionContext
  | [], Context => Context
  | ce :: Cases, Context =>
    if ce.2.LinkedTo.length == 0 then EmitCases FunctionPin Cases Context
    else
      EmitCases FunctionPin Cases
        { Context with
          Statements := Context.Statements ++ [NegateStatement FunctionPin ce.1, GotoIfNotStatement]
          GotoFixupRequestMap := Context.GotoFixupRequestMap ++
            [(Context.Statements.length + 1, some ce.2.PinId)] }

/-- The pin array left by the insertion of a case pair at index `j` into `X ++ C ++ E`, followed
by the renaming of the pairs of index `j` and above. -/
def InsertedAt (X C E : List UEdGraphPin) (j : Nat) : List UEdGraphPin :=
  X ++ (C.take j ++ InsertedCond X (C.take j) (C.drop j) (E.take j) (E.drop j) ::
      RenumberFrom CaseCondPinNamePrefix CaseCondPinFriendlyNamePrefix ((j : Int) + 1)
        (C.drop j)) ++
    (E.take j ++ InsertedExec X (C.take j) (C.drop j) (E.take j) (E.drop j) ::
      RenumberFrom CaseExecPinNamePrefix CaseExecPinFriendlyNamePrefix ((j : Int) + 1)
        (E.drop j))

/-! # Theorems -/

theorem SplitChars_at_start (pat r : List Char) :
    SplitChars pat (pat ++ r) = some ([], r) := by
  cases h : pat ++ r with
  | nil =>
    have h1 : pat = [] := (List.append_eq_nil.mp h).1
    have h2 : r = [] := (List.append_eq_nil.mp h).2
    subst h1; subst h2; simp [SplitChars]
  | cons c cs =>
    have hp : pat.isPrefixOf (c :: cs) = true := by
      rw [← h]; simp
    simp [SplitChars, hp]
    rw [← h]; simp

theorem digitChar_isDigit (k : Nat) (hk : k < 10) :
    (Nat.digitChar k).isDigit = true ∧ (Nat.digitChar k).toNat - 48 = k := by
  interval_cases k <;> decide

theorem digitChar_not_special (k : Nat) (hk : k < 10) :
    IsSpace (Nat.digitChar k) = false ∧ Nat.digitChar k ≠ '-' ∧ Nat.digitChar k ≠ '+' := by
  interval_cases k <;> decide

theorem toDigitsCore_spec (fuel : Nat) : ∀ (n : Nat) (ds : List Char), n < fuel →
    (∀ c ∈ ds, c.isDigit = true) →
    (∀ c ∈ Nat.toDigitsCore 10 fuel n ds, c.isDigit = true) ∧
    DigitsVal 0 (Nat.toDigitsCore 10 fuel n ds) = DigitsVal n ds ∧
    (∃ k, k < 10 ∧ (Nat.toDigitsCore 10 fuel n ds).head? = some (Nat.digitChar k)) := by
  induction fuel with
  | zero => intro n ds h; omega
  | succ fuel ih =>
    intro n ds hn hds
    have hd := digitChar_isDigit (n % 10) (Nat.mod_lt _ (by decide))
    unfold Nat.toDigitsCore
    by_cases h0 : n / 10 = 0
    · simp only [h0, if_true]
      refine ⟨?_, ?_, ⟨n % 10, Nat.mod_lt _ (by decide), by simp⟩⟩
      · intro c hc
        rcases List.mem_cons.mp hc with rfl | hc
        · exact hd.1
        · exact hds c hc
      · have hmod : n % 10 = n := Nat.mod_eq_of_lt (by omega)
        have hd2 := hd.2
        rw [hmod] at hd2 ⊢
        simp [DigitsVal, hd2]
    · simp only [h0, if_false]
      have hlt : n / 10 < fuel := by omega
      have hds' : ∀ c ∈ Nat.digitChar (n % 10) :: ds, c.isDigit = true := by
        intro c hc
        rcases List.mem_cons.mp hc with rfl | hc
        · exact hd.1
        · exact hds c hc
      obtain ⟨h1, h2, h3⟩ := ih (n / 10) (Nat.digitChar (n % 10) :: ds) hlt hds'
      refine ⟨h1, ?_, h3⟩
      rw [h2]
      simp only [DigitsVal, List.foldl_cons, hd.2]
      congr 1
      omega

theorem Atoi_repr (n : Nat) : Atoi (Nat.repr n) = (n : Int) := by
  obtain ⟨h1, h2, k, hk, h3⟩ := toDigitsCore_spec (n + 1) n [] (by omega) (by simp)
  have hrepr : (Nat.repr n).data = Nat.toDigitsCore 10 (n + 1) n [] := rfl
  cases hl : Nat.toDigitsCore 10 (n + 1) n [] with
  | nil => rw [hl] at h3; simp at h3
  | cons c cs =>
    rw [hl] at h1 h2 h3
    simp only [List.head?_cons, Option.some.injEq] at h3
    have hs := digitChar_not_special k hk
    rw [← h3] at hs
    have htw : (c :: cs).takeWhile Char.isDigit = c :: cs :=
      List.takeWhile_eq_self_iff.mpr h1
    have hval : AtoiDigits (c :: cs) = n := by
      unfold AtoiDigits
      rw [htw]
      simpa [DigitsVal] using h2
    unfold Atoi
    rw [hrepr, hl]
    have hdw : (c :: cs).dropWhile IsSpace = c :: cs := by
      simp [List.dropWhile_cons, hs.1]
    rw [hdw]
    split
    · rename_i r heq
      simp only [List.cons.injEq] at heq
      exact absurd heq.1 hs.2.1
    · rename_i r heq
      simp only [List.cons.injEq] at heq
      exact absurd heq.1 hs.2.2
    · rw [hval]

/-! ### Names of case pins -/

theorem toString_natCast (n : Nat) : toString ((n : Nat) : Int) = Nat.repr n := rfl

theorem Atoi_toString (n : Nat) : Atoi (toString ((n : Nat) : Int)) = (n : Int) := by
  rw [toString_natCast]; exact Atoi_repr n

theorem Split_at_start (pre rest : String) : Split (pre ++ rest) pre = some ("", rest) := by
  unfold Split
  have h : (pre ++ rest).data = pre.data ++ rest.data := String.data_append pre rest
  rw [h, SplitChars_at_start]
  rfl

theorem GetCasePinName_eq (pre : String) (i : Int) :
    GetCasePinName pre i = pre ++ ("_" ++ toString i) := by
  unfold GetCasePinName; rw [String.append_assoc]

theorem Split_GetCasePinName (pre : String) (i : Int) :
    Split (GetCasePinName pre i) pre = some ("", "_" ++ toString i) := by
  rw [GetCasePinName_eq]; exact Split_at_start _ _

theorem Split_GetCasePinName_underscore (pre : String) (i : Int) :
    Split (GetCasePinName pre i) (pre ++ "_") = some ("", toString i) := by
  unfold GetCasePinName; exact Split_at_start _ _

theorem String_append_left_cancel (a b c : String) (h : a ++ b = a ++ c) : b = c := by
  have h1 : (a ++ b).data = (a ++ c).data := by rw [h]
  rw [String.data_append, String.data_append] at h1
  exact String.ext (List.append_cancel_left h1)

theorem GetCasePinName_inj (pre : String) (i j : Nat)
    (h : GetCasePinName pre (i : Int) = GetCasePinName pre (j : Int)) : i = j := by
  rw [GetCasePinName_eq, GetCasePinName_eq] at h
  have h1 := String_append_left_cancel _ _ _ (String_append_left_cancel _ _ _ h)
  have h2 : Atoi (toString ((i : Nat) : Int)) = Atoi (toString ((j : Nat) : Int)) := by rw [h1]
  rw [Atoi_toString, Atoi_toString] at h2
  exact_mod_cast h2

theorem String_data_ne (a b : String) (n : Nat) (h : a.data[n]? ≠ b.data[n]?) : a ≠ b := by
  intro hab; apply h; rw [hab]

theorem CaseCond_data (i : Int) :
    (GetCasePinName CaseCondPinNamePrefix i).data =
      ['C', 'a', 's', 'e', 'C', 'o', 'n', 'd', '_'] ++ (toString i).data := by
  rw [GetCasePinName_eq, String.data_append, String.data_append]; rfl

theorem CaseExec_data (i : Int) :
    (GetCasePinName CaseExecPinNamePrefix i).data =
      ['C', 'a', 's', 'e', 'E', 'x', 'e', 'c', '_'] ++ (toString i).data := by
  rw [GetCasePinName_eq, String.data_append, String.data_append]; rfl

theorem CaseCond_ne_CaseExec (i j : Int) :
    GetCasePinName CaseCondPinNamePrefix i ≠ GetCasePinName CaseExecPinNamePrefix j := by
  apply String_data_ne _ _ 4
  rw [CaseCond_data, CaseExec_data]
  simp

theorem CaseCond_ne_fixed (i : Int) :
    GetCasePinName CaseCondPinNamePrefix i ≠ PN_Execute ∧
    GetCasePinName CaseCondPinNamePrefix i ≠ DefaultExecPinName ∧
    GetCasePinName CaseCondPinNamePrefix i ≠ ConditionPreProcessFuncName := by
  refine ⟨?_, ?_, ?_⟩ <;>
  · apply String_data_ne _ _ 0
    rw [CaseCond_data]
    simp [PN_Execute, DefaultExecPinName, ConditionPreProcessFuncName]

theorem CaseExec_ne_fixed (i : Int) :
    GetCasePinName CaseExecPinNamePrefix i ≠ PN_Execute ∧
    GetCasePinName CaseExecPinNamePrefix i ≠ DefaultExecPinName ∧
    GetCasePinName CaseExecPinNamePrefix i ≠ ConditionPreProcessFuncName := by
  refine ⟨?_, ?_, ?_⟩ <;>
  · apply String_data_ne _ _ 0
    rw [CaseExec_data]
    simp [PN_Execute, DefaultExecPinName, ConditionPreProcessFuncName]

/-! ### Comparison of names -/

theorem FNameEq_iff (a b : String) :
    FNameEq a b = true ↔ a.data.map Char.toLower = b.data.map Char.toLower := by
  unfold FNameEq
  exact beq_iff_eq

theorem FNameEq_self (a : String) : FNameEq a a = true :=
  (FNameEq_iff a a).mpr rfl

theorem FNameEq_of_eq {a b : String} (h : a = b) : FNameEq a b = true := by
  rw [h]; exact FNameEq_self b

theorem FNameEq_comm (a b : String) : FNameEq a b = FNameEq b a := by
  rw [Bool.eq_iff_iff, FNameEq_iff, FNameEq_iff]
  exact eq_comm

/-- Two names whose texts differ at one position, also without regard to case, are different
names. -/
theorem FNameEq_differ (a b : String) (n : Nat)
    (h : (a.data.map Char.toLower)[n]? ≠ (b.data.map Char.toLower)[n]?) :
    ¬ FNameEq a b = true := by
  intro hab
  apply h
  rw [(FNameEq_iff a b).mp hab]

theorem digitChar_toLower (k : Nat) (hk : k < 10) :
    (Nat.digitChar k).toLower = Nat.digitChar k := by
  interval_cases k <;> decide

theorem toDigitsCore_toLower (fuel : Nat) : ∀ (n : Nat) (ds : List Char),
    ds.map Char.toLower = ds →
    (Nat.toDigitsCore 10 fuel n ds).map Char.toLower = Nat.toDigitsCore 10 fuel n ds := by
  induction fuel with
  | zero => intro n ds h; unfold Nat.toDigitsCore; exact h
  | succ fuel ih =>
    intro n ds hds
    have hd := digitChar_toLower (n % 10) (Nat.mod_lt _ (by decide))
    have hds' : (Nat.digitChar (n % 10) :: ds).map Char.toLower = Nat.digitChar (n % 10) :: ds := by
      rw [List.map_cons, hd, hds]
    unfold Nat.toDigitsCore
    by_cases h0 : n / 10 = 0
    · simp only [h0, if_true]
      exact hds'
    · simp only [h0, if_false]
      exact ih (n / 10) _ hds'

/-- The decimal text of a case index has no letters. -/
theorem toString_toLower (n : Nat) :
    (toString ((n : Nat) : Int)).data.map Char.toLower = (toString ((n : Nat) : Int)).data := by
  rw [toString_natCast]
  exact toDigitsCore_toLower (n + 1) n [] rfl

/-- Case names of different indices are different names, also without regard to case. -/
theorem FNameEq_GetCasePinName_inj (pre : String) (i j : Nat)
    (h : FNameEq (GetCasePinName pre (i : Int)) (GetCasePinName pre (j : Int)) = true) : i = j := by
  rw [FNameEq_iff, GetCasePinName_eq, GetCasePinName_eq] at h
  simp only [String.data_append, List.map_append] at h
  have h1 := List.append_cancel_left (List.append_cancel_left h)
  rw [toString_toLower, toString_toLower] at h1
  have h2 : Atoi (toString ((i : Nat) : Int)) = Atoi (toString ((j : Nat) : Int)) := by
    rw [String.ext h1]
  rw [Atoi_toString, Atoi_toString] at h2
  exact_mod_cast h2

theorem fixed_fne :
    FNameEq PN_Execute DefaultExecPinName = false ∧
    FNameEq PN_Execute ConditionPreProcessFuncName = false ∧
    FNameEq DefaultExecPinName PN_Execute = false ∧
    FNameEq DefaultExecPinName ConditionPreProcessFuncName = false ∧
    FNameEq ConditionPreProcessFuncName PN_Execute = false ∧
    FNameEq ConditionPreProcessFuncName DefaultExecPinName = false := by
  decide

theorem CaseCond_fne_CaseExec (i j : Int) :
    ¬ FNameEq (GetCasePinName CaseCondPinNamePrefix i)
      (GetCasePinName CaseExecPinNamePrefix j) = true := by
  apply FNameEq_differ _ _ 4
  rw [CaseCond_data, CaseExec_data]
  simp

theorem CaseCond_fne_fixed (i : Int) :
    ¬ FNameEq (GetCasePinName CaseCondPinNamePrefix i) PN_Execute = true ∧
    ¬ FNameEq (GetCasePinName CaseCondPinNamePrefix i) DefaultExecPinName = true ∧
    ¬ FNameEq (GetCasePinName CaseCondPinNamePrefix i) ConditionPreProcessFuncName = true := by
  refine ⟨?_, ?_, ?_⟩ <;>
  · apply FNameEq_differ _ _ 0
    rw [CaseCond_data]
    simp [PN_Execute, DefaultExecPinName, ConditionPreProcessFuncName]

theorem CaseExec_fne_fixed (i : Int) :
    ¬ FNameEq (GetCasePinName CaseExecPinNamePrefix i) PN_Execute = true ∧
    ¬ FNameEq (GetCasePinName CaseExecPinNamePrefix i) DefaultExecPinName = true ∧
    ¬ FNameEq (GetCasePinName CaseExecPinNamePrefix i) ConditionPreProcessFuncName = true := by
  refine ⟨?_, ?_, ?_⟩ <;>
  · apply FNameEq_differ _ _ 0
    rw [CaseExec_data]
    simp [PN_Execute, DefaultExecPinName, ConditionPreProcessFuncName]

/-! ### Facts about single pins -/

theorem sig_cond {p : UEdGraphPin} {n : Nat} (h : PinSignature p = CondSig n) :
    p.PinName = GetCasePinName CaseCondPinNamePrefix n ∧ p.Direction = EGPD_Input ∧
      p.PinCategory = PC_Boolean := by
  simpa [PinSignature, CondSig, Prod.ext_iff] using h

theorem sig_exec {p : UEdGraphPin} {n : Nat} (h : PinSignature p = ExecSig n) :
    p.PinName = GetCasePinName CaseExecPinNamePrefix n ∧ p.Direction = EGPD_Output ∧
      p.PinCategory = PC_Exec := by
  simpa [PinSignature, ExecSig, Prod.ext_iff] using h

theorem IsCasePin_iff (p : UEdGraphPin) :
    IsCasePin p = true ↔ ¬ FNameEq p.PinName PN_Execute = true ∧
      ¬ FNameEq p.PinName DefaultExecPinName = true ∧
      ¬ FNameEq p.PinName ConditionPreProcessFuncName = true := by
  simp [IsCasePin, and_assoc]

theorem IsCasePin_cond {p : UEdGraphPin} {n : Nat} (h : PinSignature p = CondSig n) :
    IsCasePin p = true := by
  rw [IsCasePin_iff, (sig_cond h).1]; exact CaseCond_fne_fixed n

theorem IsCasePin_exec {p : UEdGraphPin} {n : Nat} (h : PinSignature p = ExecSig n) :
    IsCasePin p = true := by
  rw [IsCasePin_iff, (sig_exec h).1]; exact CaseExec_fne_fixed n

theorem IsExecPin_cond {p : UEdGraphPin} {n : Nat} (h : PinSignature p = CondSig n) :
    IsExecPin p = false := by
  simp [IsExecPin, (sig_cond h).2.2, PC_Boolean, PC_Exec]

theorem IsExecPin_exec {p : UEdGraphPin} {n : Nat} (h : PinSignature p = ExecSig n) :
    IsExecPin p = true := by
  simp [IsExecPin, (sig_exec h).2.2]

theorem GetCaseIndexFromCasePin_Prefix_name (pre : String) (p : UEdGraphPin) (n : Nat)
    (hc : IsCasePin p = true) (hn : p.PinName = GetCasePinName pre n) :
    GetCaseIndexFromCasePin_Prefix pre p = some (n : Int) := by
  unfold GetCaseIndexFromCasePin_Prefix
  simp only [hc, Bool.not_true, Bool.false_eq_true, if_false, hn,
    Split_GetCasePinName_underscore, Atoi_toString]

theorem GetCaseIndexFromCaseCondPin_cond {p : UEdGraphPin} {n : Nat}
    (h : PinSignature p = CondSig n) : GetCaseIndexFromCaseCondPin p = some (n : Int) := by
  unfold GetCaseIndexFromCaseCondPin
  simp only [(sig_cond h).2.1, IsCasePin_cond h, IsExecPin_cond h, ne_eq, not_true_eq_false,
    if_false, Bool.not_true, Bool.false_eq_true]
  exact GetCaseIndexFromCasePin_Prefix_name _ p n (IsCasePin_cond h) (sig_cond h).1

theorem GetCaseIndexFromCaseExecPin_exec {p : UEdGraphPin} {n : Nat}
    (h : PinSignature p = ExecSig n) : GetCaseIndexFromCaseExecPin p = some (n : Int) := by
  unfold GetCaseIndexFromCaseExecPin
  simp only [(sig_exec h).2.1, IsCasePin_exec h, IsExecPin_exec h, ne_eq, not_true_eq_false,
    if_false, Bool.not_true, Bool.false_eq_true]
  exact GetCaseIndexFromCasePin_Prefix_name _ p n (IsCasePin_exec h) (sig_exec h).1

theorem GetCaseIndexFromCasePin_cond {p : UEdGraphPin} {n : Nat}
    (h : PinSignature p = CondSig n) : GetCaseIndexFromCasePin p = some (n : Int) := by
  unfold GetCaseIndexFromCasePin
  simp only [IsCasePin_cond h, IsExecPin_cond h, Bool.not_true, Bool.false_eq_true, if_false]
  exact GetCaseIndexFromCaseCondPin_cond h

theorem GetCaseIndexFromCasePin_exec {p : UEdGraphPin} {n : Nat}
    (h : PinSignature p = ExecSig n) : GetCaseIndexFromCasePin p = some (n : Int) := by
  unfold GetCaseIndexFromCasePin
  simp only [IsCasePin_exec h, IsExecPin_exec h, Bool.not_true, Bool.false_eq_true, if_false,
    if_true]
  exact GetCaseIndexFromCaseExecPin_exec h

/-- The checks of `GetCaseIndexFromCaseCondPin` hold under the guard of the lookup loop. -/
theorem GetCaseIndexFromCaseCondPin_isSome (P : UEdGraphPin)
    (h : (!IsExecPin P && P.Direction == EGPD_Input && IsCasePin P) = true) :
    (GetCaseIndexFromCaseCondPin P).isSome = true := by
  simp only [Bool.and_eq_true, Bool.not_eq_true', beq_iff_eq] at h
  obtain ⟨⟨h1, h2⟩, h3⟩ := h
  unfold GetCaseIndexFromCaseCondPin GetCaseIndexFromCasePin_Prefix
  simp only [h1, h2, h3, ne_eq, not_true_eq_false, if_false, Bool.not_true, Bool.false_eq_true]
  split <;> rfl

/-- The checks of `GetCaseIndexFromCaseExecPin` hold under the guard of the lookup loop. -/
theorem GetCaseIndexFromCaseExecPin_isSome (P : UEdGraphPin)
    (h : (IsExecPin P && P.Direction == EGPD_Output && IsCasePin P) = true) :
    (GetCaseIndexFromCaseExecPin P).isSome = true := by
  simp only [Bool.and_eq_true, beq_iff_eq] at h
  obtain ⟨⟨h1, h2⟩, h3⟩ := h
  unfold GetCaseIndexFromCaseExecPin GetCaseIndexFromCasePin_Prefix
  simp only [h1, h2, h3, ne_eq, not_true_eq_false, if_false, Bool.not_true, Bool.false_eq_true]
  split <;> rfl

theorem GetCondPinFromExecPin_exec (Pins : List UEdGraphPin) {p : UEdGraphPin} {n : Nat}
    (h : PinSignature p = ExecSig n) :
    GetCondPinFromExecPin Pins p = FindPin Pins (GetCasePinName CaseCondPinNamePrefix n) := by
  unfold GetCondPinFromExecPin
  rw [(sig_exec h).1, Split_GetCasePinName, GetCasePinName_eq]

theorem GetExecPinFromCondPin_cond (Pins : List UEdGraphPin) {p : UEdGraphPin} {n : Nat}
    (h : PinSignature p = CondSig n) :
    GetExecPinFromCondPin Pins p = FindPin Pins (GetCasePinName CaseExecPinNamePrefix n) := by
  unfold GetExecPinFromCondPin
  rw [(sig_cond h).1, Split_GetCasePinName, GetCasePinName_eq]

theorem ExecGuard_exec {p : UEdGraphPin} {n : Nat} (h : PinSignature p = ExecSig n) :
    ExecGuard p = true := by
  simp [ExecGuard, IsExecPin_exec h, IsCasePin_exec h, (sig_exec h).2.1]

theorem ExecGuard_cond {p : UEdGraphPin} {n : Nat} (h : PinSignature p = CondSig n) :
    ExecGuard p = false := by
  simp [ExecGuard, IsExecPin_cond h]

theorem CondGuard_cond {p : UEdGraphPin} {n : Nat} (h : PinSignature p = CondSig n) :
    CondGuard p = true := by
  simp [CondGuard, IsExecPin_cond h, IsCasePin_cond h, (sig_cond h).2.1]

theorem CondGuard_exec {p : UEdGraphPin} {n : Nat} (h : PinSignature p = ExecSig n) :
    CondGuard p = false := by
  simp [CondGuard, IsExecPin_exec h]

theorem fixed_guards {p : UEdGraphPin} (h : PinSignature p ∈ FixedSig) :
    ExecGuard p = false ∧ CondGuard p = false := by
  simp only [FixedSig, List.mem_cons, List.mem_singleton, PinSignature, Prod.mk.injEq,
    List.not_mem_nil, or_false] at h
  rcases h with ⟨h1, h2, h3⟩ | ⟨h1, h2, h3⟩ | ⟨h1, h2, h3⟩ <;>
    simp [ExecGuard, CondGuard, IsExecPin, IsCasePin, h1, h2, h3, PC_Exec, PC_Object,
      FNameEq_self]

/-! ### Lists of pins -/

theorem Ids_append (a b : List UEdGraphPin) : Ids (a ++ b) = Ids a ++ Ids b := by
  simp [Ids]

theorem Ids_cons (p : UEdGraphPin) (l : List UEdGraphPin) : Ids (p :: l) = p.PinId :: Ids l := rfl

theorem mem_Ids {p : UEdGraphPin} {l : List UEdGraphPin} (h : p ∈ l) : p.PinId ∈ Ids l :=
  List.mem_map.mpr ⟨p, h, rfl⟩

theorem find?_first {α : Type} (q : α → Bool) (A B : List α) (c : α)
    (hA : ∀ a ∈ A, q a = false) (hc : q c = true) : (A ++ c :: B).find? q = some c := by
  induction A with
  | nil => simp [List.find?_cons, hc]
  | cons a A ih =>
    have ha : q a = false := hA a (List.mem_cons_self _ _)
    simp only [List.cons_append, List.find?_cons, ha]
    exact ih (fun x hx => hA x (List.mem_cons_of_mem _ hx))

theorem find?_none_of {α : Type} (q : α → Bool) (A : List α)
    (hA : ∀ a ∈ A, q a = false) : A.find? q = none := by
  rw [List.find?_eq_none]; intro x hx; simp [hA x hx]

theorem SetPinNames_append (a b : List UEdGraphPin) (ptr : Nat) (n f : String) :
    SetPinNames (a ++ b) ptr n f = SetPinNames a ptr n f ++ SetPinNames b ptr n f := by
  simp [SetPinNames]

theorem SetPinNames_not_mem (l : List UEdGraphPin) (ptr : Nat) (n f : String)
    (h : ptr ∉ Ids l) : SetPinNames l ptr n f = l := by
  unfold SetPinNames
  conv_rhs => rw [← List.map_id l]
  apply List.map_congr_left
  intro p hp
  have : p.PinId ≠ ptr := fun e => h (e ▸ mem_Ids hp)
  simp [this]

theorem SetPinNames_cons_self (p : UEdGraphPin) (l : List UEdGraphPin) (n f : String)
    (h : p.PinId ∉ Ids l) :
    SetPinNames (p :: l) p.PinId n f = { p with PinName := n, PinFriendlyName := f } :: l := by
  have := SetPinNames_not_mem l p.PinId n f h
  unfold SetPinNames at this ⊢
  simp only [List.map_cons, if_true, this]

theorem SetPinFriendlyName_not_mem (l : List UEdGraphPin) (ptr : Nat) (f : String)
    (h : ptr ∉ Ids l) : SetPinFriendlyName l ptr f = l := by
  unfold SetPinFriendlyName
  conv_rhs => rw [← List.map_id l]
  apply List.map_congr_left
  intro p hp
  have : p.PinId ≠ ptr := fun e => h (e ▸ mem_Ids hp)
  simp [this]

theorem SetPinFriendlyName_append (a b : List UEdGraphPin) (ptr : Nat) (f : String) :
    SetPinFriendlyName (a ++ b) ptr f =
      SetPinFriendlyName a ptr f ++ SetPinFriendlyName b ptr f := by
  simp [SetPinFriendlyName]

theorem SetPinFriendlyName_cons_self (p : UEdGraphPin) (l : List UEdGraphPin) (f : String)
    (h : p.PinId ∉ Ids l) :
    SetPinFriendlyName (p :: l) p.PinId f = { p with PinFriendlyName := f } :: l := by
  have := SetPinFriendlyName_not_mem l p.PinId f h
  unfold SetPinFriendlyName at this ⊢
  simp only [List.map_cons, if_true, this]

/-- Renaming a pin in the middle of an array whose pointers are pairwise different. -/
theorem SetPinNames_middle (A B : List UEdGraphPin) (p : UEdGraphPin) (n f : String)
    (h : (Ids (A ++ p :: B)).Nodup) :
    SetPinNames (A ++ p :: B) p.PinId n f =
      A ++ { p with PinName := n, PinFriendlyName := f } :: B := by
  rw [Ids_append, Ids_cons, List.nodup_append] at h
  obtain ⟨_, h2, h3⟩ := h
  have hA : p.PinId ∉ Ids A := fun hm => h3 hm (List.mem_cons_self _ _)
  have hB : p.PinId ∉ Ids B := (List.nodup_cons.mp h2).1
  rw [SetPinNames_append, SetPinNames_not_mem A _ _ _ hA, SetPinNames_cons_self p B n f hB]

theorem NewObject_fresh (l : List UEdGraphPin) : NewObject l ∉ Ids l := by
  have key : ∀ (m : List Nat) (x : Nat), x ∈ m → x ≤ m.foldr max 0 := by
    intro m
    induction m with
    | nil => intro x hx; simp at hx
    | cons a m ih =>
      intro x hx
      simp only [List.foldr_cons]
      rcases List.mem_cons.mp hx with rfl | hx
      · exact le_max_left _ _
      · exact le_trans (ih x hx) (le_max_right _ _)
  intro hm
  have := key (Ids l) (NewObject l) hm
  unfold NewObject Ids at this
  omega

theorem Deref_first (A B : List UEdGraphPin) (p : UEdGraphPin) (h : p.PinId ∉ Ids A) :
    Deref (A ++ p :: B) p.PinId = some p := by
  unfold Deref
  apply find?_first
  · intro a ha
    have : a.PinId ≠ p.PinId := fun e => h (e ▸ mem_Ids ha)
    simp [this]
  · simp

theorem FindPin_first (A B : List UEdGraphPin) (p : UEdGraphPin) (name : String)
    (hA : ∀ a ∈ A, ¬ FNameEq a.PinName name = true) (hp : p.PinName = name) :
    FindPin (A ++ p :: B) name = some p := by
  unfold FindPin
  apply find?_first
  · intro a ha; simpa using hA a ha
  · exact FNameEq_of_eq hp

theorem FindPin_none (A : List UEdGraphPin) (name : String)
    (hA : ∀ a ∈ A, ¬ FNameEq a.PinName name = true) : FindPin A name = none := by
  unfold FindPin
  apply find?_none_of
  intro a ha; simpa using hA a ha

theorem map_eq_split {α β : Type} (f : α → β) (l : List α) (A B : List β) (b : β)
    (h : l.map f = A ++ b :: B) :
    ∃ la x lb, l = la ++ x :: lb ∧ la.map f = A ∧ f x = b ∧ lb.map f = B := by
  obtain ⟨la, l2, rfl, h1, h2⟩ := List.map_eq_append_iff.mp h
  obtain ⟨x, lb, rfl, h3, h4⟩ := List.map_eq_cons_iff.mp h2
  exact ⟨la, x, lb, rfl, h1, h3, h4⟩

theorem mem_sig {l : List UEdGraphPin} {js : List Nat}
    {g : Nat → String × EEdGraphPinDirection × String}
    (h : l.map PinSignature = js.map g) {p : UEdGraphPin} (hp : p ∈ l) :
    ∃ j ∈ js, PinSignature p = g j := by
  have : PinSignature p ∈ js.map g := h ▸ List.mem_map.mpr ⟨p, hp, rfl⟩
  obtain ⟨j, hj, e⟩ := List.mem_map.mp this
  exact ⟨j, hj, e.symm⟩

theorem mem_fixed {X : List UEdGraphPin} (h : X.map PinSignature = FixedSig) {p : UEdGraphPin}
    (hp : p ∈ X) : PinSignature p ∈ FixedSig :=
  h ▸ List.mem_map.mpr ⟨p, hp, rfl⟩

theorem fixed_name_ne {p : UEdGraphPin} (h : PinSignature p ∈ FixedSig) (pre : String)
    (hpre : pre = CaseCondPinNamePrefix ∨ pre = CaseExecPinNamePrefix) (i : Int) :
    ¬ FNameEq p.PinName (GetCasePinName pre i) = true := by
  simp only [FixedSig, List.mem_cons, List.mem_singleton, PinSignature, Prod.mk.injEq,
    List.not_mem_nil, or_false] at h
  have h1 := CaseCond_fne_fixed i
  have h2 := CaseExec_fne_fixed i
  rcases hpre with rfl | rfl
  · rcases h with ⟨h, _⟩ | ⟨h, _⟩ | ⟨h, _⟩
    · rw [h, FNameEq_comm]; exact h1.1
    · rw [h, FNameEq_comm]; exact h1.2.1
    · rw [h, FNameEq_comm]; exact h1.2.2
  · rcases h with ⟨h, _⟩ | ⟨h, _⟩ | ⟨h, _⟩
    · rw [h, FNameEq_comm]; exact h2.1
    · rw [h, FNameEq_comm]; exact h2.2.1
    · rw [h, FNameEq_comm]; exact h2.2.2

/-! ### Layout of the pin array -/

theorem WellFormed_iff (Pins : List UEdGraphPin) (N : Nat) :
    WellFormed Pins N ↔ ∃ X C E, Pins = X ++ C ++ E ∧ Layout X C E (List.range N) := by
  constructor
  · rintro ⟨h1, h2⟩
    obtain ⟨XC, E, rfl, h3, h4⟩ := List.map_eq_append_iff.mp h1
    obtain ⟨X, C, rfl, h5, h6⟩ := List.map_eq_append_iff.mp h3
    exact ⟨X, C, E, rfl, ⟨h5, h6, h4, h2⟩⟩
  · rintro ⟨X, C, E, rfl, h⟩
    refine ⟨?_, h.nodup⟩
    rw [List.map_append, List.map_append, h.fixed, h.cond, h.exec]

theorem Layout.lenX {X C E : List UEdGraphPin} {js : List Nat} (h : Layout X C E js) :
    X.length = 3 := by
  have := congrArg List.length h.fixed
  simpa [FixedSig] using this

theorem Layout.lenC {X C E : List UEdGraphPin} {js : List Nat} (h : Layout X C E js) :
    C.length = js.length := by
  have := congrArg List.length h.cond
  simpa using this

theorem Layout.lenE {X C E : List UEdGraphPin} {js : List Nat} (h : Layout X C E js) :
    E.length = js.length := by
  have := congrArg List.length h.exec
  simpa using this

theorem CondPred_cond {p : UEdGraphPin} {n : Nat} (h : PinSignature p = CondSig n) (k : Int) :
    CondPred k p = decide ((n : Int) = k) := by
  have hg := CondGuard_cond h
  unfold CondGuard at hg
  unfold CondPred
  rw [hg, GetCaseIndexFromCaseCondPin_cond h]
  have hne : ((n : Int) != -1) = true := by
    rw [bne_iff_ne]; omega
  simp only [hne, Bool.true_and]
  by_cases hk : (n : Int) = k <;> simp [hk]

theorem ExecPred_exec {p : UEdGraphPin} {n : Nat} (h : PinSignature p = ExecSig n) (k : Int) :
    ExecPred k p = decide ((n : Int) = k) := by
  have hg := ExecGuard_exec h
  unfold ExecGuard at hg
  unfold ExecPred
  rw [hg, GetCaseIndexFromCaseExecPin_exec h]
  have hne : ((n : Int) != -1) = true := by
    rw [bne_iff_ne]; omega
  simp only [hne, Bool.true_and]
  by_cases hk : (n : Int) = k <;> simp [hk]

theorem CondPred_of_guard_false {p : UEdGraphPin} (h : CondGuard p = false) (k : Int) :
    CondPred k p = false := by
  unfold CondGuard at h; unfold CondPred; rw [h]; rfl

theorem ExecPred_of_guard_false {p : UEdGraphPin} (h : ExecGuard p = false) (k : Int) :
    ExecPred k p = false := by
  unfold ExecGuard at h; unfold ExecPred; rw [h]; rfl

theorem FindPin_cond (X Ca Cb R : List UEdGraphPin) (c : UEdGraphPin) (ja : List Nat) (j : Nat)
    (hX : X.map PinSignature = FixedSig) (hCa : Ca.map PinSignature = ja.map CondSig)
    (hc : PinSignature c = CondSig j) (hj : j ∉ ja) :
    FindPin (X ++ (Ca ++ c :: Cb) ++ R) (GetCasePinName CaseCondPinNamePrefix j) = some c := by
  have e : X ++ (Ca ++ c :: Cb) ++ R = (X ++ Ca) ++ c :: (Cb ++ R) := by simp
  rw [e]
  apply FindPin_first _ _ _ _ _ (sig_cond hc).1
  intro a ha
  rcases List.mem_append.mp ha with ha | ha
  · exact fixed_name_ne (mem_fixed hX ha) _ (Or.inl rfl) _
  · obtain ⟨j', hj', e'⟩ := mem_sig hCa ha
    rw [(sig_cond e').1]
    intro hn
    exact hj (FNameEq_GetCasePinName_inj _ _ _ hn ▸ hj')

theorem FindPin_exec (X C Ea Eb : List UEdGraphPin) (e : UEdGraphPin) (js ja : List Nat) (j : Nat)
    (hX : X.map PinSignature = FixedSig) (hC : C.map PinSignature = js.map CondSig)
    (hEa : Ea.map PinSignature = ja.map ExecSig)
    (he : PinSignature e = ExecSig j) (hj : j ∉ ja) :
    FindPin (X ++ C ++ (Ea ++ e :: Eb)) (GetCasePinName CaseExecPinNamePrefix j) = some e := by
  have e1 : X ++ C ++ (Ea ++ e :: Eb) = (X ++ C ++ Ea) ++ e :: Eb := by simp
  rw [e1]
  apply FindPin_first _ _ _ _ _ (sig_exec he).1
  intro a ha
  rcases List.mem_append.mp ha with ha | ha
  · rcases List.mem_append.mp ha with ha | ha
    · exact fixed_name_ne (mem_fixed hX ha) _ (Or.inr rfl) _
    · obtain ⟨j', _, e'⟩ := mem_sig hC ha
      rw [(sig_cond e').1]
      exact CaseCond_fne_CaseExec _ _
  · obtain ⟨j', hj', e'⟩ := mem_sig hEa ha
    rw [(sig_exec e').1]
    intro hn
    exact hj (FNameEq_GetCasePinName_inj _ _ _ hn ▸ hj')

theorem GetCaseCondPinFromCaseIndex_found (X Ca Cb R : List UEdGraphPin) (c : UEdGraphPin)
    (ja : List Nat) (j : Nat)
    (hX : X.map PinSignature = FixedSig) (hCa : Ca.map PinSignature = ja.map CondSig)
    (hc : PinSignature c = CondSig j) (hj : j ∉ ja) :
    GetCaseCondPinFromCaseIndex (X ++ (Ca ++ c :: Cb) ++ R) (j : Int) = some c := by
  have e : X ++ (Ca ++ c :: Cb) ++ R = (X ++ Ca) ++ c :: (Cb ++ R) := by simp
  rw [e]
  show List.find? (CondPred (j : Int)) _ = _
  apply find?_first
  · intro a ha
    rcases List.mem_append.mp ha with ha | ha
    · exact CondPred_of_guard_false (fixed_guards (mem_fixed hX ha)).2 _
    · obtain ⟨j', hj', e'⟩ := mem_sig hCa ha
      rw [CondPred_cond e']
      have : j' ≠ j := fun hh => hj (hh ▸ hj')
      simp; omega
  · rw [CondPred_cond hc]; simp

theorem GetCaseExecPinFromCaseIndex_found (X C Ea Eb : List UEdGraphPin) (e : UEdGraphPin)
    (js ja : List Nat) (j : Nat)
    (hX : X.map PinSignature = FixedSig) (hC : C.map PinSignature = js.map CondSig)
    (hEa : Ea.map PinSignature = ja.map ExecSig)
    (he : PinSignature e = ExecSig j) (hj : j ∉ ja) :
    GetCaseExecPinFromCaseIndex (X ++ C ++ (Ea ++ e :: Eb)) (j : Int) = some e := by
  have e1 : X ++ C ++ (Ea ++ e :: Eb) = (X ++ C ++ Ea) ++ e :: Eb := by simp
  rw [e1]
  show List.find? (ExecPred (j : Int)) _ = _
  apply find?_first
  · intro a ha
    rcases List.mem_append.mp ha with ha | ha
    · rcases List.mem_append.mp ha with ha | ha
      · exact ExecPred_of_guard_false (fixed_guards (mem_fixed hX ha)).1 _
      · obtain ⟨j', _, e'⟩ := mem_sig hC ha
        exact ExecPred_of_guard_false (ExecGuard_cond e') _
    · obtain ⟨j', hj', e'⟩ := mem_sig hEa ha
      rw [ExecPred_exec e']
      have : j' ≠ j := fun hh => hj (hh ▸ hj')
      simp; omega
  · rw [ExecPred_exec he]; simp

theorem GetCaseCondPinFromCaseIndex_none (X C E : List UEdGraphPin) (js : List Nat) (k : Int)
    (h : Layout X C E js) (hk : ∀ j ∈ js, (j : Int) ≠ k) :
    GetCaseCondPinFromCaseIndex (X ++ C ++ E) k = none := by
  show List.find? (CondPred k) _ = _
  apply find?_none_of
  intro a ha
  rcases List.mem_append.mp ha with ha | ha
  · rcases List.mem_append.mp ha with ha | ha
    · exact CondPred_of_guard_false (fixed_guards (mem_fixed h.fixed ha)).2 _
    · obtain ⟨j', hj', e'⟩ := mem_sig h.cond ha
      rw [CondPred_cond e']
      simpa using hk j' hj'
  · obtain ⟨j', _, e'⟩ := mem_sig h.exec ha
    exact CondPred_of_guard_false (CondGuard_exec e') _

theorem GetCaseExecPinFromCaseIndex_none (X C E : List UEdGraphPin) (js : List Nat) (k : Int)
    (h : Layout X C E js) (hk : ∀ j ∈ js, (j : Int) ≠ k) :
    GetCaseExecPinFromCaseIndex (X ++ C ++ E) k = none := by
  show List.find? (ExecPred k) _ = _
  apply find?_none_of
  intro a ha
  rcases List.mem_append.mp ha with ha | ha
  · rcases List.mem_append.mp ha with ha | ha
    · exact ExecPred_of_guard_false (fixed_guards (mem_fixed h.fixed ha)).1 _
    · obtain ⟨j', _, e'⟩ := mem_sig h.cond ha
      exact ExecPred_of_guard_false (ExecGuard_cond e') _
  · obtain ⟨j', hj', e'⟩ := mem_sig h.exec ha
    rw [ExecPred_exec e']
    simpa using hk j' hj'

theorem range_split (N i : Nat) (h : i < N) :
    List.range N = List.range i ++ i :: List.range' (i + 1) (N - i - 1) := by
  have e : N = ((N - i - 1) + 1) + i := by omega
  have key := List.range'_append 0 i ((N - i - 1) + 1) 1
  rw [← e] at key
  rw [List.range_eq_range', List.range_eq_range', ← key, List.range'_succ]
  simp

/-- Splitting a well-formed layout at case `i`. -/
theorem Layout.split {X C E : List UEdGraphPin} {N : Nat} (h : Layout X C E (List.range N))
    (i : Nat) (hi : i < N) :
    ∃ Ca c Cb Ea e Eb, C = Ca ++ c :: Cb ∧ E = Ea ++ e :: Eb ∧
      Ca.map PinSignature = (List.range i).map CondSig ∧ PinSignature c = CondSig i ∧
      Cb.map PinSignature = (List.range' (i + 1) (N - i - 1)).map CondSig ∧
      Ea.map PinSignature = (List.range i).map ExecSig ∧ PinSignature e = ExecSig i ∧
      Eb.map PinSignature = (List.range' (i + 1) (N - i - 1)).map ExecSig := by
  have hc := h.cond
  have he := h.exec
  rw [range_split N i hi, List.map_append, List.map_cons] at hc he
  obtain ⟨Ca, c, Cb, rfl, h1, h2, h3⟩ := map_eq_split _ _ _ _ _ hc
  obtain ⟨Ea, e, Eb, rfl, h4, h5, h6⟩ := map_eq_split _ _ _ _ _ he
  exact ⟨Ca, c, Cb, Ea, e, Eb, rfl, rfl, h1, h2, h3, h4, h5, h6⟩

theorem scan_succ (Pins : List UEdGraphPin) (k : Nat) :
    GetCasePinCount_scan Pins (k + 1) =
      if (GetCaseCondPinFromCaseIndex Pins k).isSome &&
          (GetCaseExecPinFromCaseIndex Pins k).isSome then (k : Int) + 1
      else GetCasePinCount_scan Pins k := rfl

theorem scan_ge {X C E : List UEdGraphPin} {N : Nat} (h : Layout X C E (List.range N)) (m : Nat) :
    GetCasePinCount_scan (X ++ C ++ E) (N + m) = GetCasePinCount_scan (X ++ C ++ E) N := by
  induction m with
  | zero => rfl
  | succ m ih =>
    have hn : GetCaseCondPinFromCaseIndex (X ++ C ++ E) ((N + m : Nat) : Int) = none := by
      apply GetCaseCondPinFromCaseIndex_none X C E _ _ h
      intro j hj
      have := List.mem_range.mp hj
      omega
    show GetCasePinCount_scan (X ++ C ++ E) ((N + m) + 1) = _
    rw [scan_succ, hn]
    simpa using ih

theorem scan_eq {X C E : List UEdGraphPin} {N : Nat} (h : Layout X C E (List.range N)) :
    GetCasePinCount_scan (X ++ C ++ E) N = (N : Int) := by
  cases N with
  | zero => rfl
  | succ M =>
    obtain ⟨Ca, c, Cb, Ea, e, Eb, rfl, rfl, h1, h2, h3, h4, h5, h6⟩ := h.split M (by omega)
    have hM : M ∉ List.range M := by simp
    rw [scan_succ, GetCaseCondPinFromCaseIndex_found X Ca Cb _ c _ M h.fixed h1 h2 hM,
      GetCaseExecPinFromCaseIndex_found X _ Ea Eb e _ _ M h.fixed h.cond h4 h5 hM]
    simp

theorem GetCasePinCount_layout {X C E : List UEdGraphPin} {N : Nat}
    (h : Layout X C E (List.range N)) : GetCasePinCount (X ++ C ++ E) = (N : Int) := by
  unfold GetCasePinCount
  have hl : (X ++ C ++ E).length / 2 + 1 = N + 2 := by
    rw [List.length_append, List.length_append, h.lenX, h.lenC, h.lenE, List.length_range]
    omega
  rw [hl, scan_ge h 2, scan_eq h]

theorem CreatePin_at (A B : List UEdGraphPin) (d : EEdGraphPinDirection) (c n : String)
    (Index : Int) (hI : Index = (A.length : Int)) :
    CreatePin (A ++ B) d c n Index = (A ++ CreatedPin (A ++ B) d c n "" :: B,
      CreatedPin (A ++ B) d c n "") := by
  unfold CreatePin
  subst hI
  by_cases hB : B = []
  · subst hB
    simp [CreatedPin]
  · have hlen : 0 < B.length := List.length_pos.mpr hB
    have hc : (0 : Int) ≤ (A.length : Int) ∧ (A.length : Int) < ((A ++ B).length : Int) := by
      rw [List.length_append]; constructor <;> omega
    simp only [hc, and_self, if_true, Int.toNat_ofNat, List.take_left, List.drop_left]
    rfl

theorem CreatePin_named (A B : List UEdGraphPin) (d : EEdGraphPinDirection) (c n f : String)
    (Index : Int) (hI : Index = (A.length : Int)) :
    SetPinFriendlyName (CreatePin (A ++ B) d c n Index).1
      (CreatePin (A ++ B) d c n Index).2.PinId f = A ++ CreatedPin (A ++ B) d c n f :: B := by
  rw [CreatePin_at A B d c n Index hI]
  have hfresh := NewObject_fresh (A ++ B)
  rw [Ids_append] at hfresh
  have hA : (CreatedPin (A ++ B) d c n "").PinId ∉ Ids A :=
    fun hm => hfresh (List.mem_append_left _ hm)
  have hB : (CreatedPin (A ++ B) d c n "").PinId ∉ Ids B :=
    fun hm => hfresh (List.mem_append_right _ hm)
  show SetPinFriendlyName (A ++ CreatedPin (A ++ B) d c n "" :: B)
    (CreatedPin (A ++ B) d c n "").PinId f = _
  rw [SetPinFriendlyName_append, SetPinFriendlyName_not_mem A _ _ hA,
    SetPinFriendlyName_cons_self _ _ _ hB]
  rfl

theorem AddCasePinPair_layout {X Ca Cb Ea Eb : List UEdGraphPin} {N : Nat}
    (h : Layout X (Ca ++ Cb) (Ea ++ Eb) (List.range N)) (hk : Ca.length = Ea.length) :
    (AddCasePinPair (X ++ (Ca ++ Cb) ++ (Ea ++ Eb)) (Ca.length : Int)).1 =
      X ++ (Ca ++ NewCondPin (X ++ (Ca ++ Cb) ++ (Ea ++ Eb)) Ca.length :: Cb) ++
        (Ea ++ NewExecPin (X ++ (Ca ++ NewCondPin (X ++ (Ca ++ Cb) ++ (Ea ++ Eb)) Ca.length :: Cb)
          ++ (Ea ++ Eb)) Ca.length :: Eb) := by
  have hN := GetCasePinCount_layout h
  have hlenC := h.lenC
  have hlenE := h.lenE
  have hlenX := h.lenX
  rw [List.length_append, List.length_range] at hlenC hlenE
  unfold AddCasePinPair
  simp only [hN]
  have e1 : X ++ (Ca ++ Cb) ++ (Ea ++ Eb) = (X ++ Ca) ++ (Cb ++ (Ea ++ Eb)) := by simp
  have i1 : (3 : Int) + (Ca.length : Int) = ((X ++ Ca).length : Int) := by
    rw [List.length_append, hlenX]; push_cast; ring
  have s1 := CreatePin_named (X ++ Ca) (Cb ++ (Ea ++ Eb)) EGPD_Input PC_Boolean
    (GetCasePinName CaseCondPinNamePrefix Ca.length)
    (GetCasePinFriendlyName CaseCondPinFriendlyNamePrefix Ca.length) _ i1
  rw [← e1] at s1
  rw [s1]
  have e2 : X ++ Ca ++ CreatedPin (X ++ (Ca ++ Cb) ++ (Ea ++ Eb)) EGPD_Input PC_Boolean
      (GetCasePinName CaseCondPinNamePrefix Ca.length)
      (GetCasePinFriendlyName CaseCondPinFriendlyNamePrefix Ca.length) :: (Cb ++ (Ea ++ Eb)) =
      (X ++ (Ca ++ NewCondPin (X ++ (Ca ++ Cb) ++ (Ea ++ Eb)) Ca.length :: Cb) ++ Ea) ++ Eb := by
    simp [NewCondPin]
  rw [e2]
  have i2 : (3 : Int) + (N : Int) + (Ca.length : Int) + 1 =
      ((X ++ (Ca ++ NewCondPin (X ++ (Ca ++ Cb) ++ (Ea ++ Eb)) Ca.length :: Cb) ++ Ea).length
        : Int) := by
    simp only [List.length_append, List.length_cons, hlenX]
    push_cast
    omega
  have s2 := CreatePin_named
    (X ++ (Ca ++ NewCondPin (X ++ (Ca ++ Cb) ++ (Ea ++ Eb)) Ca.length :: Cb) ++ Ea) Eb
    EGPD_Output PC_Exec (GetCasePinName CaseExecPinNamePrefix Ca.length)
    (GetCasePinFriendlyName CaseExecPinFriendlyNamePrefix Ca.length) _ i2
  rw [s2]
  simp [NewExecPin]

theorem GetCasePinPairs_eq (Pins : List UEdGraphPin) :
    GetCasePinPairs Pins =
      Pins.foldlM (GetCasePinPairs_step Pins) (List.replicate (GetCasePinCount Pins).toNat none) :=
  rfl

theorem foldlM_skip (Pins A : List UEdGraphPin) (init : List (Option CasePinPair))
    (hA : ∀ a ∈ A, ExecGuard a = false) :
    A.foldlM (GetCasePinPairs_step Pins) init = some init := by
  induction A with
  | nil => rfl
  | cons a A ih =>
    have ha : ExecGuard a = false := hA a (List.mem_cons_self _ _)
    unfold ExecGuard at ha
    rw [List.foldlM_cons]
    have : GetCasePinPairs_step Pins init a = some init := by
      unfold GetCasePinPairs_step; rw [ha]; rfl
    rw [this]
    exact ih (fun x hx => hA x (List.mem_cons_of_mem _ hx))

theorem GetCasePinPair_exec (X Ca Cb R : List UEdGraphPin) (c e : UEdGraphPin) (ja : List Nat)
    (j : Nat) (hX : X.map PinSignature = FixedSig) (hCa : Ca.map PinSignature = ja.map CondSig)
    (hc : PinSignature c = CondSig j) (he : PinSignature e = ExecSig j) (hj : j ∉ ja) :
    GetCasePinPair (X ++ (Ca ++ c :: Cb) ++ R) e = some (c, e) := by
  unfold GetCasePinPair
  rw [IsExecPin_exec he, if_pos rfl, GetCondPinFromExecPin_exec _ he,
    FindPin_cond X Ca Cb R c ja j hX hCa hc hj]

theorem range_succ_map {β : Type} (g : Nat → β) (t : Nat) :
    (List.range (t + 1)).map g = (List.range t).map g ++ [g t] := by
  rw [List.range_succ, List.map_append]; rfl

theorem foldlM_exec (X : List UEdGraphPin) (hX : X.map PinSignature = FixedSig) (n : Nat) :
    ∀ (Ca Cb Ea Eb : List UEdGraphPin) (t : Nat),
      Ca.map PinSignature = (List.range t).map CondSig →
      Ea.map PinSignature = (List.range t).map ExecSig →
      Cb.map PinSignature = (List.range' t n).map CondSig →
      Eb.map PinSignature = (List.range' t n).map ExecSig →
      Eb.foldlM (GetCasePinPairs_step (X ++ (Ca ++ Cb) ++ (Ea ++ Eb)))
          ((Ca.zip Ea).map some ++ List.replicate n none) =
        some (((Ca ++ Cb).zip (Ea ++ Eb)).map some) := by
  induction n with
  | zero =>
    intro Ca Cb Ea Eb t _ _ hCb hEb
    simp only [List.range'_zero, List.map_nil, List.map_eq_nil_iff] at hCb hEb
    subst hCb; subst hEb
    simp
  | succ n ih =>
    intro Ca Cb Ea Eb t hCa hEa hCb hEb
    rw [List.range'_succ, List.map_cons] at hCb hEb
    obtain ⟨c, Cb', rfl, hc, hCb'⟩ := List.map_eq_cons_iff.mp hCb
    obtain ⟨e, Eb', rfl, he, hEb'⟩ := List.map_eq_cons_iff.mp hEb
    have hlenCa : Ca.length = t := by
      have := congrArg List.length hCa; simpa using this
    have hlenEa : Ea.length = t := by
      have := congrArg List.length hEa; simpa using this
    have ht : t ∉ List.range t := by simp
    rw [List.foldlM_cons]
    have hstep : GetCasePinPairs_step (X ++ (Ca ++ c :: Cb') ++ (Ea ++ e :: Eb'))
        ((Ca.zip Ea).map some ++ List.replicate (n + 1) none) e =
        some (((Ca ++ [c]).zip (Ea ++ [e])).map some ++ List.replicate n none) := by
      have hg := ExecGuard_exec he
      unfold ExecGuard at hg
      unfold GetCasePinPairs_step
      rw [hg, if_pos rfl, GetCaseIndexFromCaseExecPin_exec he,
        GetCasePinPair_exec X Ca Cb' _ c e _ t hX hCa hc he ht]
      have hl : ((Ca.zip Ea).map some).length = t := by simp [hlenCa, hlenEa]
      have hcond : (0 : Int) ≤ (t : Int) ∧
          (t : Int) < (((Ca.zip Ea).map some ++ List.replicate (n + 1) none).length : Int) := by
        rw [List.length_append, hl, List.length_replicate]; constructor <;> omega
      simp only [hcond, and_self, if_true, Int.toNat_ofNat]
      congr 1
      rw [List.zip_append (by rw [hlenCa, hlenEa]), List.map_append, List.replicate_succ]
      conv_lhs => rw [← hl]
      rw [List.set_append_right _ _ (le_refl _)]
      simp
    rw [hstep]
    have e1 : X ++ (Ca ++ c :: Cb') ++ (Ea ++ e :: Eb') =
        X ++ ((Ca ++ [c]) ++ Cb') ++ ((Ea ++ [e]) ++ Eb') := by simp
    have e2 : (Ca ++ c :: Cb').zip (Ea ++ e :: Eb') =
        ((Ca ++ [c]) ++ Cb').zip ((Ea ++ [e]) ++ Eb') := by simp
    rw [e1, e2]
    show List.foldlM _ _ Eb' = _
    apply ih (Ca ++ [c]) Cb' (Ea ++ [e]) Eb' (t + 1)
    · rw [List.map_append, hCa, range_succ_map]; simp [hc]
    · rw [List.map_append, hEa, range_succ_map]; simp [he]
    · exact hCb'
    · exact hEb'

theorem GetCasePinPairs_layout {X C E : List UEdGraphPin} {N : Nat}
    (h : Layout X C E (List.range N)) :
    GetCasePinPairs (X ++ C ++ E) = some ((C.zip E).map some) := by
  rw [GetCasePinPairs_eq, GetCasePinCount_layout h, Int.toNat_ofNat, List.foldlM_append]
  have hskip : (X ++ C).foldlM (GetCasePinPairs_step (X ++ C ++ E)) (List.replicate N none) =
      some (List.replicate N none) := by
    apply foldlM_skip
    intro a ha
    rcases List.mem_append.mp ha with ha | ha
    · exact (fixed_guards (mem_fixed h.fixed ha)).1
    · obtain ⟨j, _, e⟩ := mem_sig h.cond ha
      exact ExecGuard_cond e
  rw [hskip]
  have := foldlM_exec X h.fixed N [] C [] E 0 (by simp) (by simp)
    (by rw [← List.range_eq_range']; exact h.cond) (by rw [← List.range_eq_range']; exact h.exec)
  simpa using this

theorem Ids_RenumberFrom (a b : String) (l : List UEdGraphPin) :
    ∀ s : Int, Ids (RenumberFrom a b s l) = Ids l := by
  induction l with
  | nil => intro s; rfl
  | cons p l ih => intro s; simp [RenumberFrom, Ids_cons, ih, Renamed]

theorem SetPinNames_eq_Renamed (A B : List UEdGraphPin) (p : UEdGraphPin) (a b : String) (i : Int)
    (h : (Ids (A ++ p :: B)).Nodup) :
    SetPinNames (A ++ p :: B) p.PinId (GetCasePinName a i) (GetCasePinFriendlyName b i) =
      A ++ Renamed p a b i :: B :=
  SetPinNames_middle A B p _ _ h

theorem RestoreCasePinNames_layout (CasePairs : List (Option CasePinPair)) :
    ∀ (Cb Eb X Y : List UEdGraphPin) (s : Nat), Cb.length = Eb.length →
      (Ids (X ++ Cb ++ Y ++ Eb)).Nodup →
      CasePairs.drop s = (Cb.zip Eb).map some →
      RestoreCasePinNames CasePairs Cb.length (s : Int) (X ++ Cb ++ Y ++ Eb) =
        Outcome.done (X ++ RenumberFrom CaseCondPinNamePrefix CaseCondPinFriendlyNamePrefix
            ((s : Int) + 1) Cb ++ Y ++
          RenumberFrom CaseExecPinNamePrefix CaseExecPinFriendlyNamePrefix ((s : Int) + 1) Eb) := by
  intro Cb
  induction Cb with
  | nil =>
    intro Eb X Y s hlen _ _
    have : Eb = [] := List.length_eq_zero.mp hlen.symm
    subst this
    simp [RestoreCasePinNames, RenumberFrom]
  | cons c Cb ih =>
    intro Eb X Y s hlen hnd hdrop
    cases Eb with
    | nil => simp at hlen
    | cons e Eb =>
      simp only [List.length_cons, Nat.add_right_cancel_iff] at hlen
      have hget : CasePairs[s]? = some (some (c, e)) := by
        have := congrArg List.head? hdrop
        simpa [List.head?_drop] using this
      have hdrop' : CasePairs.drop (s + 1) = (Cb.zip Eb).map some := by
        have := congrArg List.tail hdrop
        simpa [List.tail_drop] using this
      have hs : ¬ ((s : Int) < 0) := by omega
      rw [List.length_cons, RestoreCasePinNames]
      simp only [hs, if_false, Int.toNat_ofNat, hget]
      have e1 : X ++ c :: Cb ++ Y ++ e :: Eb = (X ++ c :: Cb ++ Y) ++ e :: Eb := by simp
      have hnd1 : (Ids ((X ++ c :: Cb ++ Y) ++ e :: Eb)).Nodup := by rw [← e1]; exact hnd
      rw [e1, SetPinNames_eq_Renamed _ _ _ _ _ _ hnd1]
      have e2 : (X ++ c :: Cb ++ Y) ++
          Renamed e CaseExecPinNamePrefix CaseExecPinFriendlyNamePrefix ((s : Int) + 1) :: Eb =
          X ++ c :: (Cb ++ Y ++
            Renamed e CaseExecPinNamePrefix CaseExecPinFriendlyNamePrefix ((s : Int) + 1) :: Eb) := by
        simp
      have hnd2 : (Ids (X ++ c :: (Cb ++ Y ++
          Renamed e CaseExecPinNamePrefix CaseExecPinFriendlyNamePrefix ((s : Int) + 1) :: Eb))).Nodup := by
        have : Ids (X ++ c :: (Cb ++ Y ++
          Renamed e CaseExecPinNamePrefix CaseExecPinFriendlyNamePrefix ((s : Int) + 1) :: Eb)) =
            Ids (X ++ c :: Cb ++ Y ++ e :: Eb) := by
          simp [Ids, Renamed]
        rw [this]; exact hnd
      rw [e2, SetPinNames_eq_Renamed _ _ _ _ _ _ hnd2]
      have e3 : X ++ Renamed c CaseCondPinNamePrefix CaseCondPinFriendlyNamePrefix ((s : Int) + 1) ::
          (Cb ++ Y ++
            Renamed e CaseExecPinNamePrefix CaseExecPinFriendlyNamePrefix ((s : Int) + 1) :: Eb) =
          (X ++ [Renamed c CaseCondPinNamePrefix CaseCondPinFriendlyNamePrefix ((s : Int) + 1)]) ++
            Cb ++
            (Y ++ [Renamed e CaseExecPinNamePrefix CaseExecPinFriendlyNamePrefix ((s : Int) + 1)])
            ++ Eb := by simp
      have hnd3 : (Ids ((X ++
          [Renamed c CaseCondPinNamePrefix CaseCondPinFriendlyNamePrefix ((s : Int) + 1)]) ++ Cb ++
          (Y ++ [Renamed e CaseExecPinNamePrefix CaseExecPinFriendlyNamePrefix ((s : Int) + 1)])
          ++ Eb)).Nodup := by
        have : Ids ((X ++
          [Renamed c CaseCondPinNamePrefix CaseCondPinFriendlyNamePrefix ((s : Int) + 1)]) ++ Cb ++
          (Y ++ [Renamed e CaseExecPinNamePrefix CaseExecPinFriendlyNamePrefix ((s : Int) + 1)])
          ++ Eb) = Ids (X ++ c :: Cb ++ Y ++ e :: Eb) := by
          simp [Ids, Renamed]
        rw [this]; exact hnd
      rw [e3]
      have := ih Eb _ _ (s + 1) hlen hnd3 hdrop'
      rw [show (((s + 1 : Nat) : Int)) = (s : Int) + 1 by push_cast; rfl] at this
      rw [this]
      simp [RenumberFrom]

theorem Above_range' (n : Nat) : ∀ t s : Nat, t ≤ s → Above t (List.range' s n) := by
  induction n with
  | zero => intro t s _; simp [Above]
  | succ n ih =>
    intro t s h
    rw [List.range'_succ]
    exact ⟨h, ih (t + 1) (s + 1) (by omega)⟩

theorem Above_append (a b : List Nat) :
    ∀ t : Nat, Above t a → Above (t + a.length) b → Above t (a ++ b) := by
  induction a with
  | nil => intro t _ h; simpa using h
  | cons x a ih =>
    intro t h1 h2
    refine ⟨h1.1, ih (t + 1) h1.2 ?_⟩
    have : t + 1 + a.length = t + (x :: a).length := by simp; omega
    rw [this]; exact h2

theorem renumber_layout :
    ∀ (js : List Nat) (Cb Eb X Y : List UEdGraphPin) (t : Nat),
      Cb.map PinSignature = js.map CondSig → Eb.map PinSignature = js.map ExecSig →
      Above t js →
      (∀ x ∈ X, ∀ n : Nat, t ≤ n →
        ¬ FNameEq x.PinName (GetCasePinName CaseCondPinNamePrefix n) = true) →
      (Ids (X ++ Cb ++ Y ++ Eb)).Nodup →
      RemoveCasePinAt_renumber (Ids Eb) (t : Int) (X ++ Cb ++ Y ++ Eb) =
        Outcome.done (X ++ RenumberFrom CaseCondPinNamePrefix CaseCondPinFriendlyNamePrefix
            (t : Int) Cb ++ Y ++
          RenumberFrom CaseExecPinNamePrefix CaseExecPinFriendlyNamePrefix (t : Int) Eb) := by
  intro js
  induction js with
  | nil =>
    intro Cb Eb X Y t hC hE _ _ _
    simp only [List.map_nil, List.map_eq_nil_iff] at hC hE
    subst hC; subst hE
    simp [RemoveCasePinAt_renumber, RenumberFrom, Ids]
  | cons j js ih =>
    intro Cb Eb X Y t hC hE hab hX hnd
    rw [List.map_cons] at hC hE
    obtain ⟨c, Cb', rfl, hc, hCb'⟩ := List.map_eq_cons_iff.mp hC
    obtain ⟨e, Eb', rfl, he, hEb'⟩ := List.map_eq_cons_iff.mp hE
    obtain ⟨htj, hab'⟩ := hab
    have e1 : X ++ c :: Cb' ++ Y ++ e :: Eb' = (X ++ c :: Cb' ++ Y) ++ e :: Eb' := by simp
    have hnd1 : (Ids ((X ++ c :: Cb' ++ Y) ++ e :: Eb')).Nodup := by rw [← e1]; exact hnd
    have hderef : Deref (X ++ c :: Cb' ++ Y ++ e :: Eb') e.PinId = some e := by
      rw [e1]
      apply Deref_first
      rw [Ids_append, Ids_cons, List.nodup_append] at hnd1
      exact fun hm => hnd1.2.2 hm (List.mem_cons_self _ _)
    have hfind : GetCondPinFromExecPin (X ++ c :: Cb' ++ Y ++ e :: Eb') e = some c := by
      rw [GetCondPinFromExecPin_exec _ he]
      have e0 : X ++ c :: Cb' ++ Y ++ e :: Eb' = X ++ c :: (Cb' ++ Y ++ e :: Eb') := by simp
      rw [e0]
      exact FindPin_first _ _ _ _ (fun a ha => hX a ha j htj) (sig_cond hc).1
    have hg := ExecGuard_exec he
    unfold ExecGuard at hg
    rw [Ids_cons, RemoveCasePinAt_renumber]
    simp only [hderef, hg, if_true, hfind]
    rw [e1, SetPinNames_eq_Renamed _ _ _ _ _ _ hnd1]
    have e2 : (X ++ c :: Cb' ++ Y) ++
        Renamed e CaseExecPinNamePrefix CaseExecPinFriendlyNamePrefix (t : Int) :: Eb' =
        X ++ c :: (Cb' ++ Y ++
          Renamed e CaseExecPinNamePrefix CaseExecPinFriendlyNamePrefix (t : Int) :: Eb') := by
      simp
    have hnd2 : (Ids (X ++ c :: (Cb' ++ Y ++
        Renamed e CaseExecPinNamePrefix CaseExecPinFriendlyNamePrefix (t : Int) :: Eb'))).Nodup := by
      have : Ids (X ++ c :: (Cb' ++ Y ++
        Renamed e CaseExecPinNamePrefix CaseExecPinFriendlyNamePrefix (t : Int) :: Eb')) =
          Ids (X ++ c :: Cb' ++ Y ++ e :: Eb') := by
        simp [Ids, Renamed]
      rw [this]; exact hnd
    rw [e2, SetPinNames_eq_Renamed _ _ _ _ _ _ hnd2]
    have e3 : X ++ Renamed c CaseCondPinNamePrefix CaseCondPinFriendlyNamePrefix (t : Int) ::
        (Cb' ++ Y ++
          Renamed e CaseExecPinNamePrefix CaseExecPinFriendlyNamePrefix (t : Int) :: Eb') =
        (X ++ [Renamed c CaseCondPinNamePrefix CaseCondPinFriendlyNamePrefix (t : Int)]) ++
          Cb' ++
          (Y ++ [Renamed e CaseExecPinNamePrefix CaseExecPinFriendlyNamePrefix (t : Int)])
          ++ Eb' := by simp
    have hnd3 : (Ids ((X ++
        [Renamed c CaseCondPinNamePrefix CaseCondPinFriendlyNamePrefix (t : Int)]) ++ Cb' ++
        (Y ++ [Renamed e CaseExecPinNamePrefix CaseExecPinFriendlyNamePrefix (t : Int)])
        ++ Eb')).Nodup := by
      have : Ids ((X ++
        [Renamed c CaseCondPinNamePrefix CaseCondPinFriendlyNamePrefix (t : Int)]) ++ Cb' ++
        (Y ++ [Renamed e CaseExecPinNamePrefix CaseExecPinFriendlyNamePrefix (t : Int)])
        ++ Eb') = Ids (X ++ c :: Cb' ++ Y ++ e :: Eb') := by
        simp [Ids, Renamed]
      rw [this]; exact hnd
    have hX' : ∀ x ∈ X ++
        [Renamed c CaseCondPinNamePrefix CaseCondPinFriendlyNamePrefix (t : Int)],
        ∀ n : Nat, t + 1 ≤ n →
          ¬ FNameEq x.PinName (GetCasePinName CaseCondPinNamePrefix n) = true := by
      intro x hx n hn
      rcases List.mem_append.mp hx with hx | hx
      · exact hX x hx n (by omega)
      · rw [List.mem_singleton] at hx
        subst hx
        intro hname
        have := FNameEq_GetCasePinName_inj _ _ _ hname
        omega
    rw [e3]
    have := ih Cb' Eb' _ _ (t + 1) hCb' hEb' hab' hX' hnd3
    rw [show (((t + 1 : Nat) : Int)) = (t : Int) + 1 by push_cast; rfl] at this
    rw [this]
    simp [RenumberFrom]

theorem Nodup_insert (A B : List UEdGraphPin) (x : UEdGraphPin) (h : (Ids (A ++ B)).Nodup)
    (hx : x.PinId ∉ Ids (A ++ B)) : (Ids (A ++ x :: B)).Nodup := by
  rw [Ids_append, Ids_cons, List.nodup_middle, List.nodup_cons, ← Ids_append]
  exact ⟨hx, h⟩

theorem InsertedCond_fresh (X Ca Cb Ea Eb : List UEdGraphPin) :
    (InsertedCond X Ca Cb Ea Eb).PinId ∉ Ids (X ++ (Ca ++ Cb) ++ (Ea ++ Eb)) :=
  NewObject_fresh _

theorem InsertedExec_fresh (X Ca Cb Ea Eb : List UEdGraphPin) :
    (InsertedExec X Ca Cb Ea Eb).PinId ∉
      Ids (X ++ (Ca ++ InsertedCond X Ca Cb Ea Eb :: Cb) ++ (Ea ++ Eb)) :=
  NewObject_fresh _

theorem Nodup_inserted {X Ca Cb Ea Eb : List UEdGraphPin}
    (h : (Ids (X ++ (Ca ++ Cb) ++ (Ea ++ Eb))).Nodup) :
    (Ids (X ++ (Ca ++ InsertedCond X Ca Cb Ea Eb :: Cb) ++
      (Ea ++ InsertedExec X Ca Cb Ea Eb :: Eb))).Nodup := by
  have h1 : (Ids ((X ++ Ca) ++ InsertedCond X Ca Cb Ea Eb :: (Cb ++ (Ea ++ Eb)))).Nodup := by
    apply Nodup_insert
    · simpa using h
    · have := InsertedCond_fresh X Ca Cb Ea Eb
      simpa using this
  have h2 : (Ids ((X ++ (Ca ++ InsertedCond X Ca Cb Ea Eb :: Cb) ++ Ea) ++
      InsertedExec X Ca Cb Ea Eb :: Eb)).Nodup := by
    apply Nodup_insert
    · simpa using h1
    · have := InsertedExec_fresh X Ca Cb Ea Eb
      simpa using this
  simpa using h2

/-- Insertion of a case pair at index `Ca.length` followed by the renaming loop. -/
theorem InsertAt_layout {X Ca Cb Ea Eb : List UEdGraphPin} {N : Nat}
    (h : Layout X (Ca ++ Cb) (Ea ++ Eb) (List.range N)) (hk : Ca.length = Ea.length) :
    RestoreCasePinNames (((Ca ++ Cb).zip (Ea ++ Eb)).map some)
        (((((Ca ++ Cb).zip (Ea ++ Eb)).map some).length : Int) - (Ca.length : Int)).toNat
        (Ca.length : Int) (AddCasePinPair (X ++ (Ca ++ Cb) ++ (Ea ++ Eb)) (Ca.length : Int)).1 =
      Outcome.done (X ++ (Ca ++ InsertedCond X Ca Cb Ea Eb ::
          RenumberFrom CaseCondPinNamePrefix CaseCondPinFriendlyNamePrefix
            ((Ca.length : Int) + 1) Cb) ++
        (Ea ++ InsertedExec X Ca Cb Ea Eb ::
          RenumberFrom CaseExecPinNamePrefix CaseExecPinFriendlyNamePrefix
            ((Ca.length : Int) + 1) Eb)) := by
  have hlenC := h.lenC
  have hlenE := h.lenE
  rw [List.length_append, List.length_range] at hlenC hlenE
  have hcb : Cb.length = Eb.length := by omega
  rw [AddCasePinPair_layout h hk]
  have hcount : (((((Ca ++ Cb).zip (Ea ++ Eb)).map some).length : Int) - (Ca.length : Int)).toNat
      = Cb.length := by
    simp only [List.length_map, List.length_zip, List.length_append]
    omega
  rw [hcount]
  have hdrop : (((Ca ++ Cb).zip (Ea ++ Eb)).map some).drop Ca.length = (Cb.zip Eb).map some := by
    rw [List.zip_append hk, List.map_append]
    have : Ca.length = ((Ca.zip Ea).map some).length := by simp [hk]
    conv_lhs => rw [this]
    rw [List.drop_left]
  have e1 : X ++ (Ca ++ NewCondPin (X ++ (Ca ++ Cb) ++ (Ea ++ Eb)) Ca.length :: Cb) ++
      (Ea ++ NewExecPin (X ++ (Ca ++ NewCondPin (X ++ (Ca ++ Cb) ++ (Ea ++ Eb)) Ca.length :: Cb)
        ++ (Ea ++ Eb)) Ca.length :: Eb) =
      (X ++ Ca ++ [InsertedCond X Ca Cb Ea Eb]) ++ Cb ++ (Ea ++ [InsertedExec X Ca Cb Ea Eb]) ++
        Eb := by
    simp [InsertedCond, InsertedExec]
  rw [e1]
  have hnd : (Ids ((X ++ Ca ++ [InsertedCond X Ca Cb Ea Eb]) ++ Cb ++
      (Ea ++ [InsertedExec X Ca Cb Ea Eb]) ++ Eb)).Nodup := by
    have := @Nodup_inserted X Ca Cb Ea Eb h.nodup
    simpa using this
  rw [RestoreCasePinNames_layout _ Cb Eb _ _ Ca.length hcb hnd hdrop]
  simp

theorem GetCasePinPair_cond (X C Ea Eb : List UEdGraphPin) (c e : UEdGraphPin) (js ja : List Nat)
    (j : Nat) (hX : X.map PinSignature = FixedSig) (hC : C.map PinSignature = js.map CondSig)
    (hEa : Ea.map PinSignature = ja.map ExecSig)
    (hc : PinSignature c = CondSig j) (he : PinSignature e = ExecSig j) (hj : j ∉ ja) :
    GetCasePinPair (X ++ C ++ (Ea ++ e :: Eb)) c = some (c, e) := by
  unfold GetCasePinPair
  rw [IsExecPin_cond hc]
  simp only [Bool.false_eq_true, if_false]
  rw [GetExecPinFromCondPin_cond _ hc, FindPin_exec X C Ea Eb e js ja j hX hC hEa he hj]

theorem SplitAt.lenCa {X Ca Cb Ea Eb : List UEdGraphPin} {c e : UEdGraphPin} {N k : Nat}
    (h : SplitAt X Ca Cb Ea Eb c e N k) : Ca.length = k := by
  have := congrArg List.length h.condBefore; simpa using this

theorem SplitAt.lenEa {X Ca Cb Ea Eb : List UEdGraphPin} {c e : UEdGraphPin} {N k : Nat}
    (h : SplitAt X Ca Cb Ea Eb c e N k) : Ea.length = k := by
  have := congrArg List.length h.execBefore; simpa using this

theorem SplitAt.pair {X Ca Cb Ea Eb : List UEdGraphPin} {c e : UEdGraphPin} {N k : Nat}
    (h : SplitAt X Ca Cb Ea Eb c e N k) (p : UEdGraphPin) (hp : p = c ∨ p = e) :
    GetCasePinPair (X ++ (Ca ++ c :: Cb) ++ (Ea ++ e :: Eb)) p = some (c, e) := by
  have hk : k ∉ List.range k := by simp
  rcases hp with rfl | rfl
  · exact GetCasePinPair_cond X _ Ea Eb p e _ _ k h.layout.fixed h.layout.cond h.execBefore
      h.condAt h.execAt hk
  · exact GetCasePinPair_exec X Ca Cb _ c p _ k h.layout.fixed h.condBefore h.condAt h.execAt hk

theorem Layout.splitAt {X C E : List UEdGraphPin} {N : Nat} (h : Layout X C E (List.range N))
    (k : Nat) (hk : k < N) :
    ∃ Ca c Cb Ea e Eb, C = Ca ++ c :: Cb ∧ E = Ea ++ e :: Eb ∧ SplitAt X Ca Cb Ea Eb c e N k := by
  obtain ⟨Ca, c, Cb, Ea, e, Eb, rfl, rfl, h1, h2, h3, h4, h5, h6⟩ := h.split k hk
  exact ⟨Ca, c, Cb, Ea, e, Eb, rfl, rfl, ⟨h, h1, h2, h3, h4, h5, h6⟩⟩

theorem AddCasePinNextTo_before {X Ca Cb Ea Eb : List UEdGraphPin} {c e : UEdGraphPin}
    {N k : Nat} (h : SplitAt X Ca Cb Ea Eb c e N k) (p : UEdGraphPin) (hp : p = c ∨ p = e) :
    AddCasePinNextTo (X ++ (Ca ++ c :: Cb) ++ (Ea ++ e :: Eb)) p 0 =
      Outcome.done (X ++ (Ca ++ InsertedCond X Ca (c :: Cb) Ea (e :: Eb) ::
          RenumberFrom CaseCondPinNamePrefix CaseCondPinFriendlyNamePrefix
            ((k : Int) + 1) (c :: Cb)) ++
        (Ea ++ InsertedExec X Ca (c :: Cb) Ea (e :: Eb) ::
          RenumberFrom CaseExecPinNamePrefix CaseExecPinFriendlyNamePrefix
            ((k : Int) + 1) (e :: Eb))) := by
  unfold AddCasePinNextTo
  rw [h.pair p hp]
  simp only [GetCaseIndexFromCaseCondPin_cond h.condAt, GetCaseIndexFromCaseExecPin_exec h.execAt,
    ne_eq, not_true_eq_false, if_false, GetCasePinPairs_layout h.layout, add_zero]
  have := InsertAt_layout h.layout (h.lenCa.trans h.lenEa.symm)
  rw [h.lenCa] at this
  exact this

theorem AddCasePinNextTo_after {X Ca Cb Ea Eb : List UEdGraphPin} {c e : UEdGraphPin}
    {N k : Nat} (h : SplitAt X Ca Cb Ea Eb c e N k) (p : UEdGraphPin) (hp : p = c ∨ p = e) :
    AddCasePinNextTo (X ++ (Ca ++ c :: Cb) ++ (Ea ++ e :: Eb)) p 1 =
      Outcome.done (X ++ (Ca ++ c :: InsertedCond X (Ca ++ [c]) Cb (Ea ++ [e]) Eb ::
          RenumberFrom CaseCondPinNamePrefix CaseCondPinFriendlyNamePrefix
            ((k : Int) + 1 + 1) Cb) ++
        (Ea ++ e :: InsertedExec X (Ca ++ [c]) Cb (Ea ++ [e]) Eb ::
          RenumberFrom CaseExecPinNamePrefix CaseExecPinFriendlyNamePrefix
            ((k : Int) + 1 + 1) Eb)) := by
  unfold AddCasePinNextTo
  rw [h.pair p hp]
  simp only [GetCaseIndexFromCaseCondPin_cond h.condAt, GetCaseIndexFromCaseExecPin_exec h.execAt,
    ne_eq, not_true_eq_false, if_false, GetCasePinPairs_layout h.layout]
  have e1 : Ca ++ c :: Cb = (Ca ++ [c]) ++ Cb := by simp
  have e2 : Ea ++ e :: Eb = (Ea ++ [e]) ++ Eb := by simp
  have hl : Layout X ((Ca ++ [c]) ++ Cb) ((Ea ++ [e]) ++ Eb) (List.range N) := by
    rw [← e1, ← e2]; exact h.layout
  have hlen : (Ca ++ [c]).length = (Ea ++ [e]).length := by
    simp [h.lenCa, h.lenEa]
  have := InsertAt_layout hl hlen
  have hk1 : (((Ca ++ [c]).length : Nat) : Int) = (k : Int) + 1 := by
    simp [h.lenCa]
  rw [hk1] at this
  rw [e1, e2, this]
  simp

theorem filter_remove (A B : List UEdGraphPin) (p : UEdGraphPin)
    (h : (Ids (A ++ p :: B)).Nodup) :
    (A ++ p :: B).filter (fun P => P.PinId != p.PinId) = A ++ B := by
  rw [Ids_append, Ids_cons, List.nodup_append] at h
  obtain ⟨_, h2, h3⟩ := h
  have hA : ∀ a ∈ A, (a.PinId != p.PinId) = true := by
    intro a ha
    have : a.PinId ≠ p.PinId := fun e => h3 (mem_Ids ha) (e ▸ List.mem_cons_self _ _)
    simpa using this
  have hB : ∀ a ∈ B, (a.PinId != p.PinId) = true := by
    intro a ha
    have : a.PinId ≠ p.PinId := fun e => (List.nodup_cons.mp h2).1 (e ▸ mem_Ids ha)
    simpa using this
  rw [List.filter_append, List.filter_cons, List.filter_eq_self.mpr hA,
    List.filter_eq_self.mpr hB]
  simp

theorem Deref_mem (A B : List UEdGraphPin) (ptr : Nat) (P : UEdGraphPin) (h : ptr ∈ Ids A)
    (hd : Deref (A ++ B) ptr = some P) : P ∈ A := by
  unfold Deref at hd
  rw [List.find?_append] at hd
  cases hf : A.find? (fun P => P.PinId == ptr) with
  | none =>
    rw [List.find?_eq_none] at hf
    obtain ⟨a, ha, e⟩ := List.mem_map.mp h
    exact absurd (by simpa using e) (hf a ha)
  | some a =>
    rw [hf] at hd
    simp only [Option.or_some, Option.some.injEq] at hd
    exact hd ▸ List.mem_of_find?_eq_some hf

theorem renumber_skip (Pins : List UEdGraphPin) (A B : List Nat) (Index : Int)
    (hA : ∀ ptr ∈ A, ∀ P, Deref Pins ptr = some P → ExecGuard P = false) :
    RemoveCasePinAt_renumber (A ++ B) Index Pins = RemoveCasePinAt_renumber B Index Pins := by
  induction A with
  | nil => rfl
  | cons a A ih =>
    rw [List.cons_append, RemoveCasePinAt_renumber]
    cases hd : Deref Pins a with
    | none => exact ih (fun x hx => hA x (List.mem_cons_of_mem _ hx))
    | some P =>
      have hg := hA a (List.mem_cons_self _ _) P hd
      unfold ExecGuard at hg
      simp only [hg, Bool.false_eq_true, if_false]
      exact ih (fun x hx => hA x (List.mem_cons_of_mem _ hx))

theorem RemoveCasePinAt_layout {X Ca Cb Ea Eb : List UEdGraphPin} {c e : UEdGraphPin}
    {N k : Nat} (h : SplitAt X Ca Cb Ea Eb c e N k) :
    RemoveCasePinAt (X ++ (Ca ++ c :: Cb) ++ (Ea ++ e :: Eb)) (k : Int) =
      Outcome.done (X ++
        RenumberFrom CaseCondPinNamePrefix CaseCondPinFriendlyNamePrefix 0 (Ca ++ Cb) ++
        RenumberFrom CaseExecPinNamePrefix CaseExecPinFriendlyNamePrefix 0 (Ea ++ Eb)) := by
  have hk : k ∉ List.range k := by simp
  unfold RemoveCasePinAt
  rw [GetCaseExecPinFromCaseIndex_found X _ Ea Eb e _ _ k h.layout.fixed h.layout.cond
      h.execBefore h.execAt hk,
    GetCaseCondPinFromCaseIndex_found X Ca Cb _ c _ k h.layout.fixed h.condBefore h.condAt hk]
  simp only
  have hnd := h.layout.nodup
  have e1 : X ++ (Ca ++ c :: Cb) ++ (Ea ++ e :: Eb) = (X ++ (Ca ++ c :: Cb) ++ Ea) ++ e :: Eb := by
    simp
  have hnd1 : (Ids ((X ++ (Ca ++ c :: Cb) ++ Ea) ++ e :: Eb)).Nodup := by rw [← e1]; exact hnd
  rw [e1, filter_remove _ _ _ hnd1]
  have e2 : X ++ (Ca ++ c :: Cb) ++ Ea ++ Eb = (X ++ Ca) ++ c :: (Cb ++ Ea ++ Eb) := by simp
  have hnd2 : (Ids ((X ++ Ca) ++ c :: (Cb ++ Ea ++ Eb))).Nodup := by
    have hsub : List.Sublist (Ids ((X ++ Ca) ++ c :: (Cb ++ Ea ++ Eb)))
        (Ids ((X ++ (Ca ++ c :: Cb) ++ Ea) ++ e :: Eb)) := by
      unfold Ids
      apply List.Sublist.map
      simp only [List.append_assoc, List.cons_append]
      apply List.Sublist.append_left
      apply List.Sublist.append_left
      apply List.Sublist.cons₂
      apply List.Sublist.append_left
      apply List.Sublist.append_left
      exact List.sublist_cons_self _ _
    exact hnd1.sublist hsub
  rw [e2, filter_remove _ _ _ hnd2]
  have e3 : X ++ Ca ++ (Cb ++ Ea ++ Eb) = X ++ (Ca ++ Cb) ++ [] ++ (Ea ++ Eb) := by simp
  have hnd3 : (Ids (X ++ (Ca ++ Cb) ++ [] ++ (Ea ++ Eb))).Nodup := by
    have hsub : List.Sublist (Ids (X ++ (Ca ++ Cb) ++ [] ++ (Ea ++ Eb)))
        (Ids ((X ++ Ca) ++ c :: (Cb ++ Ea ++ Eb))) := by
      unfold Ids
      apply List.Sublist.map
      simp only [List.append_assoc, List.cons_append, List.nil_append]
      apply List.Sublist.append_left
      apply List.Sublist.append_left
      exact List.sublist_cons_self _ _
    exact hnd2.sublist hsub
  rw [e3]
  have hptr : (X ++ (Ca ++ Cb) ++ [] ++ (Ea ++ Eb)).map (fun P : UEdGraphPin => P.PinId) =
      Ids (X ++ (Ca ++ Cb)) ++ Ids (Ea ++ Eb) := by
    simp [Ids]
  rw [hptr]
  have hCab : (Ca ++ Cb).map PinSignature =
      (List.range k ++ List.range' (k + 1) (N - k - 1)).map CondSig := by
    rw [List.map_append, List.map_append, h.condBefore, h.condAfter]
  have hEab : (Ea ++ Eb).map PinSignature =
      (List.range k ++ List.range' (k + 1) (N - k - 1)).map ExecSig := by
    rw [List.map_append, List.map_append, h.execBefore, h.execAfter]
  rw [renumber_skip]
  · have hab : Above 0 (List.range k ++ List.range' (k + 1) (N - k - 1)) := by
      apply Above_append
      · rw [List.range_eq_range']; exact Above_range' _ _ _ (le_refl _)
      · exact Above_range' _ _ _ (by simp)
    have hX : ∀ x ∈ X, ∀ n : Nat, 0 ≤ n →
        ¬ FNameEq x.PinName (GetCasePinName CaseCondPinNamePrefix n) = true :=
      fun x hx n _ => fixed_name_ne (mem_fixed h.layout.fixed hx) _ (Or.inl rfl) _
    have := renumber_layout _ (Ca ++ Cb) (Ea ++ Eb) X [] 0 hCab hEab hab hX hnd3
    simpa using this
  · intro ptr hptr P hd
    have e4 : X ++ (Ca ++ Cb) ++ [] ++ (Ea ++ Eb) = (X ++ (Ca ++ Cb)) ++ (Ea ++ Eb) := by simp
    rw [e4] at hd
    have hP := Deref_mem _ _ ptr P hptr hd
    rcases List.mem_append.mp hP with hP | hP
    · exact (fixed_guards (mem_fixed h.layout.fixed hP)).1
    · obtain ⟨j, _, e⟩ := mem_sig hCab hP
      exact ExecGuard_cond e

theorem RenumberFrom_sig_cond (fp : String) (js : List Nat) :
    ∀ (l : List UEdGraphPin) (s : Nat), l.map PinSignature = js.map CondSig →
      (RenumberFrom CaseCondPinNamePrefix fp (s : Int) l).map PinSignature =
        (List.range' s l.length).map CondSig := by
  induction js with
  | nil =>
    intro l s h
    simp only [List.map_nil, List.map_eq_nil_iff] at h
    subst h; rfl
  | cons j js ih =>
    intro l s h
    rw [List.map_cons] at h
    obtain ⟨p, l', rfl, hp, hl'⟩ := List.map_eq_cons_iff.mp h
    have := ih l' (s + 1) hl'
    rw [show (((s + 1 : Nat) : Int)) = (s : Int) + 1 by push_cast; rfl] at this
    simp only [RenumberFrom, List.map_cons, List.length_cons, List.range'_succ, this]
    congr 1
    have := sig_cond hp
    simp [PinSignature, CondSig, Renamed, this.2.1, this.2.2]

theorem RenumberFrom_sig_exec (fp : String) (js : List Nat) :
    ∀ (l : List UEdGraphPin) (s : Nat), l.map PinSignature = js.map ExecSig →
      (RenumberFrom CaseExecPinNamePrefix fp (s : Int) l).map PinSignature =
        (List.range' s l.length).map ExecSig := by
  induction js with
  | nil =>
    intro l s h
    simp only [List.map_nil, List.map_eq_nil_iff] at h
    subst h; rfl
  | cons j js ih =>
    intro l s h
    rw [List.map_cons] at h
    obtain ⟨p, l', rfl, hp, hl'⟩ := List.map_eq_cons_iff.mp h
    have := ih l' (s + 1) hl'
    rw [show (((s + 1 : Nat) : Int)) = (s : Int) + 1 by push_cast; rfl] at this
    simp only [RenumberFrom, List.map_cons, List.length_cons, List.range'_succ, this]
    congr 1
    have := sig_exec hp
    simp [PinSignature, ExecSig, Renamed, this.2.1, this.2.2]

theorem Layout.parts {X Ca Cb Ea Eb : List UEdGraphPin} {N : Nat}
    (h : Layout X (Ca ++ Cb) (Ea ++ Eb) (List.range N)) (hk : Ca.length = Ea.length) :
    Ca.map PinSignature = (List.range Ca.length).map CondSig ∧
    Cb.map PinSignature = (List.range' Ca.length Cb.length).map CondSig ∧
    Ea.map PinSignature = (List.range Ca.length).map ExecSig ∧
    Eb.map PinSignature = (List.range' Ca.length Eb.length).map ExecSig ∧
    N = Ca.length + Cb.length ∧ Cb.length = Eb.length := by
  have hlenC := h.lenC
  have hlenE := h.lenE
  rw [List.length_append, List.length_range] at hlenC hlenE
  have hN : List.range N = List.range Ca.length ++ List.range' Ca.length Cb.length := by
    rw [List.range_eq_range', List.range_eq_range', ← hlenC]
    have := List.range'_append 0 Ca.length Cb.length 1
    simp only [zero_add, one_mul] at this
    rw [this, Nat.add_comm]
  have hc := h.cond
  have he := h.exec
  rw [hN, List.map_append, List.map_append] at hc he
  have hc' := List.append_inj hc (by simp)
  have he' := List.append_inj he (by simp [hk])
  refine ⟨hc'.1, hc'.2, he'.1, ?_, hlenC.symm, by omega⟩
  have : Cb.length = Eb.length := by omega
  rw [← this]; exact he'.2

theorem NewCondPin_sig (Pins : List UEdGraphPin) (k : Nat) :
    PinSignature (NewCondPin Pins (k : Int)) = CondSig k := rfl

theorem NewExecPin_sig (Pins : List UEdGraphPin) (k : Nat) :
    PinSignature (NewExecPin Pins (k : Int)) = ExecSig k := rfl

theorem range_insert_map {β : Type} (g : Nat → β) (a b : Nat) :
    (List.range (a + b + 1)).map g =
      (List.range a).map g ++ g a :: (List.range' (a + 1) b).map g := by
  rw [range_split (a + b + 1) a (by omega)]
  have : a + b + 1 - a - 1 = b := by omega
  rw [this]
  simp

/-- The array left by an insertion at index `Ca.length` is well-formed with one more case. -/
theorem WellFormed_inserted {X Ca Cb Ea Eb : List UEdGraphPin} {N : Nat}
    (h : Layout X (Ca ++ Cb) (Ea ++ Eb) (List.range N)) (hk : Ca.length = Ea.length) :
    WellFormed (X ++ (Ca ++ InsertedCond X Ca Cb Ea Eb ::
          RenumberFrom CaseCondPinNamePrefix CaseCondPinFriendlyNamePrefix
            ((Ca.length : Int) + 1) Cb) ++
        (Ea ++ InsertedExec X Ca Cb Ea Eb ::
          RenumberFrom CaseExecPinNamePrefix CaseExecPinFriendlyNamePrefix
            ((Ca.length : Int) + 1) Eb)) (N + 1) := by
  obtain ⟨h1, h2, h3, h4, h5, h6⟩ := h.parts hk
  have r1 := RenumberFrom_sig_cond CaseCondPinFriendlyNamePrefix _ Cb (Ca.length + 1) h2
  have r2 := RenumberFrom_sig_exec CaseExecPinFriendlyNamePrefix _ Eb (Ca.length + 1) h4
  rw [show (((Ca.length + 1 : Nat) : Int)) = (Ca.length : Int) + 1 by push_cast; rfl] at r1 r2
  constructor
  · simp only [List.map_append, List.map_cons, h.fixed, h1, h3, r1, r2]
    rw [h5, range_insert_map, range_insert_map, ← h6]
    rfl
  · show (Ids _).Nodup
    have := @Nodup_inserted X Ca Cb Ea Eb h.nodup
    have e : Ids (X ++ (Ca ++ InsertedCond X Ca Cb Ea Eb ::
          RenumberFrom CaseCondPinNamePrefix CaseCondPinFriendlyNamePrefix
            ((Ca.length : Int) + 1) Cb) ++
        (Ea ++ InsertedExec X Ca Cb Ea Eb ::
          RenumberFrom CaseExecPinNamePrefix CaseExecPinFriendlyNamePrefix
            ((Ca.length : Int) + 1) Eb)) =
        Ids (X ++ (Ca ++ InsertedCond X Ca Cb Ea Eb :: Cb) ++
          (Ea ++ InsertedExec X Ca Cb Ea Eb :: Eb)) := by
      simp only [Ids_append, Ids_cons, Ids_RenumberFrom]
    rw [e]; exact this

/-- The array left by the removal of case `k` is well-formed with one case less. -/
theorem WellFormed_removed {X Ca Cb Ea Eb : List UEdGraphPin} {c e : UEdGraphPin}
    {N k : Nat} (h : SplitAt X Ca Cb Ea Eb c e N k) :
    WellFormed (X ++
        RenumberFrom CaseCondPinNamePrefix CaseCondPinFriendlyNamePrefix 0 (Ca ++ Cb) ++
        RenumberFrom CaseExecPinNamePrefix CaseExecPinFriendlyNamePrefix 0 (Ea ++ Eb))
      (N - 1) := by
  have hCab : (Ca ++ Cb).map PinSignature =
      (List.range k ++ List.range' (k + 1) (N - k - 1)).map CondSig := by
    rw [List.map_append, List.map_append, h.condBefore, h.condAfter]
  have hEab : (Ea ++ Eb).map PinSignature =
      (List.range k ++ List.range' (k + 1) (N - k - 1)).map ExecSig := by
    rw [List.map_append, List.map_append, h.execBefore, h.execAfter]
  have r1 := RenumberFrom_sig_cond CaseCondPinFriendlyNamePrefix _ _ 0 hCab
  have r2 := RenumberFrom_sig_exec CaseExecPinFriendlyNamePrefix _ _ 0 hEab
  have hlenC := h.layout.lenC
  have hlenE := h.layout.lenE
  simp only [List.length_append, List.length_cons, List.length_range] at hlenC hlenE
  have l1 : (Ca ++ Cb).length = N - 1 := by rw [List.length_append]; omega
  have l2 : (Ea ++ Eb).length = N - 1 := by rw [List.length_append]; omega
  rw [l1] at r1
  rw [l2] at r2
  constructor
  · simp only [List.map_append, h.layout.fixed]
    have r1' : List.map PinSignature
        (RenumberFrom CaseCondPinNamePrefix CaseCondPinFriendlyNamePrefix 0 (Ca ++ Cb)) =
        (List.range (N - 1)).map CondSig := by
      rw [List.range_eq_range']; exact r1
    have r2' : List.map PinSignature
        (RenumberFrom CaseExecPinNamePrefix CaseExecPinFriendlyNamePrefix 0 (Ea ++ Eb)) =
        (List.range (N - 1)).map ExecSig := by
      rw [List.range_eq_range']; exact r2
    rw [r1', r2']
  · show (Ids _).Nodup
    have hsub : List.Sublist (Ids (X ++ (Ca ++ Cb) ++ (Ea ++ Eb)))
        (Ids (X ++ (Ca ++ c :: Cb) ++ (Ea ++ e :: Eb))) := by
      unfold Ids
      apply List.Sublist.map
      simp only [List.append_assoc, List.cons_append]
      apply List.Sublist.append_left
      apply List.Sublist.append_left
      apply List.Sublist.cons
      apply List.Sublist.append_left
      apply List.Sublist.append_left
      exact List.sublist_cons_self _ _
    have e1 : Ids (X ++
        RenumberFrom CaseCondPinNamePrefix CaseCondPinFriendlyNamePrefix 0 (Ca ++ Cb) ++
        RenumberFrom CaseExecPinNamePrefix CaseExecPinFriendlyNamePrefix 0 (Ea ++ Eb)) =
        Ids (X ++ (Ca ++ Cb) ++ (Ea ++ Eb)) := by
      simp only [Ids_append, Ids_RenumberFrom]
    rw [e1]
    exact h.layout.nodup.sublist hsub

theorem fixed_not_case {p : UEdGraphPin} (h : PinSignature p ∈ FixedSig) :
    IsCasePin p = false := by
  simp only [FixedSig, List.mem_cons, List.mem_singleton, PinSignature, Prod.mk.injEq,
    List.not_mem_nil, or_false] at h
  rcases h with ⟨h1, _⟩ | ⟨h1, _⟩ | ⟨h1, _⟩ <;> simp [IsCasePin, h1, FNameEq_self]

/-- A case pin of a well-formed node is the condition pin or the execution pin of a case. -/
theorem Layout.case_pin {X C E : List UEdGraphPin} {N : Nat} (h : Layout X C E (List.range N))
    (p : UEdGraphPin) (hp : p ∈ X ++ C ++ E) (hc : IsCasePin p = true) :
    ∃ k Ca c Cb Ea e Eb, k < N ∧ C = Ca ++ c :: Cb ∧ E = Ea ++ e :: Eb ∧
      SplitAt X Ca Cb Ea Eb c e N k ∧ (p = c ∨ p = e) := by
  rcases List.mem_append.mp hp with hp | hp
  · rcases List.mem_append.mp hp with hp | hp
    · rw [fixed_not_case (mem_fixed h.fixed hp)] at hc
      exact absurd hc (by simp)
    · obtain ⟨Ca0, Cb0, rfl⟩ := List.append_of_mem hp
      have hlen := h.lenC
      rw [List.length_append, List.length_cons, List.length_range] at hlen
      obtain ⟨Ca, c, Cb, Ea, e, Eb, hC, hE, hs⟩ := h.splitAt Ca0.length (by omega)
      have := List.append_inj hC (by rw [hs.lenCa])
      obtain ⟨h1, h2⟩ := this
      simp only [List.cons.injEq] at h2
      exact ⟨Ca0.length, Ca, c, Cb, Ea, e, Eb, by omega, hC, hE, hs, Or.inl h2.1⟩
  · obtain ⟨Ea0, Eb0, rfl⟩ := List.append_of_mem hp
    have hlen := h.lenE
    rw [List.length_append, List.length_cons, List.length_range] at hlen
    obtain ⟨Ca, c, Cb, Ea, e, Eb, hC, hE, hs⟩ := h.splitAt Ea0.length (by omega)
    have := List.append_inj hE (by rw [hs.lenEa])
    obtain ⟨h1, h2⟩ := this
    simp only [List.cons.injEq] at h2
    exact ⟨Ea0.length, Ca, c, Cb, Ea, e, Eb, by omega, hC, hE, hs, Or.inr h2.1⟩

theorem SplitAt.index {X Ca Cb Ea Eb : List UEdGraphPin} {c e : UEdGraphPin} {N k : Nat}
    (h : SplitAt X Ca Cb Ea Eb c e N k) (p : UEdGraphPin) (hp : p = c ∨ p = e) :
    GetCaseIndexFromCasePin p = some (k : Int) := by
  rcases hp with rfl | rfl
  · exact GetCaseIndexFromCasePin_cond h.condAt
  · exact GetCaseIndexFromCasePin_exec h.execAt

theorem AddInputPin_layout {X C E : List UEdGraphPin} {N : Nat}
    (h : Layout X C E (List.range N)) :
    AddInputPin (X ++ C ++ E) =
      Outcome.done (X ++ (C ++ [InsertedCond X C [] E []]) ++ (E ++ [InsertedExec X C [] E []])) := by
  have h' : Layout X (C ++ []) (E ++ []) (List.range N) := by simpa using h
  have hlen : C.length = E.length := by rw [h.lenC, h.lenE]
  have hN : (N : Int) = (C.length : Int) := by rw [h.lenC, List.length_range]
  show Outcome.done (AddCasePinPair _ (GetCasePinCount _)).1 = _
  rw [GetCasePinCount_layout h, hN]
  have := AddCasePinPair_layout h' hlen
  simp only [List.append_nil] at this
  rw [this]
  simp [InsertedCond, InsertedExec]

theorem WellFormed_AddInputPin {X C E : List UEdGraphPin} {N : Nat}
    (h : Layout X C E (List.range N)) :
    WellFormed (X ++ (C ++ [InsertedCond X C [] E []]) ++ (E ++ [InsertedExec X C [] E []]))
      (N + 1) := by
  have h' : Layout X (C ++ []) (E ++ []) (List.range N) := by simpa using h
  have hlen : C.length = E.length := by rw [h.lenC, h.lenE]
  have := WellFormed_inserted h' hlen
  simpa [RenumberFrom] using this

/-- Every operation called with admissible arguments on a well-formed node returns and leaves
a well-formed node. -/
theorem PinOp.preserves (Pins : List UEdGraphPin) (N : Nat) (hwf : WellFormed Pins N)
    (op : PinOp) (ha : op.Admissible Pins) :
    ∃ Pins1 N1, op.apply Pins = Outcome.done Pins1 ∧ WellFormed Pins1 N1 := by
  obtain ⟨X, C, E, rfl, h⟩ := (WellFormed_iff _ _).mp hwf
  cases op with
  | addInput =>
    exact ⟨_, N + 1, AddInputPin_layout h, WellFormed_AddInputPin h⟩
  | addBefore p =>
    obtain ⟨hp, hc⟩ := ha
    obtain ⟨k, Ca, c, Cb, Ea, e, Eb, _, rfl, rfl, hs, hpc⟩ := h.case_pin p hp hc
    refine ⟨_, N + 1, AddCasePinNextTo_before hs p hpc, ?_⟩
    have := WellFormed_inserted hs.layout (hs.lenCa.trans hs.lenEa.symm)
    rw [hs.lenCa] at this
    exact this
  | addAfter p =>
    obtain ⟨hp, hc⟩ := ha
    obtain ⟨k, Ca, c, Cb, Ea, e, Eb, _, rfl, rfl, hs, hpc⟩ := h.case_pin p hp hc
    refine ⟨_, N + 1, AddCasePinNextTo_after hs p hpc, ?_⟩
    have e1 : Ca ++ c :: Cb = (Ca ++ [c]) ++ Cb := by simp
    have e2 : Ea ++ e :: Eb = (Ea ++ [e]) ++ Eb := by simp
    have hl : Layout X ((Ca ++ [c]) ++ Cb) ((Ea ++ [e]) ++ Eb) (List.range N) := by
      rw [← e1, ← e2]; exact hs.layout
    have hlen : (Ca ++ [c]).length = (Ea ++ [e]).length := by
      simp [hs.lenCa, hs.lenEa]
    have := WellFormed_inserted hl hlen
    have hk1 : (((Ca ++ [c]).length : Nat) : Int) = (k : Int) + 1 := by
      simp [hs.lenCa]
    rw [hk1] at this
    simpa using this
  | removeInput p =>
    obtain ⟨hp, hc⟩ := ha
    obtain ⟨k, Ca, c, Cb, Ea, e, Eb, _, rfl, rfl, hs, hpc⟩ := h.case_pin p hp hc
    refine ⟨_, N - 1, ?_, WellFormed_removed hs⟩
    show RemoveInputPin _ (some p) true = _
    unfold RemoveInputPin
    simp only [if_true, hs.index p hpc]
    exact RemoveCasePinAt_layout hs
  | removeAt i =>
    obtain ⟨h0, hi⟩ := ha
    rw [GetCasePinCount_layout h] at hi
    obtain ⟨k, rfl⟩ := Int.eq_ofNat_of_zero_le h0
    have hk : k < N := by omega
    obtain ⟨Ca, c, Cb, Ea, e, Eb, rfl, rfl, hs⟩ := h.splitAt k hk
    exact ⟨_, N - 1, RemoveCasePinAt_layout hs, WellFormed_removed hs⟩

theorem AllocateDefaultPins_wellFormed : WellFormed (AllocateDefaultPins []) 0 := by decide

theorem map_eq_RenumberFrom (F : UEdGraphPin → UEdGraphPin) (pre fp : String) :
    ∀ (l : List UEdGraphPin) (t : Int),
      (∀ m (hm : m < l.length), F (l.get ⟨m, hm⟩) = Renamed (l.get ⟨m, hm⟩) pre fp (t + m)) →
      l.map F = RenumberFrom pre fp t l := by
  intro l
  induction l with
  | nil => intro t _; rfl
  | cons p l ih =>
    intro t h
    have h0 := h 0 (by simp)
    simp only [List.get_eq_getElem, List.getElem_cons_zero, Nat.cast_zero, add_zero] at h0
    rw [List.map_cons, RenumberFrom, h0, ih (t + 1)]
    intro m hm
    have := h (m + 1) (by simp; omega)
    simp only [List.get_eq_getElem, List.getElem_cons_succ] at this ⊢
    rw [this]
    congr 1
    push_cast; ring

theorem map_eq_self (F : UEdGraphPin → UEdGraphPin) (l : List UEdGraphPin)
    (h : ∀ p ∈ l, F p = p) : l.map F = l := by
  conv_rhs => rw [← List.map_id l]
  exact List.map_congr_left (fun p hp => by simp [h p hp])

theorem block_get {g : Nat → String × EEdGraphPinDirection × String} {l : List UEdGraphPin}
    {s n : Nat} (h : l.map PinSignature = (List.range' s n).map g) (m : Nat)
    (hm : m < l.length) : PinSignature (l.get ⟨m, hm⟩) = g (s + m) := by
  have hl : l.length = n := by
    have := congrArg List.length h; simpa using this
  have h1 : (l.map PinSignature)[m]? = ((List.range' s n).map g)[m]? := by rw [h]
  simp only [List.getElem?_map] at h1
  rw [List.getElem?_eq_getElem hm, List.getElem?_eq_getElem (by simp; omega)] at h1
  simp only [Option.map_some', Option.some.injEq, List.getElem_range', one_mul] at h1
  simpa using h1

theorem CasePinNamePrefix_cond {p : UEdGraphPin} {n : Nat} (h : PinSignature p = CondSig n) :
    CasePinNamePrefix p = CaseCondPinNamePrefix := by
  simp [CasePinNamePrefix, IsExecPin_cond h]

theorem CasePinNamePrefix_exec {p : UEdGraphPin} {n : Nat} (h : PinSignature p = ExecSig n) :
    CasePinNamePrefix p = CaseExecPinNamePrefix := by
  simp [CasePinNamePrefix, IsExecPin_exec h]

theorem WithCaseIndex_cond {p : UEdGraphPin} {n : Nat} (h : PinSignature p = CondSig n)
    (i : Int) :
    WithCaseIndex p i = Renamed p CaseCondPinNamePrefix CaseCondPinFriendlyNamePrefix i := by
  simp [WithCaseIndex, Renamed, CasePinNamePrefix_cond h, CaseCondPinFriendlyNamePrefix]

theorem WithCaseIndex_exec {p : UEdGraphPin} {n : Nat} (h : PinSignature p = ExecSig n)
    (i : Int) :
    WithCaseIndex p i = Renamed p CaseExecPinNamePrefix CaseExecPinFriendlyNamePrefix i := by
  simp [WithCaseIndex, Renamed, CasePinNamePrefix_exec h, CaseExecPinFriendlyNamePrefix]

theorem GetCaseIndexFromCasePin_fixed {p : UEdGraphPin} (h : PinSignature p ∈ FixedSig) :
    GetCaseIndexFromCasePin p = none := by
  unfold GetCaseIndexFromCasePin
  simp [fixed_not_case h]

/-- A transformation of pins that leaves the fixed pins alone and gives each case pin of index
`i` the index `i + d` in the range in question. -/
theorem map_cond_block (F : UEdGraphPin → UEdGraphPin) (d : Int) (l : List UEdGraphPin)
    (s n : Nat) (h : l.map PinSignature = (List.range' s n).map CondSig)
    (hF : ∀ (p : UEdGraphPin) (i : Nat), PinSignature p = CondSig i → s ≤ i → i < s + n →
      F p = WithCaseIndex p ((i : Int) + d)) :
    l.map F = RenumberFrom CaseCondPinNamePrefix CaseCondPinFriendlyNamePrefix ((s : Int) + d) l := by
  have hl : l.length = n := by
    have := congrArg List.length h; simpa using this
  apply map_eq_RenumberFrom
  intro m hm
  have hsig := block_get h m hm
  rw [hF _ (s + m) hsig (by omega) (by omega), WithCaseIndex_cond hsig]
  congr 1
  push_cast; ring

theorem map_exec_block (F : UEdGraphPin → UEdGraphPin) (d : Int) (l : List UEdGraphPin)
    (s n : Nat) (h : l.map PinSignature = (List.range' s n).map ExecSig)
    (hF : ∀ (p : UEdGraphPin) (i : Nat), PinSignature p = ExecSig i → s ≤ i → i < s + n →
      F p = WithCaseIndex p ((i : Int) + d)) :
    l.map F = RenumberFrom CaseExecPinNamePrefix CaseExecPinFriendlyNamePrefix ((s : Int) + d) l := by
  have hl : l.length = n := by
    have := congrArg List.length h; simpa using this
  apply map_eq_RenumberFrom
  intro m hm
  have hsig := block_get h m hm
  rw [hF _ (s + m) hsig (by omega) (by omega), WithCaseIndex_exec hsig]
  congr 1
  push_cast; ring

theorem ShiftedUp_case (j : Int) (p : UEdGraphPin) (i : Nat)
    (h : PinSignature p = CondSig i ∨ PinSignature p = ExecSig i) :
    ShiftedUp j p = if j ≤ (i : Int) then WithCaseIndex p ((i : Int) + 1) else p := by
  unfold ShiftedUp
  rcases h with h | h
  · rw [GetCaseIndexFromCasePin_cond h]
  · rw [GetCaseIndexFromCasePin_exec h]

theorem ShiftedUp_fixed (j : Int) {p : UEdGraphPin} (h : PinSignature p ∈ FixedSig) :
    ShiftedUp j p = p := by
  unfold ShiftedUp; rw [GetCaseIndexFromCasePin_fixed h]

theorem filter_eq_nil_of {α : Type} (q : α → Bool) (l : List α) (h : ∀ a ∈ l, q a = false) :
    l.filter q = [] := by
  rw [List.filter_eq_nil_iff]; intro a ha; simp [h a ha]

/-- The result of an insertion at index `Ca.length`, as the claim describes it. -/
theorem IsInsertionAt_layout {X Ca Cb Ea Eb : List UEdGraphPin} {N : Nat}
    (h : Layout X (Ca ++ Cb) (Ea ++ Eb) (List.range N)) (hk : Ca.length = Ea.length) :
    IsInsertionAt (X ++ (Ca ++ Cb) ++ (Ea ++ Eb))
      (X ++ (Ca ++ InsertedCond X Ca Cb Ea Eb ::
          RenumberFrom CaseCondPinNamePrefix CaseCondPinFriendlyNamePrefix
            ((Ca.length : Int) + 1) Cb) ++
        (Ea ++ InsertedExec X Ca Cb Ea Eb ::
          RenumberFrom CaseExecPinNamePrefix CaseExecPinFriendlyNamePrefix
            ((Ca.length : Int) + 1) Eb)) (Ca.length : Int) := by
  obtain ⟨h1, h2, h3, h4, h5, h6⟩ := h.parts hk
  have hc := InsertedCond_fresh X Ca Cb Ea Eb
  have he := InsertedExec_fresh X Ca Cb Ea Eb
  have hne : (InsertedCond X Ca Cb Ea Eb).PinId ≠ (InsertedExec X Ca Cb Ea Eb).PinId := by
    intro e
    apply he
    rw [← e]
    simp [Ids]
  have he' : (InsertedExec X Ca Cb Ea Eb).PinId ∉ Ids (X ++ (Ca ++ Cb) ++ (Ea ++ Eb)) := by
    intro hm
    apply he
    simp only [Ids, List.map_append, List.map_cons, List.mem_append, List.mem_cons] at hm ⊢
    tauto
  refine ⟨?_, ?_, ?_⟩
  · -- the pre-existing pins
    have hold : ∀ (l : List UEdGraphPin), (∀ p ∈ l, p.PinId ∈ Ids (X ++ (Ca ++ Cb) ++ (Ea ++ Eb))) →
        l.filter (fun P => decide (P.PinId ∈
          (X ++ (Ca ++ Cb) ++ (Ea ++ Eb)).map (fun Q => Q.PinId))) = l := by
      intro l hl
      rw [List.filter_eq_self]
      intro a ha
      simpa [Ids] using hl a ha
    have hren : ∀ (a b : String) (s : Int) (l : List UEdGraphPin),
        (∀ p ∈ l, p.PinId ∈ Ids (X ++ (Ca ++ Cb) ++ (Ea ++ Eb))) →
        ∀ p ∈ RenumberFrom a b s l, p.PinId ∈ Ids (X ++ (Ca ++ Cb) ++ (Ea ++ Eb)) := by
      intro a b s l hl p hp
      have : p.PinId ∈ Ids (RenumberFrom a b s l) := mem_Ids hp
      rw [Ids_RenumberFrom] at this
      obtain ⟨q, hq, e⟩ := List.mem_map.mp this
      rw [← e]; exact hl q hq
    have hin : ∀ (l : List UEdGraphPin), (∀ p ∈ l, p ∈ X ++ (Ca ++ Cb) ++ (Ea ++ Eb)) →
        ∀ p ∈ l, p.PinId ∈ Ids (X ++ (Ca ++ Cb) ++ (Ea ++ Eb)) :=
      fun l hl p hp => mem_Ids (hl p hp)
    have hnew : ∀ (x : UEdGraphPin), x.PinId ∉ Ids (X ++ (Ca ++ Cb) ++ (Ea ++ Eb)) →
        (decide (x.PinId ∈ (X ++ (Ca ++ Cb) ++ (Ea ++ Eb)).map (fun Q => Q.PinId))) = false := by
      intro x hx
      simpa [Ids] using hx
    simp only [List.filter_append, List.filter_cons, hnew _ hc, hnew _ he', Bool.false_eq_true,
      if_false]
    rw [hold X (hin X (by intro p hp; simp [hp])),
      hold Ca (hin Ca (by intro p hp; simp [hp])),
      hold Ea (hin Ea (by intro p hp; simp [hp])),
      hold _ (hren _ _ _ Cb (hin Cb (by intro p hp; simp [hp]))),
      hold _ (hren _ _ _ Eb (hin Eb (by intro p hp; simp [hp])))]
    simp only [List.map_append]
    rw [map_eq_self _ X (fun p hp => ShiftedUp_fixed _ (mem_fixed h.fixed hp)),
      map_eq_self _ Ca, map_eq_self _ Ea,
      map_cond_block _ 1 Cb Ca.length Cb.length h2, map_exec_block _ 1 Eb Ca.length Eb.length h4]
    · intro p i hp hi _
      rw [ShiftedUp_case _ p i (Or.inr hp), if_pos (by omega)]
    · intro p i hp hi _
      rw [ShiftedUp_case _ p i (Or.inl hp), if_pos (by omega)]
    · intro p hp
      obtain ⟨i, hi, e⟩ := mem_sig h3 hp
      rw [ShiftedUp_case _ p i (Or.inr e), if_neg (by have := List.mem_range.mp hi; omega)]
    · intro p hp
      obtain ⟨i, hi, e⟩ := mem_sig h1 hp
      rw [ShiftedUp_case _ p i (Or.inl e), if_neg (by have := List.mem_range.mp hi; omega)]
  · -- the new pins
    have hold : ∀ (l : List UEdGraphPin), (∀ p ∈ l, p.PinId ∈ Ids (X ++ (Ca ++ Cb) ++ (Ea ++ Eb))) →
        l.filter (fun P => decide (P.PinId ∉
          (X ++ (Ca ++ Cb) ++ (Ea ++ Eb)).map (fun Q => Q.PinId))) = [] := by
      intro l hl
      apply filter_eq_nil_of
      intro a ha
      have hm := hl a ha
      unfold Ids at hm
      exact decide_eq_false (not_not_intro hm)
    have hren : ∀ (a b : String) (s : Int) (l : List UEdGraphPin),
        (∀ p ∈ l, p.PinId ∈ Ids (X ++ (Ca ++ Cb) ++ (Ea ++ Eb))) →
        ∀ p ∈ RenumberFrom a b s l, p.PinId ∈ Ids (X ++ (Ca ++ Cb) ++ (Ea ++ Eb)) := by
      intro a b s l hl p hp
      have : p.PinId ∈ Ids (RenumberFrom a b s l) := mem_Ids hp
      rw [Ids_RenumberFrom] at this
      obtain ⟨q, hq, e⟩ := List.mem_map.mp this
      rw [← e]; exact hl q hq
    have hin : ∀ (l : List UEdGraphPin), (∀ p ∈ l, p ∈ X ++ (Ca ++ Cb) ++ (Ea ++ Eb)) →
        ∀ p ∈ l, p.PinId ∈ Ids (X ++ (Ca ++ Cb) ++ (Ea ++ Eb)) :=
      fun l hl p hp => mem_Ids (hl p hp)
    have hnew : ∀ (x : UEdGraphPin), x.PinId ∉ Ids (X ++ (Ca ++ Cb) ++ (Ea ++ Eb)) →
        (decide (x.PinId ∉ (X ++ (Ca ++ Cb) ++ (Ea ++ Eb)).map (fun Q => Q.PinId))) = true := by
      intro x hx
      simpa [Ids] using hx
    simp only [List.filter_append, List.filter_cons, hnew _ hc, hnew _ he', if_true]
    rw [hold X (hin X (by intro p hp; simp [hp])),
      hold Ca (hin Ca (by intro p hp; simp [hp])),
      hold Ea (hin Ea (by intro p hp; simp [hp])),
      hold _ (hren _ _ _ Cb (hin Cb (by intro p hp; simp [hp]))),
      hold _ (hren _ _ _ Eb (hin Eb (by intro p hp; simp [hp])))]
    simp [InsertedCond, InsertedExec, NewCondPin, NewExecPin, CreatedPin,
      CaseCondPinFriendlyNamePrefix, CaseExecPinFriendlyNamePrefix]
  · -- all pins are different objects
    have hnd := @Nodup_inserted X Ca Cb Ea Eb h.nodup
    show (Ids _).Nodup
    have e : Ids (X ++ (Ca ++ InsertedCond X Ca Cb Ea Eb ::
          RenumberFrom CaseCondPinNamePrefix CaseCondPinFriendlyNamePrefix
            ((Ca.length : Int) + 1) Cb) ++
        (Ea ++ InsertedExec X Ca Cb Ea Eb ::
          RenumberFrom CaseExecPinNamePrefix CaseExecPinFriendlyNamePrefix
            ((Ca.length : Int) + 1) Eb)) =
        Ids (X ++ (Ca ++ InsertedCond X Ca Cb Ea Eb :: Cb) ++
          (Ea ++ InsertedExec X Ca Cb Ea Eb :: Eb)) := by
      simp only [Ids_append, Ids_cons, Ids_RenumberFrom]
    rw [e]; exact hnd

theorem IsCasePin_of_index {p : UEdGraphPin} {k : Int} (h : GetCaseIndexFromCasePin p = some k) :
    IsCasePin p = true := by
  unfold GetCaseIndexFromCasePin at h
  by_cases hc : IsCasePin p = true
  · exact hc
  · simp [hc] at h

/-- A pin of a well-formed node whose case index is `k`, placed in the layout. -/
theorem WellFormed.locate {Pins : List UEdGraphPin} {N : Nat} (hwf : WellFormed Pins N)
    (p : UEdGraphPin) (k : Int) (hp : p ∈ Pins) (hk : GetCaseIndexFromCasePin p = some k) :
    ∃ (k' : Nat) (X Ca Cb Ea Eb : List UEdGraphPin) (c e : UEdGraphPin),
      k = (k' : Int) ∧ k' < N ∧ Pins = X ++ (Ca ++ c :: Cb) ++ (Ea ++ e :: Eb) ∧
      SplitAt X Ca Cb Ea Eb c e N k' ∧ (p = c ∨ p = e) := by
  obtain ⟨X, C, E, rfl, h⟩ := (WellFormed_iff _ _).mp hwf
  obtain ⟨k', Ca, c, Cb, Ea, e, Eb, hlt, rfl, rfl, hs, hpc⟩ :=
    h.case_pin p hp (IsCasePin_of_index hk)
  have := hs.index p hpc
  rw [hk] at this
  exact ⟨k', X, Ca, Cb, Ea, Eb, c, e, by simpa using this, hlt, rfl, hs, hpc⟩

theorem RenumberFrom_append (a b : String) (l1 l2 : List UEdGraphPin) :
    ∀ s : Int, RenumberFrom a b s (l1 ++ l2) =
      RenumberFrom a b s l1 ++ RenumberFrom a b (s + l1.length) l2 := by
  induction l1 with
  | nil => intro s; simp [RenumberFrom]
  | cons p l1 ih =>
    intro s
    have e : s + ((l1.length + 1 : Nat) : Int) = s + 1 + (l1.length : Int) := by
      push_cast; ring
    rw [List.cons_append, RenumberFrom, RenumberFrom, ih (s + 1), List.length_cons, e]
    rfl

theorem Renumbered_case (i : Int) (p : UEdGraphPin) (j : Nat)
    (h : PinSignature p = CondSig j ∨ PinSignature p = ExecSig j) :
    Renumbered i p = WithCaseIndex p (if i < (j : Int) then (j : Int) - 1 else (j : Int)) := by
  unfold Renumbered
  rcases h with h | h
  · rw [GetCaseIndexFromCasePin_cond h]
  · rw [GetCaseIndexFromCasePin_exec h]

theorem Renumbered_fixed (i : Int) {p : UEdGraphPin} (h : PinSignature p ∈ FixedSig) :
    Renumbered i p = p := by
  unfold Renumbered; rw [GetCaseIndexFromCasePin_fixed h]

/-- The pin array after the removal of case `k`, written from the original array. -/
theorem Removal_layout {X Ca Cb Ea Eb : List UEdGraphPin} {c e : UEdGraphPin}
    {N k : Nat} (h : SplitAt X Ca Cb Ea Eb c e N k) :
    (WithoutCase (X ++ (Ca ++ c :: Cb) ++ (Ea ++ e :: Eb)) (k : Int)).map (Renumbered (k : Int)) =
      X ++ RenumberFrom CaseCondPinNamePrefix CaseCondPinFriendlyNamePrefix 0 (Ca ++ Cb) ++
        RenumberFrom CaseExecPinNamePrefix CaseExecPinFriendlyNamePrefix 0 (Ea ++ Eb) := by
  have keep : ∀ (l : List UEdGraphPin),
      (∀ p ∈ l, GetCaseIndexFromCasePin p ≠ some (k : Int)) →
      l.filter (fun P => GetCaseIndexFromCasePin P != some (k : Int)) = l := by
    intro l hl
    rw [List.filter_eq_self]
    intro a ha
    simpa using hl a ha
  have hX : ∀ p ∈ X, GetCaseIndexFromCasePin p ≠ some (k : Int) := by
    intro p hp
    rw [GetCaseIndexFromCasePin_fixed (mem_fixed h.layout.fixed hp)]
    simp
  have hCa : ∀ p ∈ Ca, GetCaseIndexFromCasePin p ≠ some (k : Int) := by
    intro p hp
    obtain ⟨i, hi, e1⟩ := mem_sig h.condBefore hp
    rw [GetCaseIndexFromCasePin_cond e1]
    have := List.mem_range.mp hi
    simp; omega
  have hEa : ∀ p ∈ Ea, GetCaseIndexFromCasePin p ≠ some (k : Int) := by
    intro p hp
    obtain ⟨i, hi, e1⟩ := mem_sig h.execBefore hp
    rw [GetCaseIndexFromCasePin_exec e1]
    have := List.mem_range.mp hi
    simp; omega
  have hCb : ∀ p ∈ Cb, GetCaseIndexFromCasePin p ≠ some (k : Int) := by
    intro p hp
    obtain ⟨i, hi, e1⟩ := mem_sig h.condAfter hp
    rw [GetCaseIndexFromCasePin_cond e1]
    have := List.mem_range'_1.mp hi
    simp; omega
  have hEb : ∀ p ∈ Eb, GetCaseIndexFromCasePin p ≠ some (k : Int) := by
    intro p hp
    obtain ⟨i, hi, e1⟩ := mem_sig h.execAfter hp
    rw [GetCaseIndexFromCasePin_exec e1]
    have := List.mem_range'_1.mp hi
    simp; omega
  have hc : (GetCaseIndexFromCasePin c != some (k : Int)) = false := by
    rw [GetCaseIndexFromCasePin_cond h.condAt]; simp
  have he : (GetCaseIndexFromCasePin e != some (k : Int)) = false := by
    rw [GetCaseIndexFromCasePin_exec h.execAt]; simp
  unfold WithoutCase
  simp only [List.filter_append, List.filter_cons, hc, he, Bool.false_eq_true, if_false]
  rw [keep X hX, keep Ca hCa, keep Cb hCb, keep Ea hEa, keep Eb hEb]
  simp only [List.map_append]
  have hCa' : Ca.map PinSignature = (List.range' 0 k).map CondSig := by
    rw [← List.range_eq_range']; exact h.condBefore
  have hEa' : Ea.map PinSignature = (List.range' 0 k).map ExecSig := by
    rw [← List.range_eq_range']; exact h.execBefore
  rw [map_eq_self _ X (fun p hp => Renumbered_fixed _ (mem_fixed h.layout.fixed hp)),
    map_cond_block _ 0 Ca 0 k hCa', map_exec_block _ 0 Ea 0 k hEa',
    map_cond_block _ (-1) Cb (k + 1) _ h.condAfter, map_exec_block _ (-1) Eb (k + 1) _ h.execAfter,
    RenumberFrom_append, RenumberFrom_append, h.lenCa, h.lenEa]
  · simp
  · intro p i hp hi _
    rw [Renumbered_case _ p i (Or.inr hp), if_pos (by omega)]; rfl
  · intro p i hp hi _
    rw [Renumbered_case _ p i (Or.inl hp), if_pos (by omega)]; rfl
  · intro p i hp _ hi
    rw [Renumbered_case _ p i (Or.inr hp), if_neg (by omega)]; simp
  · intro p i hp _ hi
    rw [Renumbered_case _ p i (Or.inl hp), if_neg (by omega)]; simp

theorem Compile_loop_skip (Pins : List UEdGraphPin) (f : String) (fc : FBPTerminal)
    (A B : List UEdGraphPin) (Context : FKismetFunctionContext)
    (hA : ∀ a ∈ A, a.Direction = EGPD_Input ∨ a.PinName = DefaultExecPinName) :
    Compile_loop Pins f fc (A ++ B) Context = Compile_loop Pins f fc B Context := by
  induction A with
  | nil => rfl
  | cons a A ih =>
    rw [List.cons_append, Compile_loop]
    rcases hA a (List.mem_cons_self _ _) with h | h
    · have hd : a.Direction ≠ EGPD_Output := by rw [h]; decide
      rw [if_pos hd]
      exact ih (fun x hx => hA x (List.mem_cons_of_mem _ hx))
    · by_cases hd : a.Direction ≠ EGPD_Output
      · rw [if_pos hd]
        exact ih (fun x hx => hA x (List.mem_cons_of_mem _ hx))
      · have hn : FNameEq a.PinName DefaultExecPinName = true := FNameEq_of_eq h
        rw [if_neg hd, if_pos hn]
        exact ih (fun x hx => hA x (List.mem_cons_of_mem _ hx))

theorem Compile_loop_exec (X : List UEdGraphPin) (hX : X.map PinSignature = FixedSig)
    (F : UEdGraphPin) (n : Nat) :
    ∀ (Ca Cb Ea Eb : List UEdGraphPin) (t : Nat) (Context : FKismetFunctionContext),
      Ca.map PinSignature = (List.range t).map CondSig →
      Ea.map PinSignature = (List.range t).map ExecSig →
      Cb.map PinSignature = (List.range' t n).map CondSig →
      Eb.map PinSignature = (List.range' t n).map ExecSig →
      Compile_loop (X ++ (Ca ++ Cb) ++ (Ea ++ Eb)) ConditionPreProcessFuncName
          (FBPTerminal.Net F.PinId) Eb Context =
        some (EmitCases F (Cb.zip Eb) Context) := by
  induction n with
  | zero =>
    intro Ca Cb Ea Eb t Context _ _ hCb hEb
    simp only [List.range'_zero, List.map_nil, List.map_eq_nil_iff] at hCb hEb
    subst hCb; subst hEb
    rfl
  | succ n ih =>
    intro Ca Cb Ea Eb t Context hCa hEa hCb hEb
    rw [List.range'_succ, List.map_cons] at hCb hEb
    obtain ⟨c, Cb', rfl, hc, hCb'⟩ := List.map_eq_cons_iff.mp hCb
    obtain ⟨e, Eb', rfl, he, hEb'⟩ := List.map_eq_cons_iff.mp hEb
    have ht : t ∉ List.range t := by simp
    have hfind : GetCondPinFromExecPin (X ++ (Ca ++ c :: Cb') ++ (Ea ++ e :: Eb')) e = some c := by
      rw [GetCondPinFromExecPin_exec _ he]
      exact FindPin_cond X Ca Cb' _ c _ t hX hCa hc ht
    have hdir : ¬ (e.Direction ≠ EGPD_Output) := by simp [(sig_exec he).2.1]
    have hname : FNameEq e.PinName DefaultExecPinName = false := by
      rw [(sig_exec he).1]
      simpa using (CaseExec_fne_fixed t).2.1
    have e1 : X ++ (Ca ++ c :: Cb') ++ (Ea ++ e :: Eb') =
        X ++ ((Ca ++ [c]) ++ Cb') ++ ((Ea ++ [e]) ++ Eb') := by simp
    have hCa' : (Ca ++ [c]).map PinSignature = (List.range (t + 1)).map CondSig := by
      rw [List.map_append, hCa, range_succ_map]; simp [hc]
    have hEa' : (Ea ++ [e]).map PinSignature = (List.range (t + 1)).map ExecSig := by
      rw [List.map_append, hEa, range_succ_map]; simp [he]
    rw [Compile_loop]
    simp only [hdir, if_false, hname, Bool.false_eq_true, hfind, List.zip_cons_cons, EmitCases]
    by_cases hl : (e.LinkedTo.length == 0) = true
    · simp only [hl, if_true]
      rw [e1]
      exact ih (Ca ++ [c]) Cb' (Ea ++ [e]) Eb' (t + 1) Context hCa' hEa' hCb' hEb'
    · simp only [hl, Bool.false_eq_true, if_false]
      rw [e1]
      exact ih (Ca ++ [c]) Cb' (Ea ++ [e]) Eb' (t + 1) _ hCa' hEa' hCb' hEb'

theorem EmitCases_eq (F : UEdGraphPin) :
    ∀ (L : List (UEdGraphPin × UEdGraphPin)) (Context : FKismetFunctionContext),
      EmitCases F L Context =
        { Context with
          Statements := Context.Statements ++
            CaseStatements F (L.filter (fun ce => ce.2.LinkedTo.length != 0))
          GotoFixupRequestMap := Context.GotoFixupRequestMap ++
            CaseFixups Context.Statements.length
              (L.filter (fun ce => ce.2.LinkedTo.length != 0)) } := by
  intro L
  induction L with
  | nil => intro Context; simp [EmitCases, CaseStatements, CaseFixups]
  | cons ce L ih =>
    intro Context
    by_cases hl : (ce.2.LinkedTo.length == 0) = true
    · have hl' : (ce.2.LinkedTo.length != 0) = false := by simpa [bne] using hl
      rw [EmitCases, if_pos hl, ih, List.filter_cons, hl']
      simp
    · have hl' : (ce.2.LinkedTo.length != 0) = true := by simpa [bne] using hl
      rw [EmitCases, if_neg hl, ih, List.filter_cons, hl']
      simp [CaseStatements, CaseFixups, List.flatMap_cons]

theorem fixed_three {X : List UEdGraphPin} (h : X.map PinSignature = FixedSig) :
    ∃ T D F, X = [T, D, F] ∧ PinSignature T = (PN_Execute, EGPD_Input, PC_Exec) ∧
      PinSignature D = (DefaultExecPinName, EGPD_Output, PC_Exec) ∧
      PinSignature F = (ConditionPreProcessFuncName, EGPD_Input, PC_Object) := by
  unfold FixedSig at h
  obtain ⟨T, X1, rfl, hT, h1⟩ := List.map_eq_cons_iff.mp h
  obtain ⟨D, X2, rfl, hD, h2⟩ := List.map_eq_cons_iff.mp h1
  obtain ⟨F, X3, rfl, hF, h3⟩ := List.map_eq_cons_iff.mp h2
  simp only [List.map_eq_nil_iff] at h3
  subst h3
  exact ⟨T, D, F, rfl, hT, hD, hF⟩

theorem CasesInOrder_layout {X C E : List UEdGraphPin} {N : Nat}
    (h : Layout X C E (List.range N)) : CasesInOrder (X ++ C ++ E) N = C.zip E := by
  have h3 := h.lenX
  have hC := h.lenC
  rw [List.length_range] at hC
  unfold CasesInOrder
  have e1 : (X ++ C ++ E).drop 3 = C ++ E := by
    rw [List.append_assoc, ← h3, List.drop_left]
  have e2 : (X ++ C ++ E).drop (3 + N) = E := by
    have : 3 + N = (X ++ C).length := by rw [List.length_append, h3, hC]
    rw [this, List.drop_left]
  rw [e1, e2, ← hC, List.take_left]

/-- Compilation of a well-formed node whose trigger pin is linked, in terms of the layout. -/
theorem Compile_layout {X C E : List UEdGraphPin} {N : Nat} (h : Layout X C E (List.range N))
    (T : UEdGraphPin)
    (hT : FindRequiredPinByName (X ++ C ++ E) PN_Execute EGPD_Input = some T)
    (hlink : T.LinkedTo ≠ []) :
    ∃ F D, GetFunctionPin (X ++ C ++ E) = some F ∧ GetDefaultExecPin (X ++ C ++ E) = some D ∧
      Compile (X ++ C ++ E) = some
        { Statements := CaseStatements F (LinkedCases (X ++ C ++ E) N) ++ [GotoStatement]
          GotoFixupRequestMap := CaseFixups 0 (LinkedCases (X ++ C ++ E) N) ++
            [((CaseStatements F (LinkedCases (X ++ C ++ E) N)).length, some D.PinId)]
          Errors := []
          Warnings := [] } := by
  obtain ⟨T0, D, F, rfl, hT0, hD, hF⟩ := fixed_three h.fixed
  simp only [PinSignature, Prod.mk.injEq] at hT0 hD hF
  have hT' : FindRequiredPinByName ([T0, D, F] ++ C ++ E) PN_Execute EGPD_Input = some T0 := by
    unfold FindRequiredPinByName
    simp [List.find?_cons, hT0.1, hT0.2.1, FNameEq_self]
  rw [hT'] at hT
  cases hT
  have hFn : GetFunctionPin ([T, D, F] ++ C ++ E) = some F := by
    unfold GetFunctionPin FindPin
    simp [List.find?_cons, hT0.1, hD.1, hF.1, FNameEq_self, fixed_fne]
  have hDn : GetDefaultExecPin ([T, D, F] ++ C ++ E) = some D := by
    unfold GetDefaultExecPin FindPin
    simp [List.find?_cons, hT0.1, hD.1, FNameEq_self, fixed_fne]
  refine ⟨F, D, hFn, hDn, ?_⟩
  have hval : ValidatePinType T PC_Exec = true := by simp [ValidatePinType, hT0.2.2]
  have hlen : (T.LinkedTo.length == 0) = false := by
    cases hl : T.LinkedTo with
    | nil => exact absurd hl hlink
    | cons a l => simp
  have hfu : FindUField F.PinName = some ConditionPreProcessFuncName := by
    simp [FindUField, hF.1, ConditionPreProcessFuncName, FNameEq_self]
  have hskip : ∀ a ∈ [T, D, F] ++ C, a.Direction = EGPD_Input ∨ a.PinName = DefaultExecPinName := by
    intro a ha
    rcases List.mem_append.mp ha with ha | ha
    · simp only [List.mem_cons, List.mem_singleton, List.not_mem_nil, or_false] at ha
      rcases ha with rfl | rfl | rfl
      · exact Or.inl hT0.2.1
      · exact Or.inr hD.1
      · exact Or.inl hF.2.1
    · obtain ⟨j, _, e⟩ := mem_sig h.cond ha
      exact Or.inl (sig_cond e).2.1
  have hloop := Compile_loop_exec [T, D, F] h.fixed F N [] C [] E 0
    { Statements := [], GotoFixupRequestMap := [], Errors := [], Warnings := [] }
    (by simp) (by simp)
    (by rw [← List.range_eq_range']; exact h.cond) (by rw [← List.range_eq_range']; exact h.exec)
  simp only [List.nil_append] at hloop
  unfold Compile
  simp only [hT', hval, Bool.not_true, Bool.false_eq_true, if_false, hlen, hFn, hfu, hDn]
  rw [Compile_loop_skip _ _ _ ([T, D, F] ++ C) E _ hskip, hloop, EmitCases_eq]
  unfold LinkedCases
  rw [CasesInOrder_layout h]
  simp [GenerateSimpleThenGoto, GotoStatement]

theorem CaseStatements_length (F : UEdGraphPin) (L : List (UEdGraphPin × UEdGraphPin)) :
    (CaseStatements F L).length = 2 * L.length := by
  induction L with
  | nil => rfl
  | cons ce L ih =>
    have : CaseStatements F (ce :: L) =
        NegateStatement F ce.1 :: GotoIfNotStatement :: CaseStatements F L := by
      simp [CaseStatements, List.flatMap_cons]
    rw [this]
    simp [ih]; omega

theorem filter_zip_snd (q : UEdGraphPin → Bool) :
    ∀ (C E : List UEdGraphPin), C.length = E.length →
      ((C.zip E).filter (fun ce => q ce.2)).length = (E.filter q).length := by
  intro C
  induction C with
  | nil =>
    intro E h
    have : E = [] := List.length_eq_zero.mp h.symm
    subst this; rfl
  | cons c C ih =>
    intro E h
    cases E with
    | nil => simp at h
    | cons e E =>
      simp only [List.length_cons, Nat.add_right_cancel_iff] at h
      simp only [List.zip_cons_cons, List.filter_cons]
      by_cases hq : q e = true
      · simp [hq, ih E h]
      · simp [hq, ih E h]

/-- The number of linked case execution pins, counted on the pin array. -/
theorem LinkedCases_length {X C E : List UEdGraphPin} {N : Nat}
    (h : Layout X C E (List.range N)) :
    (LinkedCases (X ++ C ++ E) N).length =
      ((X ++ C ++ E).filter (fun P =>
        (IsExecPin P && P.Direction == EGPD_Output && IsCasePin P) &&
          P.LinkedTo.length != 0)).length := by
  have hXC : (X ++ C).filter (fun P =>
      (IsExecPin P && P.Direction == EGPD_Output && IsCasePin P) && P.LinkedTo.length != 0) = [] := by
    apply filter_eq_nil_of
    intro a ha
    have hg : ExecGuard a = false := by
      rcases List.mem_append.mp ha with ha | ha
      · exact (fixed_guards (mem_fixed h.fixed ha)).1
      · obtain ⟨j, _, e⟩ := mem_sig h.cond ha
        exact ExecGuard_cond e
    unfold ExecGuard at hg
    rw [hg]; rfl
  have hE : E.filter (fun P =>
      (IsExecPin P && P.Direction == EGPD_Output && IsCasePin P) && P.LinkedTo.length != 0) =
      E.filter (fun P => P.LinkedTo.length != 0) := by
    apply List.filter_congr
    intro a ha
    obtain ⟨j, _, e⟩ := mem_sig h.exec ha
    have hg := ExecGuard_exec e
    unfold ExecGuard at hg
    rw [hg]; rfl
  rw [List.filter_append, hXC, hE, List.nil_append]
  unfold LinkedCases
  rw [CasesInOrder_layout h]
  exact filter_zip_snd (fun P => P.LinkedTo.length != 0) C E (by rw [h.lenC, h.lenE])

theorem lookup_none_of_lt (F0 : List (Nat × Option Nat)) (n : Nat)
    (h : ∀ kv ∈ F0, kv.1 < n) (k : Nat) (hk : n ≤ k) : F0.lookup k = none := by
  induction F0 with
  | nil => rfl
  | cons kv F0 ih =>
    obtain ⟨a, b⟩ := kv
    have ha : a < n := h (a, b) (List.mem_cons_self _ _)
    have hne : (k == a) = false := by
      rw [beq_eq_false_iff_ne]; omega
    rw [List.lookup_cons, hne]
    exact ih (fun x hx => h x (List.mem_cons_of_mem _ hx))

theorem CaseStatements_cons (F : UEdGraphPin) (ce : UEdGraphPin × UEdGraphPin)
    (L : List (UEdGraphPin × UEdGraphPin)) :
    CaseStatements F (ce :: L) =
      NegateStatement F ce.1 :: GotoIfNotStatement :: CaseStatements F L := by
  simp [CaseStatements, List.flatMap_cons]

/-- Running the statements of the cases `L`, numbered from `n`, and the final jump. -/
theorem RunStatements_cases (Value : Nat → Bool) (F D : UEdGraphPin) :
    ∀ (L : List (UEdGraphPin × UEdGraphPin)) (n : Nat) (F0 : List (Nat × Option Nat))
      (Scratch : Bool), (∀ kv ∈ F0, kv.1 < n) →
      RunStatements (F0 ++ CaseFixups n L ++ [(n + 2 * L.length, some D.PinId)]) Value
          (CaseStatements F L ++ [GotoStatement]) n Scratch =
        some (some (FirstMatch Value L D)) := by
  intro L
  induction L with
  | nil =>
    intro n F0 Scratch hF0
    simp only [CaseStatements, List.flatMap_nil, List.nil_append, CaseFixups, List.append_nil,
      List.length_nil, Nat.mul_zero, Nat.add_zero]
    rw [RunStatements]
    simp only [GotoStatement]
    rw [List.lookup_append, lookup_none_of_lt F0 n hF0 n (le_refl _)]
    simp [FirstMatch, List.lookup_cons]
  | cons ce L ih =>
    intro n F0 Scratch hF0
    rw [CaseStatements_cons, List.cons_append, List.cons_append, RunStatements]
    simp only [NegateStatement, if_true]
    rw [RunStatements]
    simp only [GotoIfNotStatement]
    by_cases hv : Value ce.1.PinId = true
    · simp only [hv, Bool.not_true, if_true]
      rw [List.append_assoc, List.lookup_append, lookup_none_of_lt F0 n hF0 (n + 1) (by omega)]
      simp [CaseFixups, List.lookup_cons, FirstMatch, List.find?_cons, hv]
    · have hv' : Value ce.1.PinId = false := by simpa using hv
      simp only [hv', Bool.not_false, Bool.true_eq_false, if_false]
      have hF0' : ∀ kv ∈ F0 ++ [(n + 1, some ce.2.PinId)], kv.1 < n + 2 := by
        intro kv hkv
        rcases List.mem_append.mp hkv with hkv | hkv
        · have := hF0 kv hkv; omega
        · rw [List.mem_singleton] at hkv; subst hkv; simp
      have := ih (n + 2) (F0 ++ [(n + 1, some ce.2.PinId)]) true hF0'
      have e1 : F0 ++ [(n + 1, some ce.2.PinId)] ++ CaseFixups (n + 2) L ++
          [(n + 2 + 2 * L.length, some D.PinId)] =
          F0 ++ CaseFixups n (ce :: L) ++ [(n + 2 * (ce :: L).length, some D.PinId)] := by
        have e0 : n + 2 + 2 * L.length = n + 2 * (L.length + 1) := by omega
        simp only [CaseFixups, List.length_cons, List.append_assoc, List.cons_append,
          List.nil_append, e0]
      rw [e1] at this
      rw [show n + 1 + 1 = n + 2 by rfl, this]
      simp [FirstMatch, List.find?_cons, hv']

theorem AddCasePinPair_wellFormed (Pins : List UEdGraphPin) (m : Nat) (h : WellFormed Pins m) :
    WellFormed (AddCasePinPair Pins (m : Int)).1 (m + 1) := by
  obtain ⟨X, C, E, rfl, hl⟩ := (WellFormed_iff _ _).mp h
  have h1 := AddInputPin_layout hl
  have h2 : AddInputPin (X ++ C ++ E) =
      Outcome.done (AddCasePinPair (X ++ C ++ E) (GetCasePinCount (X ++ C ++ E))).1 := rfl
  rw [h2, GetCasePinCount_layout hl] at h1
  have heq := Outcome.done.inj h1
  rw [heq]
  exact WellFormed_AddInputPin hl

theorem ReallocatePins_addLoop_wellFormed (n : Nat) :
    ∀ (m : Nat) (Pins : List UEdGraphPin), WellFormed Pins m →
      WellFormed (ReallocatePins_addLoop n (m : Int) Pins) (m + n) := by
  induction n with
  | zero => intro m Pins h; exact h
  | succ n ih =>
    intro m Pins h
    have := ih (m + 1) _ (AddCasePinPair_wellFormed Pins m h)
    rw [show (((m + 1 : Nat) : Int)) = (m : Int) + 1 by push_cast; rfl] at this
    rw [show m + (n + 1) = m + 1 + n by omega]
    exact this

theorem case_exec_count (Pins : List UEdGraphPin) (N : Nat) (h : WellFormed Pins N) :
    (Pins.filter (fun Pin =>
      IsExecPin Pin && Pin.Direction == EGPD_Output && IsCasePin Pin)).length = N := by
  obtain ⟨X, C, E, rfl, hl⟩ := (WellFormed_iff _ _).mp h
  have hXC : (X ++ C).filter (fun Pin =>
      IsExecPin Pin && Pin.Direction == EGPD_Output && IsCasePin Pin) = [] := by
    apply filter_eq_nil_of
    intro a ha
    rcases List.mem_append.mp ha with ha | ha
    · exact (fixed_guards (mem_fixed hl.fixed ha)).1
    · obtain ⟨j, _, e⟩ := mem_sig hl.cond ha
      exact ExecGuard_cond e
  have hE : E.filter (fun Pin =>
      IsExecPin Pin && Pin.Direction == EGPD_Output && IsCasePin Pin) = E := by
    rw [List.filter_eq_self]
    intro a ha
    obtain ⟨j, _, e⟩ := mem_sig hl.exec ha
    exact ExecGuard_exec e
  rw [List.filter_append, hXC, hE, List.nil_append, hl.lenE, List.length_range]

theorem RenumberFrom_idem (a b : String) (l : List UEdGraphPin) :
    ∀ s t : Int, RenumberFrom a b s (RenumberFrom a b t l) = RenumberFrom a b s l := by
  induction l with
  | nil => intro s t; rfl
  | cons p l ih =>
    intro s t
    simp only [RenumberFrom, ih]
    rfl

theorem RenumberFrom_length (a b : String) (l : List UEdGraphPin) :
    ∀ s : Int, (RenumberFrom a b s l).length = l.length := by
  induction l with
  | nil => intro s; rfl
  | cons p l ih => intro s; simp [RenumberFrom, ih]

/-- The layout left by an insertion at index `Ca.length`, split at the new case. -/
theorem SplitAt_inserted {X Ca Cb Ea Eb : List UEdGraphPin} {N : Nat}
    (h : Layout X (Ca ++ Cb) (Ea ++ Eb) (List.range N)) (hk : Ca.length = Ea.length) :
    SplitAt X Ca
      (RenumberFrom CaseCondPinNamePrefix CaseCondPinFriendlyNamePrefix ((Ca.length : Int) + 1) Cb)
      Ea
      (RenumberFrom CaseExecPinNamePrefix CaseExecPinFriendlyNamePrefix ((Ca.length : Int) + 1) Eb)
      (InsertedCond X Ca Cb Ea Eb) (InsertedExec X Ca Cb Ea Eb) (N + 1) Ca.length := by
  obtain ⟨h1, h2, h3, h4, h5, h6⟩ := h.parts hk
  have r1 := RenumberFrom_sig_cond CaseCondPinFriendlyNamePrefix _ Cb (Ca.length + 1) h2
  have r2 := RenumberFrom_sig_exec CaseExecPinFriendlyNamePrefix _ Eb (Ca.length + 1) h4
  rw [show (((Ca.length + 1 : Nat) : Int)) = (Ca.length : Int) + 1 by push_cast; rfl] at r1 r2
  have hn : N + 1 - Ca.length - 1 = Cb.length := by omega
  have hwf := WellFormed_inserted h hk
  refine ⟨⟨h.fixed, ?_, ?_, hwf.2⟩, h1, rfl, ?_, h3, rfl, ?_⟩
  · simp only [List.map_append, List.map_cons, h1, r1]
    rw [h5, range_insert_map]
    rfl
  · simp only [List.map_append, List.map_cons, h3, r2]
    rw [h5, range_insert_map, ← h6]
    rfl
  · rw [hn]; exact r1
  · rw [hn, h6]; exact r2

/-- Removing the case that an insertion at index `Ca.length` has just created. -/
theorem RemoveCasePinAt_inserted {X Ca Cb Ea Eb : List UEdGraphPin} {N : Nat}
    (h : Layout X (Ca ++ Cb) (Ea ++ Eb) (List.range N)) (hk : Ca.length = Ea.length) :
    RemoveCasePinAt (X ++ (Ca ++ InsertedCond X Ca Cb Ea Eb ::
          RenumberFrom CaseCondPinNamePrefix CaseCondPinFriendlyNamePrefix
            ((Ca.length : Int) + 1) Cb) ++
        (Ea ++ InsertedExec X Ca Cb Ea Eb ::
          RenumberFrom CaseExecPinNamePrefix CaseExecPinFriendlyNamePrefix
            ((Ca.length : Int) + 1) Eb)) (Ca.length : Int) =
      Outcome.done (X ++
        RenumberFrom CaseCondPinNamePrefix CaseCondPinFriendlyNamePrefix 0 (Ca ++ Cb) ++
        RenumberFrom CaseExecPinNamePrefix CaseExecPinFriendlyNamePrefix 0 (Ea ++ Eb)) := by
  rw [RemoveCasePinAt_layout (SplitAt_inserted h hk)]
  simp only [RenumberFrom_append, RenumberFrom_idem]

theorem WithGeneratedDisplayName_case (p : UEdGraphPin) (i : Nat)
    (h : PinSignature p = CondSig i ∨ PinSignature p = ExecSig i) :
    WithGeneratedDisplayName p = WithCaseIndex p ((i : Int) + 0) := by
  unfold WithGeneratedDisplayName WithCaseIndex
  rcases h with h | h
  · rw [GetCaseIndexFromCasePin_cond h, CasePinNamePrefix_cond h, add_zero, ← (sig_cond h).1]
  · rw [GetCaseIndexFromCasePin_exec h, CasePinNamePrefix_exec h, add_zero, ← (sig_exec h).1]

theorem WithGeneratedDisplayName_fixed {p : UEdGraphPin} (h : PinSignature p ∈ FixedSig) :
    WithGeneratedDisplayName p = p := by
  unfold WithGeneratedDisplayName; rw [GetCaseIndexFromCasePin_fixed h]

theorem map_WithGeneratedDisplayName {X C E : List UEdGraphPin} {N : Nat}
    (h : Layout X C E (List.range N)) :
    (X ++ C ++ E).map WithGeneratedDisplayName =
      X ++ RenumberFrom CaseCondPinNamePrefix CaseCondPinFriendlyNamePrefix 0 C ++
        RenumberFrom CaseExecPinNamePrefix CaseExecPinFriendlyNamePrefix 0 E := by
  have hC : C.map PinSignature = (List.range' 0 N).map CondSig := by
    rw [← List.range_eq_range']; exact h.cond
  have hE : E.map PinSignature = (List.range' 0 N).map ExecSig := by
    rw [← List.range_eq_range']; exact h.exec
  simp only [List.map_append]
  rw [map_eq_self _ X (fun p hp => WithGeneratedDisplayName_fixed (mem_fixed h.fixed hp)),
    map_cond_block _ 0 C 0 N hC, map_exec_block _ 0 E 0 N hE]
  · simp
  · intro p i hp _ _; exact WithGeneratedDisplayName_case p i (Or.inr hp)
  · intro p i hp _ _; exact WithGeneratedDisplayName_case p i (Or.inl hp)

theorem map_index_cond (js : List Nat) :
    ∀ l : List UEdGraphPin, l.map PinSignature = js.map CondSig →
      l.map GetCaseIndexFromCaseCondPin = js.map (fun i : Nat => some (i : Int)) := by
  induction js with
  | nil =>
    intro l h
    simp only [List.map_nil, List.map_eq_nil_iff] at h
    subst h; rfl
  | cons j js ih =>
    intro l h
    rw [List.map_cons] at h
    obtain ⟨p, l', rfl, hp, hl'⟩ := List.map_eq_cons_iff.mp h
    rw [List.map_cons, List.map_cons, GetCaseIndexFromCaseCondPin_cond hp, ih l' hl']

theorem map_index_exec (js : List Nat) :
    ∀ l : List UEdGraphPin, l.map PinSignature = js.map ExecSig →
      l.map GetCaseIndexFromCaseExecPin = js.map (fun i : Nat => some (i : Int)) := by
  induction js with
  | nil =>
    intro l h
    simp only [List.map_nil, List.map_eq_nil_iff] at h
    subst h; rfl
  | cons j js ih =>
    intro l h
    rw [List.map_cons] at h
    obtain ⟨p, l', rfl, hp, hl'⟩ := List.map_eq_cons_iff.mp h
    rw [List.map_cons, List.map_cons, GetCaseIndexFromCaseExecPin_exec hp, ih l' hl']

/-- The case indices that the getters of the node read off a well-formed pin array. -/
theorem WellFormed.indices {Pins : List UEdGraphPin} {N : Nat} (hwf : WellFormed Pins N) :
    (Pins.filter (fun P => !IsExecPin P && P.Direction == EGPD_Input && IsCasePin P)).map
        GetCaseIndexFromCaseCondPin = (List.range N).map (fun i : Nat => some (i : Int)) ∧
      (Pins.filter (fun P => IsExecPin P && P.Direction == EGPD_Output && IsCasePin P)).map
        GetCaseIndexFromCaseExecPin = (List.range N).map (fun i : Nat => some (i : Int)) := by
  obtain ⟨X, C, E, rfl, h⟩ := (WellFormed_iff _ _).mp hwf
  have hX1 : X.filter CondGuard = [] :=
    filter_eq_nil_of _ _ (fun a ha => (fixed_guards (mem_fixed h.fixed ha)).2)
  have hX2 : X.filter ExecGuard = [] :=
    filter_eq_nil_of _ _ (fun a ha => (fixed_guards (mem_fixed h.fixed ha)).1)
  have hC1 : C.filter CondGuard = C := by
    rw [List.filter_eq_self]
    intro a ha
    obtain ⟨j, _, e⟩ := mem_sig h.cond ha
    exact CondGuard_cond e
  have hC2 : C.filter ExecGuard = [] := by
    apply filter_eq_nil_of
    intro a ha
    obtain ⟨j, _, e⟩ := mem_sig h.cond ha
    exact ExecGuard_cond e
  have hE1 : E.filter CondGuard = [] := by
    apply filter_eq_nil_of
    intro a ha
    obtain ⟨j, _, e⟩ := mem_sig h.exec ha
    exact CondGuard_exec e
  have hE2 : E.filter ExecGuard = E := by
    rw [List.filter_eq_self]
    intro a ha
    obtain ⟨j, _, e⟩ := mem_sig h.exec ha
    exact ExecGuard_exec e
  constructor
  · show ((X ++ C ++ E).filter CondGuard).map _ = _
    rw [List.filter_append, List.filter_append, hX1, hC1, hE1]
    simpa using map_index_cond _ C h.cond
  · show ((X ++ C ++ E).filter ExecGuard).map _ = _
    rw [List.filter_append, List.filter_append, hX2, hC2, hE2]
    simpa using map_index_exec _ E h.exec

/-! ### Counting, storage positions and failed checks -/

/-- The forward count of the output case-execution pins of a well-formed node. -/
theorem CountCaseExecPins_wellFormed (Pins : List UEdGraphPin) (N : Nat) (h : WellFormed Pins N) :
    CountCaseExecPins Pins = N := by
  unfold CountCaseExecPins
  rw [List.countP_eq_length_filter]
  exact case_exec_count Pins N h

/-- The storage positions of the two pins of case `k`. -/
theorem SplitAt.positions {X Ca Cb Ea Eb : List UEdGraphPin} {c e : UEdGraphPin} {N k : Nat}
    (h : SplitAt X Ca Cb Ea Eb c e N k) :
    (X ++ (Ca ++ c :: Cb) ++ (Ea ++ e :: Eb))[3 + k]? = some c ∧
      (X ++ (Ca ++ c :: Cb) ++ (Ea ++ e :: Eb))[3 + N + k]? = some e := by
  have hX := h.layout.lenX
  have hC := h.layout.lenC
  have hCa := h.lenCa
  have hEa := h.lenEa
  rw [List.length_range] at hC
  constructor
  · have e1 : X ++ (Ca ++ c :: Cb) ++ (Ea ++ e :: Eb) = (X ++ Ca) ++ c :: (Cb ++ (Ea ++ e :: Eb)) := by
      simp
    rw [e1, List.getElem?_append_right (by simp [hX, hCa])]
    simp [hX, hCa]
  · have e1 : X ++ (Ca ++ c :: Cb) ++ (Ea ++ e :: Eb) = (X ++ (Ca ++ c :: Cb) ++ Ea) ++ e :: Eb := by
      simp
    rw [e1, List.getElem?_append_right (by simp only [List.length_append, hX, hC, hEa]; omega)]
    simp only [List.length_append, hX, hC, hEa]
    have : 3 + N + k - (3 + N + k) = 0 := by omega
    rw [this]; simp

/-- An index outside `0 .. N-1` finds neither pin, and `RemoveCasePinAt` stops at its check
with the array as it was. -/
theorem RemoveCasePinAt_out_of_range {X C E : List UEdGraphPin} {N : Nat}
    (h : Layout X C E (List.range N)) (i : Int) (hi : ¬ (0 ≤ i ∧ i < (N : Int))) :
    GetCaseExecPinFromCaseIndex (X ++ C ++ E) i = none ∧
      GetCaseCondPinFromCaseIndex (X ++ C ++ E) i = none ∧
      RemoveCasePinAt (X ++ C ++ E) i = Outcome.checkFailed (X ++ C ++ E) := by
  have hj : ∀ j ∈ List.range N, (j : Int) ≠ i := by
    intro j hj hji
    rw [List.mem_range] at hj
    apply hi; omega
  have h1 := GetCaseExecPinFromCaseIndex_none X C E _ i h hj
  have h2 := GetCaseCondPinFromCaseIndex_none X C E _ i h hj
  refine ⟨h1, h2, ?_⟩
  unfold RemoveCasePinAt
  rw [h1, h2]

/-- An index in `0 .. N-1` is removed, and the node stays well-formed. -/
theorem RemoveCasePinAt_in_range {X C E : List UEdGraphPin} {N : Nat}
    (h : Layout X C E (List.range N)) (k : Nat) (hk : k < N) :
    ∃ Pins1, RemoveCasePinAt (X ++ C ++ E) (k : Int) = Outcome.done Pins1 ∧
      WellFormed Pins1 (N - 1) := by
  obtain ⟨Ca, c, Cb, Ea, e, Eb, rfl, rfl, hs⟩ := h.splitAt k hk
  exact ⟨_, RemoveCasePinAt_layout hs, WellFormed_removed hs⟩

theorem eraseIdx_middle {α : Type} (A B : List α) (x : α) (n : Nat) (h : n = A.length) :
    (A ++ x :: B).eraseIdx n = A ++ B := by
  subst h
  rw [List.eraseIdx_append_of_length_le (Nat.le_refl _)]
  simp

theorem getElem?_middle {α : Type} (A B : List α) (x : α) (n : Nat) (h : n = A.length) :
    (A ++ x :: B)[n]? = some x := by
  subst h
  rw [List.getElem?_append_right (Nat.le_refl _)]
  simp

/-- The pair that `AddCasePinPair` returns holds the two pin objects it has put in the array. -/
theorem AddCasePinPair_pair {X Ca Cb Ea Eb : List UEdGraphPin} {N : Nat}
    (h : Layout X (Ca ++ Cb) (Ea ++ Eb) (List.range N)) (hk : Ca.length = Ea.length) :
    (AddCasePinPair (X ++ (Ca ++ Cb) ++ (Ea ++ Eb)) (Ca.length : Int)).2 =
      (InsertedCond X Ca Cb Ea Eb, InsertedExec X Ca Cb Ea Eb) := by
  have hN := GetCasePinCount_layout h
  have hlenC := h.lenC
  have hlenE := h.lenE
  have hlenX := h.lenX
  rw [List.length_append, List.length_range] at hlenC hlenE
  unfold AddCasePinPair
  simp only [hN]
  have e1 : X ++ (Ca ++ Cb) ++ (Ea ++ Eb) = (X ++ Ca) ++ (Cb ++ (Ea ++ Eb)) := by simp
  have i1 : (3 : Int) + (Ca.length : Int) = ((X ++ Ca).length : Int) := by
    rw [List.length_append, hlenX]; push_cast; ring
  have s1 := CreatePin_named (X ++ Ca) (Cb ++ (Ea ++ Eb)) EGPD_Input PC_Boolean
    (GetCasePinName CaseCondPinNamePrefix Ca.length)
    (GetCasePinFriendlyName CaseCondPinFriendlyNamePrefix Ca.length) _ i1
  have t1 := CreatePin_at (X ++ Ca) (Cb ++ (Ea ++ Eb)) EGPD_Input PC_Boolean
    (GetCasePinName CaseCondPinNamePrefix Ca.length) _ i1
  rw [← e1] at s1 t1
  rw [s1, t1]
  have e2 : X ++ Ca ++ CreatedPin (X ++ (Ca ++ Cb) ++ (Ea ++ Eb)) EGPD_Input PC_Boolean
      (GetCasePinName CaseCondPinNamePrefix Ca.length)
      (GetCasePinFriendlyName CaseCondPinFriendlyNamePrefix Ca.length) :: (Cb ++ (Ea ++ Eb)) =
      (X ++ (Ca ++ NewCondPin (X ++ (Ca ++ Cb) ++ (Ea ++ Eb)) Ca.length :: Cb) ++ Ea) ++ Eb := by
    simp [NewCondPin]
  rw [e2]
  have i2 : (3 : Int) + (N : Int) + (Ca.length : Int) + 1 =
      ((X ++ (Ca ++ NewCondPin (X ++ (Ca ++ Cb) ++ (Ea ++ Eb)) Ca.length :: Cb) ++ Ea).length
        : Int) := by
    simp only [List.length_append, List.length_cons, hlenX]
    push_cast
    omega
  have t2 := CreatePin_at
    (X ++ (Ca ++ NewCondPin (X ++ (Ca ++ Cb) ++ (Ea ++ Eb)) Ca.length :: Cb) ++ Ea) Eb
    EGPD_Output PC_Exec (GetCasePinName CaseExecPinNamePrefix Ca.length) _ i2
  rw [t2]
  simp [InsertedCond, InsertedExec, NewCondPin, NewExecPin, CreatedPin]

/-! ### Lookups on pins that are no case pins -/

/-- A text that does not occur is not found by the search of `Split`. -/
theorem SplitChars_none (InS : List Char) :
    ∀ S : List Char, S.tails.any (fun t => InS.isPrefixOf t) = false → SplitChars InS S = none
  | [], h => by
    have h1 : InS.isPrefixOf [] = false := by simpa using h
    simp [SplitChars, h1]
  | c :: cs, h => by
    rw [List.tails, List.any_cons, Bool.or_eq_false_iff] at h
    unfold SplitChars
    rw [if_neg (by rw [h.1]; simp), SplitChars_none InS cs h.2]
    rfl

theorem Split_none (S InS : String) (h : Occurs InS S = false) : Split S InS = none := by
  unfold Split
  rw [SplitChars_none _ _ h]
  rfl

theorem IsCasePin_eq_false_iff (P : UEdGraphPin) : IsCasePin P = false ↔ HasFixedName P := by
  unfold IsCasePin HasFixedName
  rcases h1 : FNameEq P.PinName PN_Execute with _ | _ <;>
    rcases h2 : FNameEq P.PinName DefaultExecPinName with _ | _ <;>
    rcases h3 : FNameEq P.PinName ConditionPreProcessFuncName with _ | _ <;>
    simp [h1, h2, h3]

/-- A text that occurs in another one occurs in it when both are put in lower case. -/
theorem any_tails_map (f : Char → Char) (InS : List Char) :
    ∀ S : List Char, S.tails.any (fun t => InS.isPrefixOf t) = true →
      (S.map f).tails.any (fun t => (InS.map f).isPrefixOf t) = true
  | [], h => by
    have h1 : InS.isPrefixOf [] = true := by simpa using h
    have h2 : InS = [] := by simpa using h1
    subst h2
    simp
  | c :: cs, h => by
    rw [List.tails, List.any_cons, Bool.or_eq_true] at h
    rw [List.map_cons, List.tails, List.any_cons, Bool.or_eq_true]
    rcases h with h | h
    · left
      rw [List.isPrefixOf_iff_prefix] at h ⊢
      exact h.map f
    · right
      exact any_tails_map f InS cs h

/-- A name that is one of the three fixed names, with or without the same case, contains
neither `CaseExec` nor `CaseCond`. -/
theorem fixed_name_no_occurrence (P : UEdGraphPin) (h : HasFixedName P) :
    Occurs CaseExecPinNamePrefix P.PinName = false ∧
      Occurs CaseCondPinNamePrefix P.PinName = false := by
  have key : ∀ InS : String,
      (InS = CaseExecPinNamePrefix ∨ InS = CaseCondPinNamePrefix) →
      Occurs InS P.PinName = false := by
    intro InS hI
    rcases hb : Occurs InS P.PinName with _ | _
    · rfl
    · have h1 := any_tails_map Char.toLower InS.data P.PinName.data hb
      exfalso
      rcases h with h | h | h <;> rw [(FNameEq_iff _ _).mp h] at h1 <;>
        rcases hI with rfl | rfl <;> revert h1 <;> decide
  exact ⟨key _ (Or.inl rfl), key _ (Or.inr rfl)⟩

theorem fixed_name_lookups (Pins : List UEdGraphPin) (P : UEdGraphPin) (h : HasFixedName P) :
    GetCondPinFromExecPin Pins P = none ∧ GetExecPinFromCondPin Pins P = none := by
  unfold GetCondPinFromExecPin GetExecPinFromCondPin
  rw [Split_none _ _ (fixed_name_no_occurrence P h).1,
    Split_none _ _ (fixed_name_no_occurrence P h).2]
  exact ⟨rfl, rfl⟩

theorem fixed_name_index (P : UEdGraphPin) (h : HasFixedName P) :
    GetCaseIndexFromCasePin P = none ∧ GetCaseIndexFromCaseExecPin P = none ∧
      GetCaseIndexFromCaseCondPin P = none := by
  have hc := (IsCasePin_eq_false_iff P).mpr h
  unfold GetCaseIndexFromCasePin GetCaseIndexFromCaseExecPin GetCaseIndexFromCaseCondPin
  simp [hc]

theorem GetCaseIndexFromCasePin_Prefix_miss (Prefix : String) (P : UEdGraphPin)
    (hc : IsCasePin P = true) (h : Occurs (Prefix ++ "_") P.PinName = false) :
    GetCaseIndexFromCasePin_Prefix Prefix P = some (-1) := by
  unfold GetCaseIndexFromCasePin_Prefix
  rw [Split_none _ _ h]
  simp [hc]

theorem GetCasePinPair_fixed (Pins : List UEdGraphPin) {p : UEdGraphPin}
    (h : PinSignature p ∈ FixedSig) : GetCasePinPair Pins p = none := by
  simp only [FixedSig, List.mem_cons, List.mem_singleton, PinSignature, Prod.mk.injEq,
    List.not_mem_nil, or_false] at h
  unfold GetCasePinPair GetCondPinFromExecPin GetExecPinFromCondPin IsExecPin
  rcases h with ⟨h1, _, h3⟩ | ⟨h1, _, h3⟩ | ⟨h1, _, h3⟩ <;> rw [h1, h3] <;> rfl

theorem take_fixed {X C E : List UEdGraphPin} {N : Nat} (h : Layout X C E (List.range N)) :
    (X ++ C ++ E).take 3 = X := by
  rw [List.append_assoc, List.take_append_of_le_length (by rw [h.lenX])]
  rw [← h.lenX, List.take_length]

/-! ### Insertion at an index, in terms of the whole array -/

/-- The first `3 + N` pins of a well-formed array are the fixed pins and the condition pins,
the remaining ones the execution pins. -/
theorem take_drop_cases {X C E : List UEdGraphPin} {N : Nat} (h : Layout X C E (List.range N)) :
    (X ++ C ++ E).take (3 + N) = X ++ C ∧ (X ++ C ++ E).drop (3 + N) = E := by
  have hl : (X ++ C).length = 3 + N := by
    rw [List.length_append, h.lenX, h.lenC, List.length_range]
  rw [← hl]
  exact ⟨List.take_left _ _, List.drop_left _ _⟩

theorem SplitAt.take_drop {X Ca Cb Ea Eb : List UEdGraphPin} {c e : UEdGraphPin} {N k : Nat}
    (h : SplitAt X Ca Cb Ea Eb c e N k) :
    (Ca ++ c :: Cb).take k = Ca ∧ (Ca ++ c :: Cb).drop k = c :: Cb ∧
      (Ea ++ e :: Eb).take k = Ea ∧ (Ea ++ e :: Eb).drop k = e :: Eb ∧
      (Ca ++ c :: Cb).take (k + 1) = Ca ++ [c] ∧ (Ca ++ c :: Cb).drop (k + 1) = Cb ∧
      (Ea ++ e :: Eb).take (k + 1) = Ea ++ [e] ∧ (Ea ++ e :: Eb).drop (k + 1) = Eb := by
  have h1 := h.lenCa
  have h2 := h.lenEa
  have e1 : Ca ++ c :: Cb = (Ca ++ [c]) ++ Cb := by simp
  have e2 : Ea ++ e :: Eb = (Ea ++ [e]) ++ Eb := by simp
  have l1 : (Ca ++ [c]).length = k + 1 := by simp [h1]
  have l2 : (Ea ++ [e]).length = k + 1 := by simp [h2]
  refine ⟨?_, ?_, ?_, ?_, ?_, ?_, ?_, ?_⟩
  · rw [← h1]; exact List.take_left _ _
  · rw [← h1]; exact List.drop_left _ _
  · rw [← h2]; exact List.take_left _ _
  · rw [← h2]; exact List.drop_left _ _
  · rw [e1, ← l1]; exact List.take_left _ _
  · rw [e1, ← l1]; exact List.drop_left _ _
  · rw [e2, ← l2]; exact List.take_left _ _
  · rw [e2, ← l2]; exact List.drop_left _ _

/-- `AddCasePinBefore` on a pin of case `k` inserts at index `k`. -/
theorem AddCasePinBefore_InsertedAt {X Ca Cb Ea Eb : List UEdGraphPin} {c e : UEdGraphPin}
    {N k : Nat} (h : SplitAt X Ca Cb Ea Eb c e N k) (p : UEdGraphPin) (hp : p = c ∨ p = e) :
    AddCasePinBefore (X ++ (Ca ++ c :: Cb) ++ (Ea ++ e :: Eb)) (some p) true =
      Outcome.done (InsertedAt X (Ca ++ c :: Cb) (Ea ++ e :: Eb) k) := by
  obtain ⟨t1, t2, t3, t4, _⟩ := h.take_drop
  unfold InsertedAt
  rw [t1, t2, t3, t4]
  exact AddCasePinNextTo_before h p hp

/-- `AddCasePinAfter` on a pin of case `k` inserts at index `k + 1`. -/
theorem AddCasePinAfter_InsertedAt {X Ca Cb Ea Eb : List UEdGraphPin} {c e : UEdGraphPin}
    {N k : Nat} (h : SplitAt X Ca Cb Ea Eb c e N k) (p : UEdGraphPin) (hp : p = c ∨ p = e) :
    AddCasePinAfter (X ++ (Ca ++ c :: Cb) ++ (Ea ++ e :: Eb)) (some p) true =
      Outcome.done (InsertedAt X (Ca ++ c :: Cb) (Ea ++ e :: Eb) (k + 1)) := by
  obtain ⟨_, _, _, _, t1, t2, t3, t4⟩ := h.take_drop
  unfold InsertedAt
  rw [t1, t2, t3, t4]
  have := AddCasePinNextTo_after h p hp
  show AddCasePinNextTo _ p 1 = _
  rw [this]
  simp

/-- `AddInputPin` inserts at index `N`. -/
theorem AddInputPin_InsertedAt {X C E : List UEdGraphPin} {N : Nat}
    (h : Layout X C E (List.range N)) :
    AddInputPin (X ++ C ++ E) = Outcome.done (InsertedAt X C E N) := by
  have hlC : C.length = N := by rw [h.lenC, List.length_range]
  have hlE : E.length = N := by rw [h.lenE, List.length_range]
  rw [AddInputPin_layout h]
  unfold InsertedAt
  rw [← hlC, List.take_length, List.drop_length, hlC, ← hlE, List.take_length, List.drop_length]
  simp [RenumberFrom]

theorem IsInsertionAt_InsertedAt {X C E : List UEdGraphPin} {N : Nat}
    (h : Layout X C E (List.range N)) (j : Nat) (hj : j ≤ N) :
    IsInsertionAt (X ++ C ++ E) (InsertedAt X C E j) (j : Int) := by
  have hlC : C.length = N := by rw [h.lenC, List.length_range]
  have hlE : E.length = N := by rw [h.lenE, List.length_range]
  have hCa : (C.take j).length = j := by rw [List.length_take]; omega
  have hEa : (E.take j).length = j := by rw [List.length_take]; omega
  have h' : Layout X (C.take j ++ C.drop j) (E.take j ++ E.drop j) (List.range N) := by
    rw [List.take_append_drop, List.take_append_drop]; exact h
  have := IsInsertionAt_layout h' (hCa.trans hEa.symm)
  rw [List.take_append_drop, List.take_append_drop, hCa] at this
  exact this

/-- A case pin of index `k` of a well-formed layout, placed in it. -/
theorem Layout.place {X C E : List UEdGraphPin} {N : Nat} (h : Layout X C E (List.range N))
    (p : UEdGraphPin) (k : Nat) (hp : p ∈ X ++ C ++ E)
    (hk : GetCaseIndexFromCasePin p = some (k : Int)) :
    ∃ Ca c Cb Ea e Eb, k < N ∧ C = Ca ++ c :: Cb ∧ E = Ea ++ e :: Eb ∧
      SplitAt X Ca Cb Ea Eb c e N k ∧ (p = c ∨ p = e) := by
  obtain ⟨k', Ca, c, Cb, Ea, e, Eb, hlt, hC, hE, hs, hpc⟩ :=
    h.case_pin p hp (IsCasePin_of_index hk)
  have := hs.index p hpc
  rw [hk] at this
  have hkk : k = k' := by exact_mod_cast Option.some.inj this
  subst hkk
  exact ⟨Ca, c, Cb, Ea, e, Eb, hlt, hC, hE, hs, hpc⟩

/-! ### Display names of the case pins -/

/-- The name of a case pin of a well-formed node is the one generated for its index. -/
theorem WellFormed.case_name {Pins : List UEdGraphPin} {N : Nat} (hwf : WellFormed Pins N)
    (P : UEdGraphPin) (j : Int) (hP : P ∈ Pins) (hj : GetCaseIndexFromCasePin P = some j) :
    P.PinName = GetCasePinName (CasePinNamePrefix P) j := by
  obtain ⟨k, X, Ca, Cb, Ea, Eb, c, e, rfl, _, _, hs, hpc⟩ := hwf.locate P j hP hj
  rcases hpc with rfl | rfl
  · rw [CasePinNamePrefix_cond hs.condAt]; exact (sig_cond hs.condAt).1
  · rw [CasePinNamePrefix_exec hs.execAt]; exact (sig_exec hs.execAt).1

theorem generated_fixed {p : UEdGraphPin} (h : PinSignature p ∈ FixedSig) :
    HasGeneratedDisplayName p = true := by
  unfold HasGeneratedDisplayName; rw [GetCaseIndexFromCasePin_fixed h]

theorem generated_case {p : UEdGraphPin} {j : Nat}
    (h : PinSignature p = CondSig j ∨ PinSignature p = ExecSig j)
    (hd : p.PinFriendlyName = GetCasePinFriendlyName "Case" j) :
    HasGeneratedDisplayName p = true := by
  unfold HasGeneratedDisplayName
  rcases h with h | h
  · rw [GetCaseIndexFromCasePin_cond h]; simp [hd]
  · rw [GetCaseIndexFromCasePin_exec h]; simp [hd]

theorem generated_display {p : UEdGraphPin} {j : Int} (hg : HasGeneratedDisplayName p = true)
    (hj : GetCaseIndexFromCasePin p = some j) :
    p.PinFriendlyName = GetCasePinFriendlyName "Case" j := by
  unfold HasGeneratedDisplayName at hg
  rw [hj] at hg
  simpa using hg

/-- The pins that a renaming loop has written carry generated display names. -/
theorem RenumberFrom_generated_cond (l : List UEdGraphPin) :
    ∀ (js : List Nat) (s : Nat), l.map PinSignature = js.map CondSig →
      ∀ P ∈ RenumberFrom CaseCondPinNamePrefix CaseCondPinFriendlyNamePrefix (s : Int) l,
        HasGeneratedDisplayName P = true := by
  induction l with
  | nil => intro js s _ P hP; simp [RenumberFrom] at hP
  | cons p l ih =>
    intro js s h P hP
    cases js with
    | nil => simp at h
    | cons j js =>
      rw [List.map_cons, List.map_cons, List.cons.injEq] at h
      rw [RenumberFrom, List.mem_cons] at hP
      rcases hP with rfl | hP
      · apply @generated_case _ s (Or.inl ?_) rfl
        have := sig_cond h.1
        simp [PinSignature, CondSig, Renamed, this.2.1, this.2.2]
      · have := ih js (s + 1) h.2 P
        rw [show (((s + 1 : Nat) : Int)) = (s : Int) + 1 by push_cast; rfl] at this
        exact this hP

theorem RenumberFrom_generated_exec (l : List UEdGraphPin) :
    ∀ (js : List Nat) (s : Nat), l.map PinSignature = js.map ExecSig →
      ∀ P ∈ RenumberFrom CaseExecPinNamePrefix CaseExecPinFriendlyNamePrefix (s : Int) l,
        HasGeneratedDisplayName P = true := by
  induction l with
  | nil => intro js s _ P hP; simp [RenumberFrom] at hP
  | cons p l ih =>
    intro js s h P hP
    cases js with
    | nil => simp at h
    | cons j js =>
      rw [List.map_cons, List.map_cons, List.cons.injEq] at h
      rw [RenumberFrom, List.mem_cons] at hP
      rcases hP with rfl | hP
      · apply @generated_case _ s (Or.inr ?_) rfl
        have := sig_exec h.1
        simp [PinSignature, ExecSig, Renamed, this.2.1, this.2.2]
      · have := ih js (s + 1) h.2 P
        rw [show (((s + 1 : Nat) : Int)) = (s : Int) + 1 by push_cast; rfl] at this
        exact this hP

theorem InsertedCond_generated (X Ca Cb Ea Eb : List UEdGraphPin) :
    HasGeneratedDisplayName (InsertedCond X Ca Cb Ea Eb) = true :=
  @generated_case _ Ca.length (Or.inl (NewCondPin_sig _ _)) rfl

theorem InsertedExec_generated (X Ca Cb Ea Eb : List UEdGraphPin) :
    HasGeneratedDisplayName (InsertedExec X Ca Cb Ea Eb) = true :=
  @generated_case _ Ca.length (Or.inr (NewExecPin_sig _ _)) rfl

/-- An insertion at index `Ca.length` keeps the display names generated. -/
theorem generated_inserted {X Ca Cb Ea Eb : List UEdGraphPin} {N : Nat}
    (h : Layout X (Ca ++ Cb) (Ea ++ Eb) (List.range N)) (hk : Ca.length = Ea.length)
    (hg : GeneratedDisplayNames (X ++ (Ca ++ Cb) ++ (Ea ++ Eb))) :
    GeneratedDisplayNames (X ++ (Ca ++ InsertedCond X Ca Cb Ea Eb ::
          RenumberFrom CaseCondPinNamePrefix CaseCondPinFriendlyNamePrefix
            ((Ca.length : Int) + 1) Cb) ++
        (Ea ++ InsertedExec X Ca Cb Ea Eb ::
          RenumberFrom CaseExecPinNamePrefix CaseExecPinFriendlyNamePrefix
            ((Ca.length : Int) + 1) Eb)) := by
  obtain ⟨h1, h2, h3, h4, h5, h6⟩ := h.parts hk
  have r1 := RenumberFrom_generated_cond Cb _ (Ca.length + 1) h2
  have r2 := RenumberFrom_generated_exec Eb _ (Ca.length + 1) h4
  rw [show (((Ca.length + 1 : Nat) : Int)) = (Ca.length : Int) + 1 by push_cast; rfl] at r1 r2
  intro P hP
  simp only [List.mem_append, List.mem_cons] at hP
  rcases hP with (hP | hP | hP | hP) | hP | hP | hP
  · exact hg P (by simp [hP])
  · exact hg P (by simp [hP])
  · rw [hP]; exact InsertedCond_generated X Ca Cb Ea Eb
  · exact r1 P hP
  · exact hg P (by simp [hP])
  · rw [hP]; exact InsertedExec_generated X Ca Cb Ea Eb
  · exact r2 P hP

/-- The array left by the removal of a case has generated display names. -/
theorem generated_removed {X Ca Cb Ea Eb : List UEdGraphPin} {c e : UEdGraphPin}
    {N k : Nat} (h : SplitAt X Ca Cb Ea Eb c e N k) :
    GeneratedDisplayNames (X ++
      RenumberFrom CaseCondPinNamePrefix CaseCondPinFriendlyNamePrefix 0 (Ca ++ Cb) ++
      RenumberFrom CaseExecPinNamePrefix CaseExecPinFriendlyNamePrefix 0 (Ea ++ Eb)) := by
  have hCab : (Ca ++ Cb).map PinSignature =
      (List.range k ++ List.range' (k + 1) (N - k - 1)).map CondSig := by
    rw [List.map_append, List.map_append, h.condBefore, h.condAfter]
  have hEab : (Ea ++ Eb).map PinSignature =
      (List.range k ++ List.range' (k + 1) (N - k - 1)).map ExecSig := by
    rw [List.map_append, List.map_append, h.execBefore, h.execAfter]
  have r1 := RenumberFrom_generated_cond (Ca ++ Cb) _ 0 hCab
  have r2 := RenumberFrom_generated_exec (Ea ++ Eb) _ 0 hEab
  intro P hP
  rcases List.mem_append.mp hP with hP | hP
  · rcases List.mem_append.mp hP with hP | hP
    · exact generated_fixed (mem_fixed h.layout.fixed hP)
    · exact r1 P hP
  · exact r2 P hP

/-- Every operation called with admissible arguments on a well-formed node with generated
display names returns and leaves a well-formed node with generated display names. -/
theorem PinOp.preserves_generated (Pins : List UEdGraphPin) (N : Nat) (hwf : WellFormed Pins N)
    (hg : GeneratedDisplayNames Pins) (op : PinOp) (ha : op.Admissible Pins) :
    ∃ Pins1 N1, op.apply Pins = Outcome.done Pins1 ∧ WellFormed Pins1 N1 ∧
      GeneratedDisplayNames Pins1 := by
  obtain ⟨X, C, E, rfl, h⟩ := (WellFormed_iff _ _).mp hwf
  cases op with
  | addInput =>
    have h' : Layout X (C ++ []) (E ++ []) (List.range N) := by simpa using h
    have hlen : C.length = E.length := by rw [h.lenC, h.lenE]
    have := generated_inserted h' hlen (by simpa using hg)
    exact ⟨_, N + 1, AddInputPin_layout h, WellFormed_AddInputPin h,
      by simpa [RenumberFrom] using this⟩
  | addBefore p =>
    obtain ⟨hp, hc⟩ := ha
    obtain ⟨k, Ca, c, Cb, Ea, e, Eb, _, rfl, rfl, hs, hpc⟩ := h.case_pin p hp hc
    refine ⟨_, N + 1, AddCasePinNextTo_before hs p hpc, ?_, ?_⟩
    · have := WellFormed_inserted hs.layout (hs.lenCa.trans hs.lenEa.symm)
      rw [hs.lenCa] at this
      exact this
    · have := generated_inserted hs.layout (hs.lenCa.trans hs.lenEa.symm) hg
      rw [hs.lenCa] at this
      exact this
  | addAfter p =>
    obtain ⟨hp, hc⟩ := ha
    obtain ⟨k, Ca, c, Cb, Ea, e, Eb, _, rfl, rfl, hs, hpc⟩ := h.case_pin p hp hc
    have e1 : Ca ++ c :: Cb = (Ca ++ [c]) ++ Cb := by simp
    have e2 : Ea ++ e :: Eb = (Ea ++ [e]) ++ Eb := by simp
    have hl : Layout X ((Ca ++ [c]) ++ Cb) ((Ea ++ [e]) ++ Eb) (List.range N) := by
      rw [← e1, ← e2]; exact hs.layout
    have hlen : (Ca ++ [c]).length = (Ea ++ [e]).length := by
      simp [hs.lenCa, hs.lenEa]
    have hk1 : (((Ca ++ [c]).length : Nat) : Int) = (k : Int) + 1 := by
      simp [hs.lenCa]
    refine ⟨_, N + 1, AddCasePinNextTo_after hs p hpc, ?_, ?_⟩
    · have := WellFormed_inserted hl hlen
      rw [hk1] at this
      simpa using this
    · have := generated_inserted hl hlen (by rw [← e1, ← e2]; exact hg)
      rw [hk1] at this
      simpa using this
  | removeInput p =>
    obtain ⟨hp, hc⟩ := ha
    obtain ⟨k, Ca, c, Cb, Ea, e, Eb, _, rfl, rfl, hs, hpc⟩ := h.case_pin p hp hc
    refine ⟨_, N - 1, ?_, WellFormed_removed hs, generated_removed hs⟩
    show RemoveInputPin _ (some p) true = _
    unfold RemoveInputPin
    simp only [if_true, hs.index p hpc]
    exact RemoveCasePinAt_layout hs
  | removeAt i =>
    obtain ⟨h0, hi⟩ := ha
    rw [GetCasePinCount_layout h] at hi
    obtain ⟨k, rfl⟩ := Int.eq_ofNat_of_zero_le h0
    have hk : k < N := by omega
    obtain ⟨Ca, c, Cb, Ea, e, Eb, rfl, rfl, hs⟩ := h.splitAt k hk
    exact ⟨_, N - 1, RemoveCasePinAt_layout hs, WellFormed_removed hs, generated_removed hs⟩

/-- Every pin array reached by the operations is well-formed and has generated display
names. -/
theorem reachable_generated (Pins : List UEdGraphPin) (hr : Reachable Pins) :
    ∃ N, WellFormed Pins N ∧ GeneratedDisplayNames Pins := by
  induction hr with
  | init => exact ⟨0, by decide, by decide⟩
  | step Pins Pins1 op _ ha hop ih =>
    obtain ⟨N, hwf, hg⟩ := ih
    obtain ⟨P1, N1, h1, hw1, hg1⟩ := PinOp.preserves_generated Pins N hwf hg op ha
    rw [hop] at h1
    rw [Outcome.done.inj h1]
    exact ⟨N1, hw1, hg1⟩

/-- `AddCasePinPair` at the index `m` of a node with `m` cases keeps the display names
generated. -/
theorem AddCasePinPair_generated (Pins : List UEdGraphPin) (m : Nat) (h : WellFormed Pins m)
    (hg : GeneratedDisplayNames Pins) :
    GeneratedDisplayNames (AddCasePinPair Pins (m : Int)).1 := by
  obtain ⟨X, C, E, rfl, hl⟩ := (WellFormed_iff _ _).mp h
  have h1 := AddInputPin_layout hl
  have h2 : AddInputPin (X ++ C ++ E) =
      Outcome.done (AddCasePinPair (X ++ C ++ E) (GetCasePinCount (X ++ C ++ E))).1 := rfl
  rw [h2, GetCasePinCount_layout hl] at h1
  rw [Outcome.done.inj h1]
  have h' : Layout X (C ++ []) (E ++ []) (List.range m) := by simpa using hl
  have hlen : C.length = E.length := by rw [hl.lenC, hl.lenE]
  have := generated_inserted h' hlen (by simpa using hg)
  simpa [RenumberFrom] using this

theorem ReallocatePins_addLoop_generated (n : Nat) :
    ∀ (m : Nat) (Pins : List UEdGraphPin), WellFormed Pins m → GeneratedDisplayNames Pins →
      GeneratedDisplayNames (ReallocatePins_addLoop n (m : Int) Pins) := by
  induction n with
  | zero => intro m Pins _ hg; exact hg
  | succ n ih =>
    intro m Pins h hg
    have := ih (m + 1) _ (AddCasePinPair_wellFormed Pins m h) (AddCasePinPair_generated Pins m h hg)
    rw [show (((m + 1 : Nat) : Int)) = (m : Int) + 1 by push_cast; rfl] at this
    exact this

/-- The pin array that reconstruction builds has generated display names. -/
theorem ReallocatePinsDuringReconstruction_generated (OldPins : List UEdGraphPin) :
    GeneratedDisplayNames (ReallocatePinsDuringReconstruction [] OldPins) := by
  have h0 : WellFormed (CreateFunctionPin (CreateDefaultExecPin (CreateExecTriggeringPin [])))
      0 := AllocateDefaultPins_wellFormed
  have hg0 : GeneratedDisplayNames
      (CreateFunctionPin (CreateDefaultExecPin (CreateExecTriggeringPin []))) := by decide
  have := ReallocatePins_addLoop_generated
    (OldPins.filter (fun Pin =>
      IsExecPin Pin && Pin.Direction == EGPD_Output && IsCasePin Pin)).length 0 _ h0 hg0
  simpa [ReallocatePinsDuringReconstruction] using this

/-- The pins that are left when the two pins of case `k` are taken out. -/
theorem WithoutCase_layout {X Ca Cb Ea Eb : List UEdGraphPin} {c e : UEdGraphPin}
    {N k : Nat} (h : SplitAt X Ca Cb Ea Eb c e N k) :
    WithoutCase (X ++ (Ca ++ c :: Cb) ++ (Ea ++ e :: Eb)) (k : Int) =
      X ++ (Ca ++ Cb) ++ (Ea ++ Eb) := by
  have keep : ∀ (l : List UEdGraphPin),
      (∀ p ∈ l, GetCaseIndexFromCasePin p ≠ some (k : Int)) →
      l.filter (fun P => GetCaseIndexFromCasePin P != some (k : Int)) = l := by
    intro l hl
    rw [List.filter_eq_self]
    intro a ha
    simpa using hl a ha
  have hX : ∀ p ∈ X, GetCaseIndexFromCasePin p ≠ some (k : Int) := by
    intro p hp
    rw [GetCaseIndexFromCasePin_fixed (mem_fixed h.layout.fixed hp)]
    simp
  have hCa : ∀ p ∈ Ca, GetCaseIndexFromCasePin p ≠ some (k : Int) := by
    intro p hp
    obtain ⟨i, hi, e1⟩ := mem_sig h.condBefore hp
    rw [GetCaseIndexFromCasePin_cond e1]
    have := List.mem_range.mp hi
    simp; omega
  have hEa : ∀ p ∈ Ea, GetCaseIndexFromCasePin p ≠ some (k : Int) := by
    intro p hp
    obtain ⟨i, hi, e1⟩ := mem_sig h.execBefore hp
    rw [GetCaseIndexFromCasePin_exec e1]
    have := List.mem_range.mp hi
    simp; omega
  have hCb : ∀ p ∈ Cb, GetCaseIndexFromCasePin p ≠ some (k : Int) := by
    intro p hp
    obtain ⟨i, hi, e1⟩ := mem_sig h.condAfter hp
    rw [GetCaseIndexFromCasePin_cond e1]
    have := List.mem_range'_1.mp hi
    simp; omega
  have hEb : ∀ p ∈ Eb, GetCaseIndexFromCasePin p ≠ some (k : Int) := by
    intro p hp
    obtain ⟨i, hi, e1⟩ := mem_sig h.execAfter hp
    rw [GetCaseIndexFromCasePin_exec e1]
    have := List.mem_range'_1.mp hi
    simp; omega
  have hc : (GetCaseIndexFromCasePin c != some (k : Int)) = false := by
    rw [GetCaseIndexFromCasePin_cond h.condAt]; simp
  have he : (GetCaseIndexFromCasePin e != some (k : Int)) = false := by
    rw [GetCaseIndexFromCasePin_exec h.execAt]; simp
  unfold WithoutCase
  simp only [List.filter_append, List.filter_cons, hc, he, Bool.false_eq_true, if_false]
  rw [keep X hX, keep Ca hCa, keep Cb hCb, keep Ea hEa, keep Eb hEb]

/-- On a well-formed array with generated display names the renumbering loop changes the pins
of index above `i` only. -/
theorem Renumbered_eq_ShiftedDown {Pins : List UEdGraphPin} {N : Nat} (hwf : WellFormed Pins N)
    (hg : GeneratedDisplayNames Pins) (i : Int) (P : UEdGraphPin) (hP : P ∈ Pins) :
    Renumbered i P = ShiftedDown i P := by
  unfold Renumbered ShiftedDown
  cases hj : GetCaseIndexFromCasePin P with
  | none => rfl
  | some j =>
    by_cases hlt : i < j
    · simp only [hlt, if_true]
    · simp only [hlt, if_false]
      have hname := hwf.case_name P j hP hj
      have hd := generated_display (hg P hP) hj
      show ({ P with PinName := GetCasePinName (CasePinNamePrefix P) j,
                     PinFriendlyName := GetCasePinFriendlyName "Case" j } : UEdGraphPin) = P
      rw [← hname, ← hd]

/-- With generated display names, writing the generated display names changes nothing. -/
theorem GeneratedDisplayNames.map_eq {Pins : List UEdGraphPin} (hg : GeneratedDisplayNames Pins) :
    Pins.map WithGeneratedDisplayName = Pins := by
  apply map_eq_self
  intro P hP
  unfold WithGeneratedDisplayName
  cases hj : GetCaseIndexFromCasePin P with
  | none => rfl
  | some j =>
    have hd := generated_display (hg P hP) hj
    show ({ P with PinFriendlyName := GetCasePinFriendlyName "Case" j } : UEdGraphPin) = P
    rw [← hd]

/-! ## The claims -/

/-- Claim C1. Every pin array reached from `AllocateDefaultPins` on a new node by a finite
sequence of `AddInputPin`, `AddCasePinBefore`, `AddCasePinAfter`, `RemoveInputPin` (each on a case
pin of the node) and `RemoveCasePinAt` (on an index in `0 .. N-1`) is well-formed for some `N`,
and the case indices that the getters read off its condition pins, and off its execution pins,
are exactly `0, 1, .., N-1`, in storage order, without gap or duplicate. Every such operation
called on it runs to its return, so that every sequence can be continued. -/
theorem reachable_wellFormed (Pins : List UEdGraphPin) (hr : Reachable Pins) :
    (∃ N, WellFormed Pins N ∧
        (Pins.filter (fun P => !IsExecPin P && P.Direction == EGPD_Input && IsCasePin P)).map
          GetCaseIndexFromCaseCondPin = (List.range N).map (fun i : Nat => some (i : Int)) ∧
        (Pins.filter (fun P => IsExecPin P && P.Direction == EGPD_Output && IsCasePin P)).map
          GetCaseIndexFromCaseExecPin = (List.range N).map (fun i : Nat => some (i : Int))) ∧
      ∀ op : PinOp, op.Admissible Pins → ∃ Pins1, op.apply Pins = Outcome.done Pins1 := by
  have hwf : ∃ N, WellFormed Pins N := by
    induction hr with
    | init => exact ⟨0, AllocateDefaultPins_wellFormed⟩
    | step Pins Pins1 op _ ha hdone ih =>
      obtain ⟨N, hN⟩ := ih
      obtain ⟨P2, N1, h2, h3⟩ := PinOp.preserves Pins N hN op ha
      rw [h2] at hdone
      cases hdone
      exact ⟨N1, h3⟩
  obtain ⟨N, hN⟩ := hwf
  refine ⟨⟨N, hN, hN.indices.1, hN.indices.2⟩, ?_⟩
  intro op ha
  obtain ⟨P2, _, h2, _⟩ := PinOp.preserves Pins N hN op ha
  exact ⟨P2, h2⟩

/-- Witness of C1: the node reached by `AllocateDefaultPins` and one `AddInputPin`. -/
theorem reachable_wellFormed_witness :
    Reachable OneCaseNode ∧
      ∃ N, WellFormed OneCaseNode N ∧
        (OneCaseNode.filter (fun P =>
          !IsExecPin P && P.Direction == EGPD_Input && IsCasePin P)).map
            GetCaseIndexFromCaseCondPin = (List.range N).map (fun i : Nat => some (i : Int)) ∧
        (OneCaseNode.filter (fun P =>
          IsExecPin P && P.Direction == EGPD_Output && IsCasePin P)).map
            GetCaseIndexFromCaseExecPin = (List.range N).map (fun i : Nat => some (i : Int)) :=
  ⟨Reachable.step _ _ PinOp.addInput Reachable.init trivial (by decide),
    (reachable_wellFormed OneCaseNode
      (Reachable.step _ _ PinOp.addInput Reachable.init trivial (by decide))).1⟩

/-- Claim C2. On a well-formed node, for a case pin `p` (condition or execution) of case index
`k`, `AddCasePinBefore(p)` is an insertion at point `k` and `AddCasePinAfter(p)` an insertion at
point `k + 1`: both return; every pre-existing pin is still in the array, as the same object, in
the same relative order and with the same links; a pre-existing case pin of index below the
insertion point keeps its name and display name, one of index `i` at or above it gets the name
`CaseCond_{i+1}` / `CaseExec_{i+1}` and the display name `Case {i+1}`; the three fixed pins are
unchanged; exactly one new condition pin and one new execution pin are added, both of the index
of the insertion point and without links. -/
theorem AddCasePin_frame (Pins : List UEdGraphPin) (N : Nat) (p : UEdGraphPin) (k : Int)
    (hwf : WellFormed Pins N) (hp : p ∈ Pins) (hk : GetCaseIndexFromCasePin p = some k) :
    (∃ Pins1, AddCasePinBefore Pins (some p) true = Outcome.done Pins1 ∧
        IsInsertionAt Pins Pins1 k) ∧
      (∃ Pins1, AddCasePinAfter Pins (some p) true = Outcome.done Pins1 ∧
        IsInsertionAt Pins Pins1 (k + 1)) := by
  obtain ⟨k1, X, Ca, Cb, Ea, Eb, c, e, rfl, _, rfl, hs, hpc⟩ := hwf.locate p k hp hk
  constructor
  · refine ⟨_, AddCasePinNextTo_before hs p hpc, ?_⟩
    have := IsInsertionAt_layout hs.layout (hs.lenCa.trans hs.lenEa.symm)
    rw [hs.lenCa] at this
    exact this
  · refine ⟨_, AddCasePinNextTo_after hs p hpc, ?_⟩
    have e1 : Ca ++ c :: Cb = (Ca ++ [c]) ++ Cb := by simp
    have e2 : Ea ++ e :: Eb = (Ea ++ [e]) ++ Eb := by simp
    have hl : Layout X ((Ca ++ [c]) ++ Cb) ((Ea ++ [e]) ++ Eb) (List.range N) := by
      rw [← e1, ← e2]; exact hs.layout
    have hlen : (Ca ++ [c]).length = (Ea ++ [e]).length := by
      simp [hs.lenCa, hs.lenEa]
    have := IsInsertionAt_layout hl hlen
    have hk1 : (((Ca ++ [c]).length : Nat) : Int) = (k1 : Int) + 1 := by
      simp [hs.lenCa]
    rw [hk1] at this
    simpa using this

/-- Witness of C2: the condition pin of case 1 of a node with three cases. -/
theorem AddCasePin_frame_witness :
    WellFormed ThreeCaseNode 3 ∧ ThreeCaseNode_Cond1 ∈ ThreeCaseNode ∧
      GetCaseIndexFromCasePin ThreeCaseNode_Cond1 = some 1 ∧
      (∃ Pins1, AddCasePinBefore ThreeCaseNode (some ThreeCaseNode_Cond1) true =
          Outcome.done Pins1 ∧ IsInsertionAt ThreeCaseNode Pins1 1) ∧
      (∃ Pins1, AddCasePinAfter ThreeCaseNode (some ThreeCaseNode_Cond1) true =
          Outcome.done Pins1 ∧ IsInsertionAt ThreeCaseNode Pins1 (1 + 1)) :=
  ⟨by decide, by decide, by decide,
    AddCasePin_frame ThreeCaseNode 3 ThreeCaseNode_Cond1 1 (by decide) (by decide) (by decide)⟩

/-- Claim C3. On a well-formed node with `N` cases whose case pins carry the display names this
class writes (`GeneratedDisplayNames`: they do on every pin array that the operations and the
reconstruction produce, see `reachable_generated`), and for `0 <= i < N`, `RemoveCasePinAt(i)`
returns. It removes exactly the pins at the storage positions `3 + i` and `3 + N + i`, the
condition pin and the execution pin of index `i`, and nothing else; every surviving pin stays
the same object in the same relative order, with its direction, category and links; a pin that
is not a case pin and a case pin of old index `j < i` are unchanged, name and display name
included; a case pin of old index `j > i` is renamed to index `j - 1` (name `CaseCond_{j-1}` /
`CaseExec_{j-1}`, display name `Case {j-1}`), the execution pin and the condition pin of a case
together. The resulting array again has generated display names. -/
theorem RemoveCasePinAt_result (Pins : List UEdGraphPin) (N : Nat) (i : Nat)
    (hwf : WellFormed Pins N) (hg : GeneratedDisplayNames Pins) (hi : i < N) :
    RemoveCasePinAt Pins (i : Int) =
        Outcome.done ((WithoutCase Pins (i : Int)).map (ShiftedDown (i : Int))) ∧
      WithoutCase Pins (i : Int) = (Pins.eraseIdx (3 + N + i)).eraseIdx (3 + i) ∧
      (Pins[3 + i]?).map PinSignature = some (CondSig i) ∧
      (Pins[3 + N + i]?).map PinSignature = some (ExecSig i) ∧
      (∀ P : UEdGraphPin, GetCaseIndexFromCasePin P = none → ShiftedDown (i : Int) P = P) ∧
      (∀ (P : UEdGraphPin) (j : Int), GetCaseIndexFromCasePin P = some j → j < (i : Int) →
        ShiftedDown (i : Int) P = P) ∧
      (∀ (P : UEdGraphPin) (j : Int), GetCaseIndexFromCasePin P = some j → (i : Int) < j →
        (ShiftedDown (i : Int) P).PinId = P.PinId ∧
        (ShiftedDown (i : Int) P).LinkedTo = P.LinkedTo ∧
        (ShiftedDown (i : Int) P).Direction = P.Direction ∧
        (ShiftedDown (i : Int) P).PinCategory = P.PinCategory ∧
        (ShiftedDown (i : Int) P).PinName = GetCasePinName (CasePinNamePrefix P) (j - 1) ∧
        (ShiftedDown (i : Int) P).PinFriendlyName = GetCasePinFriendlyName "Case" (j - 1)) ∧
      GeneratedDisplayNames ((WithoutCase Pins (i : Int)).map (ShiftedDown (i : Int))) := by
  have hmap : (WithoutCase Pins (i : Int)).map (Renumbered (i : Int)) =
      (WithoutCase Pins (i : Int)).map (ShiftedDown (i : Int)) := by
    apply List.map_congr_left
    intro P hP
    exact Renumbered_eq_ShiftedDown hwf hg _ P (List.mem_filter.mp hP).1
  obtain ⟨X, C, E, rfl, h⟩ := (WellFormed_iff _ _).mp hwf
  obtain ⟨Ca, c, Cb, Ea, e, Eb, rfl, rfl, hs⟩ := h.splitAt i hi
  have hlenX := h.lenX
  have hlenC := h.lenC
  rw [List.length_range] at hlenC
  refine ⟨?_, ?_, ?_, ?_, ?_, ?_, ?_, ?_⟩
  · rw [RemoveCasePinAt_layout hs, ← hmap, Removal_layout hs]
  · rw [WithoutCase_layout hs]
    have e1 : X ++ (Ca ++ c :: Cb) ++ (Ea ++ e :: Eb) =
        (X ++ (Ca ++ c :: Cb) ++ Ea) ++ e :: Eb := by simp
    have e3 : X ++ (Ca ++ c :: Cb) ++ Ea ++ Eb = (X ++ Ca) ++ c :: (Cb ++ (Ea ++ Eb)) := by simp
    have l1 : 3 + i = (X ++ Ca).length := by rw [List.length_append, hlenX, hs.lenCa]
    have l2 : 3 + N + i = (X ++ (Ca ++ c :: Cb) ++ Ea).length := by
      rw [List.length_append, List.length_append, hlenX, hlenC, hs.lenEa]
    rw [e1, eraseIdx_middle _ _ _ _ l2, e3, eraseIdx_middle _ _ _ _ l1]
    simp
  · rw [hs.positions.1]; exact congrArg some hs.condAt
  · rw [hs.positions.2]; exact congrArg some hs.execAt
  · intro P hP
    unfold ShiftedDown; rw [hP]
  · intro P j hj hlt
    unfold ShiftedDown; rw [hj]
    simp only [show ¬ ((i : Int) < j) by omega, if_false]
  · intro P j hj hlt
    unfold ShiftedDown; rw [hj]
    simp [hlt, WithCaseIndex]
  · rw [← hmap, Removal_layout hs]
    exact generated_removed hs

/-- Claim C3 on `ThreeCaseNode`, whose pins carry links, with `i = 1`, and on `OneCaseNode`,
the array after `AllocateDefaultPins` and one `AddInputPin`, with `i = 0`. -/
theorem RemoveCasePinAt_result_witness :
    WellFormed ThreeCaseNode 3 ∧ GeneratedDisplayNames ThreeCaseNode ∧
      RemoveCasePinAt ThreeCaseNode ((1 : Nat) : Int) =
        Outcome.done ((WithoutCase ThreeCaseNode ((1 : Nat) : Int)).map
          (ShiftedDown ((1 : Nat) : Int))) ∧
      WithoutCase ThreeCaseNode ((1 : Nat) : Int) =
        (ThreeCaseNode.eraseIdx (3 + 3 + 1)).eraseIdx (3 + 1) ∧
      RemoveCasePinAt OneCaseNode ((0 : Nat) : Int) =
        Outcome.done ((WithoutCase OneCaseNode ((0 : Nat) : Int)).map
          (ShiftedDown ((0 : Nat) : Int))) :=
  ⟨by decide, by decide,
    (RemoveCasePinAt_result ThreeCaseNode 3 1 (by decide) (by decide) (by decide)).1,
    (RemoveCasePinAt_result ThreeCaseNode 3 1 (by decide) (by decide) (by decide)).2.1,
    (RemoveCasePinAt_result OneCaseNode 1 0 (by decide) (by decide) (by decide)).1⟩

/-- Claim C4. For a well-formed node whose trigger pin has at least one link, `Compile` returns
without diagnostics and emits, for each case execution pin that has a link, in ascending case
index (the storage order), one call-function statement that applies the negation function to
the condition value of that case and stores the result in the scratch boolean of the node,
immediately followed by one `GotoIfNot` statement on the scratch boolean whose fixup is
registered against that execution pin; an execution pin without link contributes nothing; the
last statement is one unconditional jump registered against the default execution pin, whether
or not that pin has links. With `k` linked case execution pins these are `2k + 1` statements. -/
theorem Compile_statements (Pins : List UEdGraphPin) (N : Nat) (T : UEdGraphPin)
    (hwf : WellFormed Pins N)
    (hT : FindRequiredPinByName Pins PN_Execute EGPD_Input = some T)
    (hlink : T.LinkedTo ≠ []) :
    ∃ F D, GetFunctionPin Pins = some F ∧ GetDefaultExecPin Pins = some D ∧
      Compile Pins = some
        { Statements := CaseStatements F (LinkedCases Pins N) ++ [GotoStatement]
          GotoFixupRequestMap := CaseFixups 0 (LinkedCases Pins N) ++
            [(2 * (LinkedCases Pins N).length, some D.PinId)]
          Errors := []
          Warnings := [] } ∧
      (LinkedCases Pins N).length =
        (Pins.filter (fun P =>
          (IsExecPin P && P.Direction == EGPD_Output && IsCasePin P) &&
            P.LinkedTo.length != 0)).length ∧
      (CaseStatements F (LinkedCases Pins N) ++ [GotoStatement]).length =
        2 * (LinkedCases Pins N).length + 1 := by
  obtain ⟨X, C, E, rfl, h⟩ := (WellFormed_iff _ _).mp hwf
  obtain ⟨F, D, hF, hD, hc⟩ := Compile_layout h T hT hlink
  refine ⟨F, D, hF, hD, ?_, LinkedCases_length h, ?_⟩
  · rw [hc, CaseStatements_length]
  · rw [List.length_append, CaseStatements_length]; rfl

/-- Witness of C4: three cases, case 0 without link: two conditional jumps, for the cases 1 and
2 (execution pins 8 and 9, condition pins 5 and 6), and the jump to the default pin 2. -/
theorem Compile_statements_witness :
    WellFormed ThreeCaseNode 3 ∧
      FindRequiredPinByName ThreeCaseNode PN_Execute EGPD_Input = some ThreeCaseNode_Trigger ∧
      ThreeCaseNode_Trigger.LinkedTo ≠ [] ∧
      (∃ F D, GetFunctionPin ThreeCaseNode = some F ∧ GetDefaultExecPin ThreeCaseNode = some D ∧
        Compile ThreeCaseNode = some
          { Statements := CaseStatements F (LinkedCases ThreeCaseNode 3) ++ [GotoStatement]
            GotoFixupRequestMap := CaseFixups 0 (LinkedCases ThreeCaseNode 3) ++
              [(2 * (LinkedCases ThreeCaseNode 3).length, some D.PinId)]
            Errors := []
            Warnings := [] } ∧
        (LinkedCases ThreeCaseNode 3).length =
          (ThreeCaseNode.filter (fun P =>
            (IsExecPin P && P.Direction == EGPD_Output && IsCasePin P) &&
              P.LinkedTo.length != 0)).length ∧
        (CaseStatements F (LinkedCases ThreeCaseNode 3) ++ [GotoStatement]).length =
          2 * (LinkedCases ThreeCaseNode 3).length + 1) ∧
      (Compile ThreeCaseNode).map (fun Context =>
          (Context.Statements.map (fun S => (S.StatementType, S.RHS)),
            Context.GotoFixupRequestMap)) =
        some ([(KCST_CallFunction, [FBPTerminal.Net 5]), (KCST_GotoIfNot, []),
               (KCST_CallFunction, [FBPTerminal.Net 6]), (KCST_GotoIfNot, []),
               (KCST_UnconditionalGoto, [])],
              [(1, some 8), (3, some 9), (4, some 2)]) :=
  ⟨by decide, by decide, by decide,
    Compile_statements ThreeCaseNode 3 ThreeCaseNode_Trigger (by decide) (by decide) (by decide),
    by decide⟩

/-- Claim C5. First-match semantics of the lowered code: for a well-formed node whose trigger
pin is linked, `Compile` returns, and for every assignment of boolean values to the condition
values and every initial content of the scratch boolean, running the emitted statements from
the first one transfers control through the jump registered against the linked case execution
pin of lowest case index whose condition is true, and through the jump registered against the
default execution pin when no linked case has a true condition. -/
theorem Compile_first_match (Pins : List UEdGraphPin) (N : Nat) (T : UEdGraphPin)
    (hwf : WellFormed Pins N)
    (hT : FindRequiredPinByName Pins PN_Execute EGPD_Input = some T)
    (hlink : T.LinkedTo ≠ []) :
    ∃ Context D, Compile Pins = some Context ∧ GetDefaultExecPin Pins = some D ∧
      ∀ (Value : Nat → Bool) (Scratch : Bool),
        RunStatements Context.GotoFixupRequestMap Value Context.Statements 0 Scratch =
          some (some (FirstMatch Value (LinkedCases Pins N) D)) := by
  obtain ⟨X, C, E, rfl, h⟩ := (WellFormed_iff _ _).mp hwf
  obtain ⟨F, D, _, hD, hc⟩ := Compile_layout h T hT hlink
  refine ⟨_, D, hc, hD, ?_⟩
  intro Value Scratch
  have := RunStatements_cases Value F D (LinkedCases (X ++ C ++ E) N) 0 [] Scratch (by simp)
  simp only [List.nil_append, Nat.zero_add] at this
  rw [CaseStatements_length]
  exact this

/-- Witness of C5: the node with three cases, case 0 not linked. -/
theorem Compile_first_match_witness :
    WellFormed ThreeCaseNode 3 ∧
      FindRequiredPinByName ThreeCaseNode PN_Execute EGPD_Input = some ThreeCaseNode_Trigger ∧
      ThreeCaseNode_Trigger.LinkedTo ≠ [] ∧
      ∃ Context D, Compile ThreeCaseNode = some Context ∧
        GetDefaultExecPin ThreeCaseNode = some D ∧
        ∀ (Value : Nat → Bool) (Scratch : Bool),
          RunStatements Context.GotoFixupRequestMap Value Context.Statements 0 Scratch =
            some (some (FirstMatch Value (LinkedCases ThreeCaseNode 3) D)) :=
  ⟨by decide, by decide, by decide,
    Compile_first_match ThreeCaseNode 3 ThreeCaseNode_Trigger (by decide) (by decide)
      (by decide)⟩

/-- Claim C6. For every node whose trigger pin (the input pin named `execute`) is missing or is
not of execution category, `Compile` emits no statement, registers no jump fixup and reports
exactly one error and no warning. -/
theorem Compile_invalid_trigger (Pins : List UEdGraphPin)
    (h : ∀ T, FindRequiredPinByName Pins PN_Execute EGPD_Input = some T →
      T.PinCategory ≠ PC_Exec) :
    Compile Pins = some
      { Statements := [], GotoFixupRequestMap := [],
        Errors := ["@@ must have a valid execution pin @@"], Warnings := [] } := by
  unfold Compile
  cases hf : FindRequiredPinByName Pins PN_Execute EGPD_Input with
  | none => rfl
  | some T =>
    have hv : ValidatePinType T PC_Exec = false := by
      simpa [ValidatePinType] using h T hf
    simp [hv]

/-- Witness of C6: a node whose pin named `execute` is a linked boolean input. -/
theorem Compile_invalid_trigger_witness :
    (∀ T, FindRequiredPinByName WrongTriggerNode PN_Execute EGPD_Input = some T →
        T.PinCategory ≠ PC_Exec) ∧
      Compile WrongTriggerNode = some
        { Statements := [], GotoFixupRequestMap := [],
          Errors := ["@@ must have a valid execution pin @@"], Warnings := [] } :=
  have hw : ∀ T, FindRequiredPinByName WrongTriggerNode PN_Execute EGPD_Input = some T →
      T.PinCategory ≠ PC_Exec := by
    intro T hT
    have h1 : FindRequiredPinByName WrongTriggerNode PN_Execute EGPD_Input =
        some { PinId := 1, PinName := "execute", PinFriendlyName := "", Direction := EGPD_Input,
               PinCategory := "bool", LinkedTo := [100] } := by decide
    rw [h1] at hT
    cases hT
    decide
  ⟨hw, Compile_invalid_trigger WrongTriggerNode hw⟩

/-- Claim C7. For every node whose trigger pin exists with execution category but has no link,
`Compile` emits no statement, not even the default jump, registers no jump fixup and reports
exactly one warning and no error, whatever the cases of the node and their links. -/
theorem Compile_unlinked_trigger (Pins : List UEdGraphPin) (T : UEdGraphPin)
    (hT : FindRequiredPinByName Pins PN_Execute EGPD_Input = some T)
    (hcat : T.PinCategory = PC_Exec) (hlink : T.LinkedTo = []) :
    Compile Pins = some
      { Statements := [], GotoFixupRequestMap := [], Errors := [],
        Warnings := ["@@ will never be executed"] } := by
  unfold Compile
  have hv : ValidatePinType T PC_Exec = true := by simp [ValidatePinType, hcat]
  simp [hT, hv, hlink]

/-- Witness of C7: a node with one case whose trigger pin has no link. -/
theorem Compile_unlinked_trigger_witness :
    FindRequiredPinByName OneCaseNode PN_Execute EGPD_Input =
        some { PinId := 1, PinName := "execute", PinFriendlyName := "", Direction := EGPD_Input,
               PinCategory := "exec", LinkedTo := [] } ∧
      Compile OneCaseNode = some
        { Statements := [], GotoFixupRequestMap := [], Errors := [],
          Warnings := ["@@ will never be executed"] } :=
  ⟨by decide,
    Compile_unlinked_trigger OneCaseNode
      { PinId := 1, PinName := "execute", PinFriendlyName := "", Direction := EGPD_Input,
        PinCategory := "exec", LinkedTo := [] } (by decide) (by decide) (by decide)⟩

/-- Claim C8. For every old pin array, `ReallocatePinsDuringReconstruction` on a node with an
empty pin array produces a well-formed node with `N` cases, `N` being the number of old pins
that are of execution category, output, and not named as the trigger, default or function pin
(`IsCasePin`, which compares the names as `FName` values); the indices encoded in the old names
play no role; reconstructing from the pin array of a
well-formed node reproduces the same name, direction and category at every position. -/
theorem ReallocatePinsDuringReconstruction_wellFormed (OldPins : List UEdGraphPin) :
    WellFormed (ReallocatePinsDuringReconstruction [] OldPins)
        (OldPins.filter (fun Pin =>
          IsExecPin Pin && Pin.Direction == EGPD_Output && IsCasePin Pin)).length ∧
      (∀ N, WellFormed OldPins N →
        (ReallocatePinsDuringReconstruction [] OldPins).map PinSignature =
          OldPins.map PinSignature) := by
  have key : WellFormed (ReallocatePinsDuringReconstruction [] OldPins)
      (OldPins.filter (fun Pin =>
        IsExecPin Pin && Pin.Direction == EGPD_Output && IsCasePin Pin)).length := by
    have h0 : WellFormed (CreateFunctionPin (CreateDefaultExecPin (CreateExecTriggeringPin [])))
        0 := AllocateDefaultPins_wellFormed
    have := ReallocatePins_addLoop_wellFormed
      (OldPins.filter (fun Pin =>
        IsExecPin Pin && Pin.Direction == EGPD_Output && IsCasePin Pin)).length 0 _ h0
    simpa [ReallocatePinsDuringReconstruction] using this
  refine ⟨key, ?_⟩
  intro N hN
  rw [case_exec_count OldPins N hN] at key
  rw [key.1, hN.1]

/-- Witness of C8: an old array with `CaseExec_0` and `CaseExec_5` gives the cases 0 and 1; the
array of the well-formed node with three cases gives back its names, directions and
categories; of the two output execution pins `Execute` and `CaseExec_3` the first carries the
name of the trigger pin and is not counted, so that one case is built, and none from the pin
`Execute` alone. -/
theorem ReallocatePinsDuringReconstruction_witness :
    WellFormed (ReallocatePinsDuringReconstruction [] GapOldPins) 2 ∧
      WellFormed ThreeCaseNode 3 ∧
      (ReallocatePinsDuringReconstruction [] ThreeCaseNode).map PinSignature =
        ThreeCaseNode.map PinSignature ∧
      WellFormed (ReallocatePinsDuringReconstruction [] CapitalOldPins) 1 ∧
      WellFormed (ReallocatePinsDuringReconstruction [] [ExecuteNamedPin]) 0 :=
  ⟨(ReallocatePinsDuringReconstruction_wellFormed GapOldPins).1, by decide,
    (ReallocatePinsDuringReconstruction_wellFormed ThreeCaseNode).2 3 (by decide),
    (ReallocatePinsDuringReconstruction_wellFormed CapitalOldPins).1,
    (ReallocatePinsDuringReconstruction_wellFormed [ExecuteNamedPin]).1⟩

/-- Claim C9. On a well-formed node with `N` cases whose case pins carry the display names this
class writes (`GeneratedDisplayNames`, see `reachable_generated`), and for a case pin `p` of the
node with index `k` (so `N >= 1` and `0 <= k < N`): `AddCasePinBefore(p)` followed by
`RemoveCasePinAt(k)`, and `AddCasePinAfter(p)` followed by `RemoveCasePinAt(k + 1)`, all return,
the insertion leaves a well-formed node with `N + 1` cases, and the removal gives back the
original pin array itself: the original pin objects with the original name, display name,
direction, category and links at every position, so the index set is `0 .. N-1` again. -/
theorem AddCasePin_then_Remove (Pins : List UEdGraphPin) (N : Nat) (p : UEdGraphPin) (k : Int)
    (hwf : WellFormed Pins N) (hg : GeneratedDisplayNames Pins) (hp : p ∈ Pins)
    (hk : GetCaseIndexFromCasePin p = some k) :
    1 ≤ N ∧ 0 ≤ k ∧ k < (N : Int) ∧
      (∃ Pins1, AddCasePinBefore Pins (some p) true = Outcome.done Pins1 ∧
        WellFormed Pins1 (N + 1) ∧ RemoveCasePinAt Pins1 k = Outcome.done Pins) ∧
      (∃ Pins1, AddCasePinAfter Pins (some p) true = Outcome.done Pins1 ∧
        WellFormed Pins1 (N + 1) ∧ RemoveCasePinAt Pins1 (k + 1) = Outcome.done Pins) := by
  have hm := hg.map_eq
  obtain ⟨k1, X, Ca, Cb, Ea, Eb, c, e, rfl, hlt, rfl, hs, hpc⟩ := hwf.locate p k hp hk
  refine ⟨by omega, by omega, by omega, ?_, ?_⟩
  · refine ⟨_, AddCasePinNextTo_before hs p hpc, ?_, ?_⟩
    · have := WellFormed_inserted hs.layout (hs.lenCa.trans hs.lenEa.symm)
      rw [hs.lenCa] at this
      exact this
    · have := RemoveCasePinAt_inserted hs.layout (hs.lenCa.trans hs.lenEa.symm)
      rw [hs.lenCa] at this
      rw [this, ← map_WithGeneratedDisplayName hs.layout, hm]
  · have e1 : Ca ++ c :: Cb = (Ca ++ [c]) ++ Cb := by simp
    have e2 : Ea ++ e :: Eb = (Ea ++ [e]) ++ Eb := by simp
    have hl : Layout X ((Ca ++ [c]) ++ Cb) ((Ea ++ [e]) ++ Eb) (List.range N) := by
      rw [← e1, ← e2]; exact hs.layout
    have hlen : (Ca ++ [c]).length = (Ea ++ [e]).length := by
      simp [hs.lenCa, hs.lenEa]
    have hk1 : (((Ca ++ [c]).length : Nat) : Int) = (k1 : Int) + 1 := by
      simp [hs.lenCa]
    refine ⟨_, AddCasePinNextTo_after hs p hpc, ?_, ?_⟩
    · have := WellFormed_inserted hl hlen
      rw [hk1] at this
      simpa using this
    · have := RemoveCasePinAt_inserted hl hlen
      rw [hk1] at this
      have hm2 := map_WithGeneratedDisplayName hs.layout
      rw [hm] at hm2
      rw [hm2]
      simp only [List.append_assoc, List.singleton_append, List.cons_append] at this ⊢
      exact this

/-- Claim C9 on the condition pin of case 1 of `ThreeCaseNode`. -/
theorem AddCasePin_then_Remove_witness :
    WellFormed ThreeCaseNode 3 ∧ GeneratedDisplayNames ThreeCaseNode ∧
      ThreeCaseNode_Cond1 ∈ ThreeCaseNode ∧
      GetCaseIndexFromCasePin ThreeCaseNode_Cond1 = some 1 ∧
      (∃ Pins1, AddCasePinBefore ThreeCaseNode (some ThreeCaseNode_Cond1) true =
          Outcome.done Pins1 ∧
        WellFormed Pins1 (3 + 1) ∧ RemoveCasePinAt Pins1 1 = Outcome.done ThreeCaseNode) ∧
      (∃ Pins1, AddCasePinAfter ThreeCaseNode (some ThreeCaseNode_Cond1) true =
          Outcome.done Pins1 ∧
        WellFormed Pins1 (3 + 1) ∧ RemoveCasePinAt Pins1 (1 + 1) = Outcome.done ThreeCaseNode) :=
  ⟨by decide, by decide, by decide, by decide,
    (AddCasePin_then_Remove ThreeCaseNode 3 ThreeCaseNode_Cond1 1 (by decide) (by decide)
      (by decide) (by decide)).2.2.2.1,
    (AddCasePin_then_Remove ThreeCaseNode 3 ThreeCaseNode_Cond1 1 (by decide) (by decide)
      (by decide) (by decide)).2.2.2.2⟩

/-- Claim C10. On a well-formed node with `N >= 1` cases and for `0 <= i < N`,
`RemoveCasePinAt(i)` returns and `GetCasePinCount()` called afterwards returns `N - 1`. -/
theorem GetCasePinCount_after_remove (Pins : List UEdGraphPin) (N : Nat) (i : Int)
    (hwf : WellFormed Pins N) (h0 : 0 ≤ i) (hi : i < (N : Int)) :
    ∃ Pins1, RemoveCasePinAt Pins i = Outcome.done Pins1 ∧
      GetCasePinCount Pins1 = (N : Int) - 1 := by
  obtain ⟨X, C, E, rfl, h⟩ := (WellFormed_iff _ _).mp hwf
  obtain ⟨k, rfl⟩ := Int.eq_ofNat_of_zero_le h0
  obtain ⟨Ca, c, Cb, Ea, e, Eb, rfl, rfl, hs⟩ := h.splitAt k (by omega)
  refine ⟨_, RemoveCasePinAt_layout hs, ?_⟩
  obtain ⟨X1, C1, E1, e1, h1⟩ := (WellFormed_iff _ _).mp (WellFormed_removed hs)
  rw [e1, GetCasePinCount_layout h1]
  omega

/-- Witness of C10: removal of case 1 of the node with three cases leaves two cases. -/
theorem GetCasePinCount_after_remove_witness :
    WellFormed ThreeCaseNode 3 ∧
      ∃ Pins1, RemoveCasePinAt ThreeCaseNode 1 = Outcome.done Pins1 ∧
        GetCasePinCount Pins1 = (3 : Int) - 1 :=
  ⟨by decide, GetCasePinCount_after_remove ThreeCaseNode 3 1 (by decide) (by decide) (by decide)⟩

/-! ### Claims C11 to C20 -/

/-- Claim C11. On a well-formed node with `N` cases (`N = 0` included), `GetCasePinCount()`, the
downward scan of the candidate indices from `Pins.Num() / 2`, returns the same value as the
forward count of the output case-execution pins of the pin array, and that value is `N`. The
scan starts at `floor((3 + 2N) / 2)`, which is not below any case index `0 .. N-1`. -/
theorem GetCasePinCount_eq_forward_count (Pins : List UEdGraphPin) (N : Nat)
    (hwf : WellFormed Pins N) :
    GetCasePinCount Pins = (CountCaseExecPins Pins : Int) ∧
      GetCasePinCount Pins = (N : Int) ∧ CountCaseExecPins Pins = N ∧
      Pins.length / 2 = (3 + 2 * N) / 2 ∧
      GetCasePinCount Pins = GetCasePinCount_scan Pins ((3 + 2 * N) / 2 + 1) ∧
      ∀ i : Nat, i < N → i ≤ (3 + 2 * N) / 2 := by
  have hc := CountCaseExecPins_wellFormed Pins N hwf
  obtain ⟨X, C, E, rfl, h⟩ := (WellFormed_iff _ _).mp hwf
  have hl : (X ++ C ++ E).length = 3 + 2 * N := by
    rw [List.length_append, List.length_append, h.lenX, h.lenC, h.lenE, List.length_range]
    omega
  refine ⟨?_, GetCasePinCount_layout h, hc, ?_, ?_, ?_⟩
  · rw [hc]; exact GetCasePinCount_layout h
  · rw [hl]
  · unfold GetCasePinCount; rw [hl]
  · intro i hi; omega

/-- Claim C11 on `ThreeCaseNode` and on a new node without cases. -/
theorem GetCasePinCount_eq_forward_count_witness :
    WellFormed ThreeCaseNode 3 ∧ GetCasePinCount ThreeCaseNode = 3 ∧
      CountCaseExecPins ThreeCaseNode = 3 ∧
      WellFormed (AllocateDefaultPins []) 0 ∧
      GetCasePinCount (AllocateDefaultPins []) = (CountCaseExecPins (AllocateDefaultPins []) : Int) :=
  ⟨by decide, (GetCasePinCount_eq_forward_count ThreeCaseNode 3 (by decide)).2.1,
    (GetCasePinCount_eq_forward_count ThreeCaseNode 3 (by decide)).2.2.1, by decide,
    (GetCasePinCount_eq_forward_count (AllocateDefaultPins []) 0 (by decide)).1⟩

/-- Claim C12. In a well-formed node with `N` cases and for every case index `i < N`, let `c` be
the condition pin of case `i` (storage position `3 + i`, the pin that
`GetCaseCondPinFromCaseIndex(i)` returns) and `e` the execution pin of case `i` (storage position
`3 + N + i`, the pin that `GetCaseExecPinFromCaseIndex(i)` returns). `GetCasePinPair(e)` and
`GetCasePinPair(c)` both return, and return the same pair, with Key `c` and Value `e`: so
`GetCasePinPair(e).Value == e` and `GetCasePinPair(c).Key == c`. -/
theorem GetCasePinPair_both_directions (Pins : List UEdGraphPin) (N i : Nat)
    (hwf : WellFormed Pins N) (hi : i < N) :
    ∃ c e : UEdGraphPin, Pins[3 + i]? = some c ∧ Pins[3 + N + i]? = some e ∧
      PinSignature c = CondSig i ∧ PinSignature e = ExecSig i ∧
      GetCaseCondPinFromCaseIndex Pins i = some c ∧
      GetCaseExecPinFromCaseIndex Pins i = some e ∧
      GetCasePinPair Pins e = some (c, e) ∧ GetCasePinPair Pins c = some (c, e) := by
  obtain ⟨X, C, E, rfl, h⟩ := (WellFormed_iff _ _).mp hwf
  obtain ⟨Ca, c, Cb, Ea, e, Eb, rfl, rfl, hs⟩ := h.splitAt i hi
  have hk : i ∉ List.range i := by simp
  exact ⟨c, e, hs.positions.1, hs.positions.2, hs.condAt, hs.execAt,
    GetCaseCondPinFromCaseIndex_found X Ca Cb _ c _ i h.fixed hs.condBefore hs.condAt hk,
    GetCaseExecPinFromCaseIndex_found X _ Ea Eb e _ _ i h.fixed h.cond hs.execBefore hs.execAt hk,
    hs.pair e (Or.inr rfl), hs.pair c (Or.inl rfl)⟩

/-- Claim C12 on case 2 of `ThreeCaseNode`. -/
theorem GetCasePinPair_both_directions_witness :
    WellFormed ThreeCaseNode 3 ∧
      GetCasePinPair ThreeCaseNode ThreeCaseNode_Exec2 =
        some (ThreeCaseNode_Cond2, ThreeCaseNode_Exec2) ∧
      GetCasePinPair ThreeCaseNode ThreeCaseNode_Cond2 =
        some (ThreeCaseNode_Cond2, ThreeCaseNode_Exec2) ∧
      ∃ c e : UEdGraphPin, ThreeCaseNode[3 + 2]? = some c ∧ ThreeCaseNode[3 + 3 + 2]? = some e ∧
        PinSignature c = CondSig 2 ∧ PinSignature e = ExecSig 2 ∧
        GetCaseCondPinFromCaseIndex ThreeCaseNode (2 : Nat) = some c ∧
        GetCaseExecPinFromCaseIndex ThreeCaseNode (2 : Nat) = some e ∧
        GetCasePinPair ThreeCaseNode e = some (c, e) ∧
        GetCasePinPair ThreeCaseNode c = some (c, e) :=
  ⟨by decide, by decide, by decide,
    GetCasePinPair_both_directions ThreeCaseNode 3 2 (by decide) (by decide)⟩

/-- Claim C13, evaluated on the code. On a well-formed node with `N` cases, `RemoveFirstCasePin`
and `RemoveLastCasePin` run to completion, and leave a well-formed node with `N - 1` cases,
when `N >= 1`. On a well-formed node without cases (`N = 0`) both stop at the missing-pin check
of `RemoveCasePinAt`, called with index `0` and with index `-1`, and leave the pin array as it
was: there the claim does not hold of the code. -/
theorem RemoveFirstLast_completion (Pins : List UEdGraphPin) (N : Nat)
    (hwf : WellFormed Pins N) :
    (N = 0 → RemoveFirstCasePin Pins = Outcome.checkFailed Pins ∧
        RemoveLastCasePin Pins = Outcome.checkFailed Pins) ∧
      (0 < N → ∃ Pins1 Pins2, RemoveFirstCasePin Pins = Outcome.done Pins1 ∧
        RemoveLastCasePin Pins = Outcome.done Pins2 ∧
        WellFormed Pins1 (N - 1) ∧ WellFormed Pins2 (N - 1)) := by
  obtain ⟨X, C, E, rfl, h⟩ := (WellFormed_iff _ _).mp hwf
  have hN := GetCasePinCount_layout h
  constructor
  · intro h0
    subst h0
    refine ⟨(RemoveCasePinAt_out_of_range h 0 (by simp)).2.2, ?_⟩
    unfold RemoveLastCasePin
    rw [hN]
    exact (RemoveCasePinAt_out_of_range h _ (by simp)).2.2
  · intro hpos
    obtain ⟨P1, h1, w1⟩ := RemoveCasePinAt_in_range h 0 hpos
    obtain ⟨P2, h2, w2⟩ := RemoveCasePinAt_in_range h (N - 1) (by omega)
    refine ⟨P1, P2, h1, ?_, w1, w2⟩
    unfold RemoveLastCasePin
    rw [hN]
    have e : (N : Int) - 1 = ((N - 1 : Nat) : Int) := by omega
    rw [e]; exact h2

/-- The failing input of C13: the pin array of a new node after `AllocateDefaultPins`, which is
well-formed with no case. `RemoveFirstCasePin` and `RemoveLastCasePin` stop at the check. -/
theorem RemoveFirstLast_completion_witness :
    WellFormed (AllocateDefaultPins []) 0 ∧
      RemoveFirstCasePin (AllocateDefaultPins []) = Outcome.checkFailed (AllocateDefaultPins []) ∧
      RemoveLastCasePin (AllocateDefaultPins []) = Outcome.checkFailed (AllocateDefaultPins []) :=
  ⟨by decide, (RemoveFirstLast_completion (AllocateDefaultPins []) 0 (by decide)).1 rfl⟩

/-- Counterexample to C14 as stated. The trigger pin of `ThreeCaseNode` makes
`GetCaseIndexFromCasePin` and its two variants stop at a check instead of returning `-1`. The
output execution pin named `CaseExec_x`, whose name does not end in a decimal integer, gets the
index `0`, not `-1`. The pin named `MyCaseExec_0`, whose name is not of the form `CaseExec_<i>`,
is resolved by `GetCondPinFromExecPin` on `OneCaseNode` to the condition pin of case 0, not to
the null pin. The input execution pin named `Then` makes `GetCaseIndexFromCasePin` stop at the
direction check of `GetCaseIndexFromCaseExecPin`. -/
theorem lookup_miss_counterexample :
    (HasFixedName ThreeCaseNode_Trigger ∧ ThreeCaseNode_Trigger ∈ ThreeCaseNode ∧
      GetCaseIndexFromCasePin ThreeCaseNode_Trigger = none ∧
      GetCaseIndexFromCaseExecPin ThreeCaseNode_Trigger = none ∧
      GetCaseIndexFromCaseCondPin ThreeCaseNode_Trigger = none ∧
      GetCaseIndexFromCasePin ThreeCaseNode_Trigger ≠ some (-1)) ∧
    (NoDigitsPin.PinName = "CaseExec_x" ∧
      GetCaseIndexFromCasePin NoDigitsPin = some 0 ∧
      GetCaseIndexFromCaseExecPin NoDigitsPin = some 0) ∧
    (LateOccurrencePin.PinName = "MyCaseExec_0" ∧
      GetCondPinFromExecPin OneCaseNode LateOccurrencePin = some OneCaseNode_Cond0) ∧
    (ForeignInputExecPin.PinName = "Then" ∧ ¬ HasFixedName ForeignInputExecPin ∧
      GetCaseIndexFromCasePin ForeignInputExecPin = none) := by
  decide

/-- Claim C14, amended. On every node: for a pin carrying one of the three fixed names (trigger,
default, function pin; the names are compared as `FName` values, as `IsCasePin` compares them)
`GetCondPinFromExecPin` and `GetExecPinFromCondPin` return the null pin, and
`GetCaseIndexFromCasePin`, `GetCaseIndexFromCaseExecPin` and `GetCaseIndexFromCaseCondPin`
stop at a failed check. For every pin whose name does not contain `CaseExec`,
`GetCondPinFromExecPin` returns the null pin; for every pin whose name does not contain
`CaseCond`, `GetExecPinFromCondPin` returns the null pin. For an output execution pin that has
none of the fixed names and whose name does not contain `CaseExec_`, `GetCaseIndexFromCasePin`
and `GetCaseIndexFromCaseExecPin` return `-1` without a failed check; for an input pin of
another category that has none of the fixed names and whose name does not contain `CaseCond_`,
`GetCaseIndexFromCasePin` and `GetCaseIndexFromCaseCondPin` return `-1` without a failed
check. -/
theorem lookup_miss (Pins : List UEdGraphPin) (P : UEdGraphPin) :
    (HasFixedName P →
        GetCondPinFromExecPin Pins P = none ∧ GetExecPinFromCondPin Pins P = none ∧
        GetCaseIndexFromCasePin P = none ∧ GetCaseIndexFromCaseExecPin P = none ∧
        GetCaseIndexFromCaseCondPin P = none) ∧
      (Occurs CaseExecPinNamePrefix P.PinName = false → GetCondPinFromExecPin Pins P = none) ∧
      (Occurs CaseCondPinNamePrefix P.PinName = false → GetExecPinFromCondPin Pins P = none) ∧
      (¬ HasFixedName P → P.Direction = EGPD_Output → IsExecPin P = true →
        Occurs (CaseExecPinNamePrefix ++ "_") P.PinName = false →
        GetCaseIndexFromCasePin P = some (-1) ∧ GetCaseIndexFromCaseExecPin P = some (-1)) ∧
      (¬ HasFixedName P → P.Direction = EGPD_Input → IsExecPin P = false →
        Occurs (CaseCondPinNamePrefix ++ "_") P.PinName = false →
        GetCaseIndexFromCasePin P = some (-1) ∧ GetCaseIndexFromCaseCondPin P = some (-1)) := by
  refine ⟨?_, ?_, ?_, ?_, ?_⟩
  · intro h
    exact ⟨(fixed_name_lookups Pins P h).1, (fixed_name_lookups Pins P h).2,
      (fixed_name_index P h).1, (fixed_name_index P h).2.1, (fixed_name_index P h).2.2⟩
  · intro h
    unfold GetCondPinFromExecPin
    rw [Split_none _ _ h]
  · intro h
    unfold GetExecPinFromCondPin
    rw [Split_none _ _ h]
  · intro hf hd he ho
    have hc : IsCasePin P = true := by
      rcases hcp : IsCasePin P with _ | _
      · exact absurd ((IsCasePin_eq_false_iff P).mp hcp) hf
      · rfl
    have h1 : GetCaseIndexFromCaseExecPin P = some (-1) := by
      unfold GetCaseIndexFromCaseExecPin
      simp only [hd, hc, he, ne_eq, not_true_eq_false, if_false, Bool.not_true,
        Bool.false_eq_true]
      exact GetCaseIndexFromCasePin_Prefix_miss _ P hc ho
    refine ⟨?_, h1⟩
    unfold GetCaseIndexFromCasePin
    simp only [hc, he, Bool.not_true, Bool.false_eq_true, if_false, if_true]
    exact h1
  · intro hf hd he ho
    have hc : IsCasePin P = true := by
      rcases hcp : IsCasePin P with _ | _
      · exact absurd ((IsCasePin_eq_false_iff P).mp hcp) hf
      · rfl
    have h1 : GetCaseIndexFromCaseCondPin P = some (-1) := by
      unfold GetCaseIndexFromCaseCondPin
      simp only [hd, hc, he, ne_eq, not_true_eq_false, if_false, Bool.not_true,
        Bool.false_eq_true]
      exact GetCaseIndexFromCasePin_Prefix_miss _ P hc ho
    refine ⟨?_, h1⟩
    unfold GetCaseIndexFromCasePin
    simp only [hc, he, Bool.not_true, Bool.false_eq_true, if_false]
    exact h1

/-- Claim C14, amended, on the trigger pin of `ThreeCaseNode`, on two pins of other nodes,
named `Then` (output, execution) and `Condition` (input, boolean), and on the output execution
pin named `Execute`, which carries the name of the trigger pin. -/
theorem lookup_miss_witness :
    (GetCondPinFromExecPin ThreeCaseNode ThreeCaseNode_Trigger = none ∧
      GetExecPinFromCondPin ThreeCaseNode ThreeCaseNode_Trigger = none ∧
      GetCaseIndexFromCasePin ThreeCaseNode_Trigger = none ∧
      GetCaseIndexFromCaseExecPin ThreeCaseNode_Trigger = none ∧
      GetCaseIndexFromCaseCondPin ThreeCaseNode_Trigger = none) ∧
      GetCondPinFromExecPin ThreeCaseNode ForeignOutputExecPin = none ∧
      GetExecPinFromCondPin ThreeCaseNode ForeignCondPin = none ∧
      (GetCaseIndexFromCasePin ForeignOutputExecPin = some (-1) ∧
        GetCaseIndexFromCaseExecPin ForeignOutputExecPin = some (-1)) ∧
      (GetCaseIndexFromCasePin ForeignCondPin = some (-1) ∧
        GetCaseIndexFromCaseCondPin ForeignCondPin = some (-1)) ∧
      (GetCondPinFromExecPin ThreeCaseNode ExecuteNamedPin = none ∧
        GetExecPinFromCondPin ThreeCaseNode ExecuteNamedPin = none ∧
        GetCaseIndexFromCasePin ExecuteNamedPin = none ∧
        GetCaseIndexFromCaseExecPin ExecuteNamedPin = none ∧
        GetCaseIndexFromCaseCondPin ExecuteNamedPin = none) :=
  ⟨(lookup_miss ThreeCaseNode ThreeCaseNode_Trigger).1 (by decide),
    (lookup_miss ThreeCaseNode ForeignOutputExecPin).2.1 (by decide),
    (lookup_miss ThreeCaseNode ForeignCondPin).2.2.1 (by decide),
    (lookup_miss ThreeCaseNode ForeignOutputExecPin).2.2.2.1 (by decide) rfl (by decide)
      (by decide),
    (lookup_miss ThreeCaseNode ForeignCondPin).2.2.2.2 (by decide) rfl (by decide) (by decide),
    (lookup_miss ThreeCaseNode ExecuteNamedPin).1 (by decide)⟩

/-- Claim C15. On every node, `RemoveInputPin`, `AddCasePinBefore` and `AddCasePinAfter` called
with a null pin return normally and leave the pin array as it was: the same pin records (pins,
order, names, display names, links). -/
theorem null_pin_noop (Pins : List UEdGraphPin) (OwnerNode : Bool) :
    RemoveInputPin Pins none OwnerNode = Outcome.done Pins ∧
      AddCasePinBefore Pins none OwnerNode = Outcome.done Pins ∧
      AddCasePinAfter Pins none OwnerNode = Outcome.done Pins :=
  ⟨rfl, rfl, rfl⟩

/-- Claim C16. `AllocateDefaultPins` on a node with an empty pin array produces exactly three
pins, three different objects, in this order: the trigger pin (`execute`, input, exec), the
default pin (`DefaultExec`, output, exec, display name `Default`) and the function pin
(`Not_PreBool`, input, object), all without links. No case pair is created: the node is
well-formed with `N = 0` and `GetCasePinCount()` returns `0`. -/
theorem AllocateDefaultPins_three_pins :
    (AllocateDefaultPins []).map PinState =
        [(PN_Execute, "", EGPD_Input, PC_Exec, []),
         (DefaultExecPinName, "Default", EGPD_Output, PC_Exec, []),
         (ConditionPreProcessFuncName, "", EGPD_Input, PC_Object, [])] ∧
      ((AllocateDefaultPins []).map (fun P => P.PinId)).Nodup ∧
      (AllocateDefaultPins []).filter IsCasePin = [] ∧
      WellFormed (AllocateDefaultPins []) 0 ∧ GetCasePinCount (AllocateDefaultPins []) = 0 := by
  decide

/-- Claim C17. On a well-formed node with `N` cases and for `0 <= i <= N`, `AddCasePinPair(i)`
leaves an array of `3 + 2N + 2` pins in which the new condition pin (the Key of the returned
pair: `CaseCond_i`, display name `Case i`, input, boolean, no link) is at storage position
`3 + i` and the new execution pin (the Value: `CaseExec_i`, display name `Case i`, output, exec,
no link) is at storage position `3 + N + i + 1`. Nothing is renumbered: the array without these
two positions is the original array, every other pin with its name, display name and links and
in the original order. -/
theorem AddCasePinPair_positions (Pins : List UEdGraphPin) (N i : Nat)
    (hwf : WellFormed Pins N) (hi : i ≤ N) :
    (AddCasePinPair Pins i).1.length = 3 + 2 * N + 2 ∧
      (AddCasePinPair Pins i).1[3 + i]? = some (AddCasePinPair Pins i).2.1 ∧
      (AddCasePinPair Pins i).1[3 + N + i + 1]? = some (AddCasePinPair Pins i).2.2 ∧
      PinState (AddCasePinPair Pins i).2.1 =
        (GetCasePinName CaseCondPinNamePrefix i, GetCasePinFriendlyName "Case" i,
          EGPD_Input, PC_Boolean, []) ∧
      PinState (AddCasePinPair Pins i).2.2 =
        (GetCasePinName CaseExecPinNamePrefix i, GetCasePinFriendlyName "Case" i,
          EGPD_Output, PC_Exec, []) ∧
      ((AddCasePinPair Pins i).1.eraseIdx (3 + N + i + 1)).eraseIdx (3 + i) = Pins := by
  obtain ⟨X, C, E, rfl, h⟩ := (WellFormed_iff _ _).mp hwf
  have hlenX := h.lenX
  have hlenC := h.lenC
  have hlenE := h.lenE
  rw [List.length_range] at hlenC hlenE
  have hCa : (C.take i).length = i := by rw [List.length_take]; omega
  have hEa : (E.take i).length = i := by rw [List.length_take]; omega
  have hC : C = C.take i ++ C.drop i := (List.take_append_drop i C).symm
  have hE : E = E.take i ++ E.drop i := (List.take_append_drop i E).symm
  generalize C.take i = Ca at hCa hC
  generalize C.drop i = Cb at hC
  generalize E.take i = Ea at hEa hE
  generalize E.drop i = Eb at hE
  subst hC hE
  rw [List.length_append] at hlenC hlenE
  have hk : Ca.length = Ea.length := by omega
  have hl := AddCasePinPair_layout h hk
  have hp := AddCasePinPair_pair h hk
  rw [hCa] at hl hp
  rw [hl, hp]
  have hnc : NewCondPin (X ++ (Ca ++ Cb) ++ (Ea ++ Eb)) Ca.length = InsertedCond X Ca Cb Ea Eb := rfl
  have hne : NewExecPin (X ++ (Ca ++ NewCondPin (X ++ (Ca ++ Cb) ++ (Ea ++ Eb)) Ca.length :: Cb)
      ++ (Ea ++ Eb)) Ca.length = InsertedExec X Ca Cb Ea Eb := rfl
  rw [hCa] at hnc hne
  rw [hne, hnc]
  have e1 : X ++ (Ca ++ InsertedCond X Ca Cb Ea Eb :: Cb) ++ (Ea ++ InsertedExec X Ca Cb Ea Eb :: Eb)
      = (X ++ (Ca ++ InsertedCond X Ca Cb Ea Eb :: Cb) ++ Ea) ++ InsertedExec X Ca Cb Ea Eb :: Eb := by
    simp
  have e2 : X ++ (Ca ++ InsertedCond X Ca Cb Ea Eb :: Cb) ++ (Ea ++ InsertedExec X Ca Cb Ea Eb :: Eb)
      = (X ++ Ca) ++ InsertedCond X Ca Cb Ea Eb :: (Cb ++ (Ea ++ InsertedExec X Ca Cb Ea Eb :: Eb)) := by
    simp
  have e3 : X ++ (Ca ++ InsertedCond X Ca Cb Ea Eb :: Cb) ++ Ea ++ Eb
      = (X ++ Ca) ++ InsertedCond X Ca Cb Ea Eb :: (Cb ++ (Ea ++ Eb)) := by
    simp
  have l1 : 3 + i = (X ++ Ca).length := by rw [List.length_append]; omega
  have l2 : 3 + N + i + 1 = (X ++ (Ca ++ InsertedCond X Ca Cb Ea Eb :: Cb) ++ Ea).length := by
    simp only [List.length_append, List.length_cons]; omega
  refine ⟨?_, ?_, ?_, ?_, ?_, ?_⟩
  · simp only [List.length_append, List.length_cons]; omega
  · rw [e2]; exact getElem?_middle _ _ _ _ l1
  · rw [e1]; exact getElem?_middle _ _ _ _ l2
  · simp [PinState, InsertedCond, NewCondPin, CreatedPin, hCa, CaseCondPinFriendlyNamePrefix]
  · simp [PinState, InsertedExec, NewExecPin, CreatedPin, hCa, CaseExecPinFriendlyNamePrefix]
  · rw [e1, eraseIdx_middle _ _ _ _ l2, e3, eraseIdx_middle _ _ _ _ l1]
    simp

/-- Claim C17 on `ThreeCaseNode` with `i = 1`, and on a new node without cases with `i = 0`,
where both requested positions are past the end of the array. -/
theorem AddCasePinPair_positions_witness :
    WellFormed ThreeCaseNode 3 ∧
      ((AddCasePinPair ThreeCaseNode 1).1.map (fun P => P.PinName))[3 + 1]? =
        some "CaseCond_1" ∧
      ((AddCasePinPair ThreeCaseNode 1).1.map (fun P => P.PinName))[3 + 3 + 1 + 1]? =
        some "CaseExec_1" ∧
      ((AddCasePinPair ThreeCaseNode 1).1.eraseIdx (3 + 3 + 1 + 1)).eraseIdx (3 + 1) =
        ThreeCaseNode ∧
      (AddCasePinPair (AllocateDefaultPins []) 0).1.length = 3 + 2 * 0 + 2 :=
  ⟨by decide, by decide, by decide,
    (AddCasePinPair_positions ThreeCaseNode 3 1 (by decide) (by decide)).2.2.2.2.2,
    (AddCasePinPair_positions (AllocateDefaultPins []) 0 0 (by decide) (by decide)).1⟩

/-- Claim C18. For every integer `i` with `0 <= i < 2^31`: an output exec pin named
`GetCasePinName("CaseExec", i)` is resolved by `GetCaseIndexFromCaseExecPin` to `i`, an input
boolean pin named `GetCasePinName("CaseCond", i)` is resolved by `GetCaseIndexFromCaseCondPin`
to `i`, `GetCaseIndexFromCasePin` gives `i` for both, no check fails, and the result is not the
sentinel `-1`. -/
theorem case_index_round_trip (i : Int) (P : UEdGraphPin) (h0 : 0 ≤ i) (h1 : i < 2 ^ 31) :
    (P.PinName = GetCasePinName CaseExecPinNamePrefix i → P.Direction = EGPD_Output →
        P.PinCategory = PC_Exec →
        GetCaseIndexFromCaseExecPin P = some i ∧ GetCaseIndexFromCasePin P = some i) ∧
      (P.PinName = GetCasePinName CaseCondPinNamePrefix i → P.Direction = EGPD_Input →
        P.PinCategory = PC_Boolean →
        GetCaseIndexFromCaseCondPin P = some i ∧ GetCaseIndexFromCasePin P = some i) ∧
      i ≠ -1 := by
  obtain ⟨n, rfl⟩ := Int.eq_ofNat_of_zero_le h0
  refine ⟨?_, ?_, ?_⟩
  · intro hn hd hc
    have hs : PinSignature P = ExecSig n := by
      unfold PinSignature ExecSig; rw [hn, hd, hc]
    exact ⟨GetCaseIndexFromCaseExecPin_exec hs, GetCaseIndexFromCasePin_exec hs⟩
  · intro hn hd hc
    have hs : PinSignature P = CondSig n := by
      unfold PinSignature CondSig; rw [hn, hd, hc]
    exact ⟨GetCaseIndexFromCaseCondPin_cond hs, GetCaseIndexFromCasePin_cond hs⟩
  · omega

/-- Claim C18 on the pins `CaseExec_2` and `CaseCond_2` of `ThreeCaseNode`. -/
theorem case_index_round_trip_witness :
    (GetCaseIndexFromCaseExecPin ThreeCaseNode_Exec2 = some 2 ∧
      GetCaseIndexFromCasePin ThreeCaseNode_Exec2 = some 2) ∧
    (GetCaseIndexFromCaseCondPin ThreeCaseNode_Cond2 = some 2 ∧
      GetCaseIndexFromCasePin ThreeCaseNode_Cond2 = some 2) :=
  ⟨(case_index_round_trip 2 ThreeCaseNode_Exec2 (by decide) (by decide)).1 (by decide) rfl rfl,
    (case_index_round_trip 2 ThreeCaseNode_Cond2 (by decide) (by decide)).2.1 (by decide) rfl
      rfl⟩

/-- Claim C19. On a well-formed node with `N` cases, `RemoveCasePinAt(i)` stops at a failed check
if and only if `i` is outside `0 .. N-1` (`i = -1` and `i = N` included). When it stops, neither
the execution pin nor the condition pin of index `i` was found, no pin has been removed or
renamed, and the pin array is the one before the call. For `i` in `0 .. N-1` it returns. -/
theorem RemoveCasePinAt_check (Pins : List UEdGraphPin) (N : Nat) (i : Int)
    (hwf : WellFormed Pins N) :
    ((∃ Pins1, RemoveCasePinAt Pins i = Outcome.checkFailed Pins1) ↔ ¬ (0 ≤ i ∧ i < (N : Int))) ∧
      (∀ Pins1, RemoveCasePinAt Pins i = Outcome.checkFailed Pins1 → Pins1 = Pins) ∧
      (¬ (0 ≤ i ∧ i < (N : Int)) →
        GetCaseExecPinFromCaseIndex Pins i = none ∧ GetCaseCondPinFromCaseIndex Pins i = none) ∧
      (0 ≤ i ∧ i < (N : Int) → ∃ Pins1, RemoveCasePinAt Pins i = Outcome.done Pins1) := by
  obtain ⟨X, C, E, rfl, h⟩ := (WellFormed_iff _ _).mp hwf
  have hin : 0 ≤ i ∧ i < (N : Int) →
      ∃ Pins1, RemoveCasePinAt (X ++ C ++ E) i = Outcome.done Pins1 := by
    rintro ⟨h0, h1⟩
    obtain ⟨k, rfl⟩ := Int.eq_ofNat_of_zero_le h0
    obtain ⟨P1, hP, _⟩ := RemoveCasePinAt_in_range h k (by omega)
    exact ⟨P1, hP⟩
  refine ⟨⟨?_, ?_⟩, ?_, ?_, hin⟩
  · rintro ⟨P1, hP⟩ hr
    obtain ⟨P2, hP2⟩ := hin hr
    rw [hP2] at hP
    exact Outcome.noConfusion hP
  · intro hr
    exact ⟨_, (RemoveCasePinAt_out_of_range h i hr).2.2⟩
  · intro P1 hP
    by_cases hr : 0 ≤ i ∧ i < (N : Int)
    · obtain ⟨P2, hP2⟩ := hin hr
      rw [hP2] at hP
      exact Outcome.noConfusion hP
    · rw [(RemoveCasePinAt_out_of_range h i hr).2.2] at hP
      exact (Outcome.checkFailed.inj hP).symm
  · intro hr
    exact ⟨(RemoveCasePinAt_out_of_range h i hr).1, (RemoveCasePinAt_out_of_range h i hr).2.1⟩

/-- Claim C19 on `ThreeCaseNode`: the indices `3` and `-1` stop at the check with the array
unchanged, the index `2` is removed. -/
theorem RemoveCasePinAt_check_witness :
    WellFormed ThreeCaseNode 3 ∧
      RemoveCasePinAt ThreeCaseNode 3 = Outcome.checkFailed ThreeCaseNode ∧
      RemoveCasePinAt ThreeCaseNode (-1) = Outcome.checkFailed ThreeCaseNode ∧
      ∃ Pins1, RemoveCasePinAt ThreeCaseNode 2 = Outcome.done Pins1 := by
  have h := RemoveCasePinAt_check ThreeCaseNode 3
  refine ⟨by decide, ?_, ?_, (h 2 (by decide)).2.2.2 (by decide)⟩
  · obtain ⟨P, hP⟩ := (h 3 (by decide)).1.mpr (by decide)
    rw [hP, (h 3 (by decide)).2.1 P hP]
  · obtain ⟨P, hP⟩ := (h (-1) (by decide)).1.mpr (by decide)
    rw [hP, (h (-1) (by decide)).2.1 P hP]

/-- Counterexample to C20 as stated. The pin `Condition` of a node of another class is not a
pin of `ThreeCaseNode`, and the three operations called with it return normally (the cast of
its owning node gives null and nothing is done). The condition pin `CaseCond_1` of another
MultiBranch node is not a pin of `ThreeCaseNode` either, and `RemoveInputPin` called with it
returns normally after removing case 1 of `ThreeCaseNode`. So the operations complete normally
on non-null pin arguments that are no case pins of the node. -/
theorem edit_on_fixed_pin_counterexample :
    WellFormed ThreeCaseNode 3 ∧
      (ForeignCondPin ∉ ThreeCaseNode ∧
        RemoveInputPin ThreeCaseNode (some ForeignCondPin) false = Outcome.done ThreeCaseNode ∧
        AddCasePinBefore ThreeCaseNode (some ForeignCondPin) false =
          Outcome.done ThreeCaseNode ∧
        AddCasePinAfter ThreeCaseNode (some ForeignCondPin) false =
          Outcome.done ThreeCaseNode) ∧
      (OtherNode_Cond1 ∉ ThreeCaseNode ∧
        RemoveInputPin ThreeCaseNode (some OtherNode_Cond1) true =
          RemoveCasePinAt ThreeCaseNode 1 ∧
        ∃ Pins1, RemoveInputPin ThreeCaseNode (some OtherNode_Cond1) true =
          Outcome.done Pins1 ∧ Pins1.length = 7) := by
  refine ⟨by decide, by decide, ⟨by decide, by decide, ?_⟩⟩
  exact ⟨(WithoutCase ThreeCaseNode 1).map (ShiftedDown 1), by decide, by decide⟩

/-- Claim C20, amended. On a well-formed node: for a pin `P` of the node, `P` is one of the
three fixed pins (the first three of the array) exactly when it is not a case pin; called with
one of the three fixed pins, `RemoveInputPin`, `AddCasePinBefore` and `AddCasePinAfter` stop at
a failed check with the pin array as it was, no pin added, removed or renamed; called with a
pin of the node, each of the three returns normally if and only if that pin is a case pin.
Called with any non-null pin whose owning node is not of this class (the cast gives null), the
three return normally and leave the pin array as it was. -/
theorem edit_on_fixed_pin (Pins : List UEdGraphPin) (N : Nat) (P : UEdGraphPin)
    (hwf : WellFormed Pins N) :
    (P ∈ Pins →
      (P ∈ Pins.take 3 ↔ IsCasePin P = false) ∧
      (P ∈ Pins.take 3 →
        RemoveInputPin Pins (some P) true = Outcome.checkFailed Pins ∧
        AddCasePinBefore Pins (some P) true = Outcome.checkFailed Pins ∧
        AddCasePinAfter Pins (some P) true = Outcome.checkFailed Pins) ∧
      ((∃ Pins1, RemoveInputPin Pins (some P) true = Outcome.done Pins1) ↔
        IsCasePin P = true) ∧
      ((∃ Pins1, AddCasePinBefore Pins (some P) true = Outcome.done Pins1) ↔
        IsCasePin P = true) ∧
      ((∃ Pins1, AddCasePinAfter Pins (some P) true = Outcome.done Pins1) ↔
        IsCasePin P = true)) ∧
    (RemoveInputPin Pins (some P) false = Outcome.done Pins ∧
      AddCasePinBefore Pins (some P) false = Outcome.done Pins ∧
      AddCasePinAfter Pins (some P) false = Outcome.done Pins) := by
  refine ⟨?_, rfl, rfl, rfl⟩
  intro hP
  have hdone : IsCasePin P = true →
      (∃ Pins1, RemoveInputPin Pins (some P) true = Outcome.done Pins1) ∧
      (∃ Pins1, AddCasePinBefore Pins (some P) true = Outcome.done Pins1) ∧
      (∃ Pins1, AddCasePinAfter Pins (some P) true = Outcome.done Pins1) := by
    intro hc
    obtain ⟨P1, _, h1, _⟩ := PinOp.preserves Pins N hwf (PinOp.removeInput P) ⟨hP, hc⟩
    obtain ⟨P2, _, h2, _⟩ := PinOp.preserves Pins N hwf (PinOp.addBefore P) ⟨hP, hc⟩
    obtain ⟨P3, _, h3, _⟩ := PinOp.preserves Pins N hwf (PinOp.addAfter P) ⟨hP, hc⟩
    exact ⟨⟨P1, h1⟩, ⟨P2, h2⟩, ⟨P3, h3⟩⟩
  obtain ⟨X, C, E, rfl, h⟩ := (WellFormed_iff _ _).mp hwf
  rw [take_fixed h]
  have hfix : P ∈ X → IsCasePin P = false := fun hx => fixed_not_case (mem_fixed h.fixed hx)
  have hfail : P ∈ X →
      RemoveInputPin (X ++ C ++ E) (some P) true = Outcome.checkFailed (X ++ C ++ E) ∧
      AddCasePinBefore (X ++ C ++ E) (some P) true = Outcome.checkFailed (X ++ C ++ E) ∧
      AddCasePinAfter (X ++ C ++ E) (some P) true = Outcome.checkFailed (X ++ C ++ E) := by
    intro hx
    have hs := mem_fixed h.fixed hx
    refine ⟨?_, ?_, ?_⟩
    · unfold RemoveInputPin
      simp only [if_true, GetCaseIndexFromCasePin_fixed hs]
    · unfold AddCasePinBefore AddCasePinNextTo
      simp only [if_true, GetCasePinPair_fixed _ hs]
    · unfold AddCasePinAfter AddCasePinNextTo
      simp only [if_true, GetCasePinPair_fixed _ hs]
  have hcase : IsCasePin P = false → P ∈ X := by
    intro hc
    rcases List.mem_append.mp hP with hp | hp
    · rcases List.mem_append.mp hp with hp | hp
      · exact hp
      · obtain ⟨j, _, e⟩ := mem_sig h.cond hp
        rw [IsCasePin_cond e] at hc
        exact absurd hc (by simp)
    · obtain ⟨j, _, e⟩ := mem_sig h.exec hp
      rw [IsCasePin_exec e] at hc
      exact absurd hc (by simp)
  have hnot : ∀ (o : Outcome) (Q : List UEdGraphPin), o = Outcome.checkFailed Q →
      ¬ ∃ Pins1, o = Outcome.done Pins1 := by
    rintro o Q rfl ⟨P1, hP1⟩
    exact Outcome.noConfusion hP1
  have hb : IsCasePin P = true ∨ IsCasePin P = false := by
    cases IsCasePin P <;> simp
  refine ⟨⟨hfix, hcase⟩, hfail, ⟨?_, fun hc => (hdone hc).1⟩, ⟨?_, fun hc => (hdone hc).2.1⟩,
    ⟨?_, fun hc => (hdone hc).2.2⟩⟩
  · intro hd
    rcases hb with hc | hc
    · exact hc
    · exact absurd hd (hnot _ _ (hfail (hcase hc)).1)
  · intro hd
    rcases hb with hc | hc
    · exact hc
    · exact absurd hd (hnot _ _ (hfail (hcase hc)).2.1)
  · intro hd
    rcases hb with hc | hc
    · exact hc
    · exact absurd hd (hnot _ _ (hfail (hcase hc)).2.2)

/-- Claim C20, amended, on `ThreeCaseNode`: its trigger pin stops the three operations at a
check, its condition pin of case 1 lets `RemoveInputPin` return, and a pin of a node of another
class leaves the array as it was. -/
theorem edit_on_fixed_pin_witness :
    WellFormed ThreeCaseNode 3 ∧ ThreeCaseNode_Trigger ∈ ThreeCaseNode ∧
      (RemoveInputPin ThreeCaseNode (some ThreeCaseNode_Trigger) true =
          Outcome.checkFailed ThreeCaseNode ∧
        AddCasePinBefore ThreeCaseNode (some ThreeCaseNode_Trigger) true =
          Outcome.checkFailed ThreeCaseNode ∧
        AddCasePinAfter ThreeCaseNode (some ThreeCaseNode_Trigger) true =
          Outcome.checkFailed ThreeCaseNode) ∧
      (∃ Pins1, RemoveInputPin ThreeCaseNode (some ThreeCaseNode_Cond1) true =
        Outcome.done Pins1) ∧
      (RemoveInputPin ThreeCaseNode (some ForeignCondPin) false = Outcome.done ThreeCaseNode ∧
        AddCasePinBefore ThreeCaseNode (some ForeignCondPin) false =
          Outcome.done ThreeCaseNode ∧
        AddCasePinAfter ThreeCaseNode (some ForeignCondPin) false =
          Outcome.done ThreeCaseNode) :=
  ⟨by decide, by decide,
    ((edit_on_fixed_pin ThreeCaseNode 3 ThreeCaseNode_Trigger (by decide)).1 (by decide)).2.1
      (by decide),
    ((edit_on_fixed_pin ThreeCaseNode 3 ThreeCaseNode_Cond1 (by decide)).1
      (by decide)).2.2.1.mpr (by decide),
    (edit_on_fixed_pin ThreeCaseNode 3 ForeignCondPin (by decide)).2⟩

/-! ### Claims C21 and C22 -/

/-- Claim C21. On a well-formed node with `N` cases (`N = 0` included), `AddInputPin` returns and
appends one case at index `N`. The resulting array is the original one with a new condition pin
`c` put after the first `3 + N` pins and a new execution pin `e` put at the end, so every
pre-existing pin keeps its name, display name, links and relative order. The new pins are two
objects that the node did not have, `CaseCond_N` (input, boolean) and `CaseExec_N` (output,
exec), both with the display name `Case N` and without links. The result is well-formed with
`N + 1` cases and `GetCasePinCount()` then returns `N + 1`. The array has `3 + 2N` pins before
the call; for `N = 0` the requested positions `3` and `4` are past its end and both pins are
appended. -/
theorem AddInputPin_appends (Pins : List UEdGraphPin) (N : Nat) (hwf : WellFormed Pins N) :
    ∃ (Pins1 : List UEdGraphPin) (c e : UEdGraphPin),
      AddInputPin Pins = Outcome.done Pins1 ∧
      Pins1 = Pins.take (3 + N) ++ c :: (Pins.drop (3 + N) ++ [e]) ∧
      PinState c = (GetCasePinName CaseCondPinNamePrefix N, GetCasePinFriendlyName "Case" N,
        EGPD_Input, PC_Boolean, []) ∧
      PinState e = (GetCasePinName CaseExecPinNamePrefix N, GetCasePinFriendlyName "Case" N,
        EGPD_Output, PC_Exec, []) ∧
      c.PinId ∉ Pins.map (fun P => P.PinId) ∧ e.PinId ∉ Pins.map (fun P => P.PinId) ∧
      WellFormed Pins1 (N + 1) ∧ GetCasePinCount Pins1 = (N : Int) + 1 ∧
      Pins.length = 3 + 2 * N ∧ (N = 0 → Pins1 = Pins ++ [c, e]) := by
  obtain ⟨X, C, E, rfl, h⟩ := (WellFormed_iff _ _).mp hwf
  have hlC : C.length = N := by rw [h.lenC, List.length_range]
  have hlE : E.length = N := by rw [h.lenE, List.length_range]
  have hw := WellFormed_AddInputPin h
  have hc := InsertedCond_fresh X C [] E []
  have he := InsertedExec_fresh X C [] E []
  simp only [List.append_nil] at hc he
  refine ⟨_, InsertedCond X C [] E [], InsertedExec X C [] E [], AddInputPin_layout h, ?_, ?_, ?_,
    hc, ?_, hw, ?_, ?_, ?_⟩
  · rw [(take_drop_cases h).1, (take_drop_cases h).2]; simp
  · simp [PinState, InsertedCond, NewCondPin, CreatedPin, hlC, CaseCondPinFriendlyNamePrefix]
  · simp [PinState, InsertedExec, NewExecPin, CreatedPin, hlC, CaseExecPinFriendlyNamePrefix]
  · intro hm
    apply he
    have e1 : X ++ (C ++ [InsertedCond X C [] E []]) ++ E =
        (X ++ C) ++ InsertedCond X C [] E [] :: E := by simp
    rw [e1, Ids_append, Ids_cons]
    have : (InsertedExec X C [] E []).PinId ∈ Ids (X ++ C ++ E) := hm
    rw [Ids_append] at this
    rcases List.mem_append.mp this with h1 | h1
    · exact List.mem_append_left _ h1
    · exact List.mem_append_right _ (List.mem_cons_of_mem _ h1)
  · obtain ⟨X1, C1, E1, e1, h1⟩ := (WellFormed_iff _ _).mp hw
    rw [e1, GetCasePinCount_layout h1]
    push_cast; rfl
  · rw [List.length_append, List.length_append, h.lenX, hlC, hlE]; omega
  · intro h0
    subst h0
    have hC : C = [] := List.length_eq_zero.mp hlC
    have hE : E = [] := List.length_eq_zero.mp hlE
    subst hC hE
    simp

/-- Claim C21 on `ThreeCaseNode`, and on a new node without cases, where the result of
`AddInputPin` is `OneCaseNode`. -/
theorem AddInputPin_appends_witness :
    WellFormed ThreeCaseNode 3 ∧
      (∃ (Pins1 : List UEdGraphPin) (c e : UEdGraphPin),
        AddInputPin ThreeCaseNode = Outcome.done Pins1 ∧
        Pins1 = ThreeCaseNode.take (3 + 3) ++ c :: (ThreeCaseNode.drop (3 + 3) ++ [e]) ∧
        PinState c = (GetCasePinName CaseCondPinNamePrefix (3 : Nat),
          GetCasePinFriendlyName "Case" (3 : Nat), EGPD_Input, PC_Boolean, []) ∧
        PinState e = (GetCasePinName CaseExecPinNamePrefix (3 : Nat),
          GetCasePinFriendlyName "Case" (3 : Nat), EGPD_Output, PC_Exec, []) ∧
        c.PinId ∉ ThreeCaseNode.map (fun P => P.PinId) ∧
        e.PinId ∉ ThreeCaseNode.map (fun P => P.PinId) ∧
        WellFormed Pins1 (3 + 1) ∧ GetCasePinCount Pins1 = ((3 : Nat) : Int) + 1 ∧
        ThreeCaseNode.length = 3 + 2 * 3 ∧ (3 = 0 → Pins1 = ThreeCaseNode ++ [c, e])) ∧
      AddInputPin (AllocateDefaultPins []) = Outcome.done OneCaseNode ∧
      GetCasePinCount OneCaseNode = 1 :=
  ⟨by decide, AddInputPin_appends ThreeCaseNode 3 (by decide), by decide, by decide⟩

/-- Claim C22. On a well-formed node with `N` cases: when `p` is a pin of case `k` and `q` a pin
of case `k + 1` of the node (there are such pins exactly when `N >= 2` and `0 <= k < N - 1`),
`AddCasePinAfter(p)` and `AddCasePinBefore(q)` both return and leave the same pin array, pin
record for pin record: the same pre-existing pin objects with the same names, display names and
links at the same positions, and the same new pair; that array is the original one after an
insertion at index `k + 1`. When `p` is a pin of the last case `N - 1` (so `N >= 1`),
`AddCasePinAfter(p)` and `AddInputPin()` both return and leave the same pin array. -/
theorem AddCasePinAfter_eq_neighbour (Pins : List UEdGraphPin) (N : Nat)
    (hwf : WellFormed Pins N) :
    (∀ (k : Nat) (p q : UEdGraphPin), p ∈ Pins → q ∈ Pins →
        GetCaseIndexFromCasePin p = some (k : Int) →
        GetCaseIndexFromCasePin q = some ((k : Int) + 1) →
        2 ≤ N ∧ k < N - 1 ∧
        ∃ Pins1, AddCasePinAfter Pins (some p) true = Outcome.done Pins1 ∧
          AddCasePinBefore Pins (some q) true = Outcome.done Pins1 ∧
          IsInsertionAt Pins Pins1 ((k : Int) + 1)) ∧
      (∀ p : UEdGraphPin, p ∈ Pins → GetCaseIndexFromCasePin p = some ((N : Int) - 1) →
        1 ≤ N ∧
        ∃ Pins1, AddCasePinAfter Pins (some p) true = Outcome.done Pins1 ∧
          AddInputPin Pins = Outcome.done Pins1) := by
  obtain ⟨X, C, E, rfl, h⟩ := (WellFormed_iff _ _).mp hwf
  constructor
  · intro k p q hp hq hkp hkq
    obtain ⟨Ca, c, Cb, Ea, e, Eb, hlt, hC, hE, hs, hpc⟩ := h.place p k hp hkp
    obtain ⟨Ca', c', Cb', Ea', e', Eb', hlt', hC', hE', hs', hqc⟩ :=
      h.place q (k + 1) hq (by push_cast; exact hkq)
    refine ⟨by omega, by omega, InsertedAt X C E (k + 1), ?_, ?_, ?_⟩
    · rw [hC, hE]; exact AddCasePinAfter_InsertedAt hs p hpc
    · rw [hC', hE']; exact AddCasePinBefore_InsertedAt hs' q hqc
    · have := IsInsertionAt_InsertedAt h (k + 1) (by omega)
      push_cast at this
      exact this
  · intro p hp hk
    have hN : 1 ≤ N := by
      rcases Nat.eq_zero_or_pos N with h0 | h0
      · subst h0
        obtain ⟨k', Ca, c, Cb, Ea, e, Eb, hlt, _⟩ := h.case_pin p hp (IsCasePin_of_index hk)
        omega
      · exact h0
    have hk' : GetCaseIndexFromCasePin p = some (((N - 1 : Nat) : Int)) := by
      rw [hk]; congr 1; omega
    obtain ⟨Ca, c, Cb, Ea, e, Eb, hlt, hC, hE, hs, hpc⟩ := h.place p (N - 1) hp hk'
    refine ⟨hN, InsertedAt X C E N, ?_, AddInputPin_InsertedAt h⟩
    have := AddCasePinAfter_InsertedAt hs p hpc
    rw [← hC, ← hE, show N - 1 + 1 = N by omega] at this
    exact this

/-- Claim C22 on `ThreeCaseNode`: after its condition pin of case 1 and before its condition pin
of case 2; after its execution pin of the last case 2 and `AddInputPin`. -/
theorem AddCasePinAfter_eq_neighbour_witness :
    WellFormed ThreeCaseNode 3 ∧
      (∃ Pins1, AddCasePinAfter ThreeCaseNode (some ThreeCaseNode_Cond1) true =
          Outcome.done Pins1 ∧
        AddCasePinBefore ThreeCaseNode (some ThreeCaseNode_Cond2) true = Outcome.done Pins1 ∧
        IsInsertionAt ThreeCaseNode Pins1 (((1 : Nat) : Int) + 1)) ∧
      (∃ Pins1, AddCasePinAfter ThreeCaseNode (some ThreeCaseNode_Exec2) true =
          Outcome.done Pins1 ∧
        AddInputPin ThreeCaseNode = Outcome.done Pins1) :=
  ⟨by decide,
    ((AddCasePinAfter_eq_neighbour ThreeCaseNode 3 (by decide)).1 1 ThreeCaseNode_Cond1
      ThreeCaseNode_Cond2 (by decide) (by decide) (by decide) (by decide)).2.2,
    ((AddCasePinAfter_eq_neighbour ThreeCaseNode 3 (by decide)).2 ThreeCaseNode_Exec2
      (by decide) (by decide)).2⟩

end MultiBranch
